import Mathlib

/-!
# wsrooms: rooms, connections and the message envelope

A shallow embedding of `message.go`, `room.go` and `conn.go`.

* Go strings and byte slices are sequences of bytes (`List Nat`, every byte below 256).
* `encoding/json` is embedded for the shapes the package uses: a `Message`, a `[]string`.
* A `*Conn` is an index into the heap of connection objects; the two registries are
  association lists; a `sync.Map` used as a set is the list of its keys.
* Each intake of `Room.Start` is a function on the whole state.  A channel send that
  would panic or block is an outcome of its own, carrying the state reached so far.
* A goroutine that sends to a room goes on as soon as the loop of the room has received
  the value.  The run of `ReadPump` carries the rooms whose loop is suspended in a
  confirmation send: a later send to such a room suspends the pump.
-/

namespace Wsrooms

/-- Go `[]byte` and `string`: a sequence of bytes. -/
abbrev Bytes := List Nat

/-! ## unicode/utf8 -/

/-- Go `utf8.DecodeRune` on a non-empty input: `some (rune, size)`, and `none` for the
result `(RuneError, 1)` of an invalid or truncated encoding. -/
def decodeRune : Bytes → Option (Nat × Nat)
  | [] => none
  | p0 :: rest =>
    if p0 < 0x80 then some (p0, 1)
    else if p0 < 0xC2 then none
    else if p0 < 0xE0 then
      match rest with
      | b1 :: _ =>
        if 0x80 ≤ b1 ∧ b1 ≤ 0xBF then some ((p0 % 32) * 64 + b1 % 64, 2) else none
      | [] => none
    else if p0 < 0xF0 then
      match rest with
      | b1 :: b2 :: _ =>
        if (if p0 = 0xE0 then 0xA0 else 0x80) ≤ b1 ∧ b1 ≤ (if p0 = 0xED then 0x9F else 0xBF)
            ∧ 0x80 ≤ b2 ∧ b2 ≤ 0xBF then
          some ((p0 % 16) * 4096 + (b1 % 64) * 64 + b2 % 64, 3)
        else none
      | _ => none
    else if p0 < 0xF5 then
      match rest with
      | b1 :: b2 :: b3 :: _ =>
        if (if p0 = 0xF0 then 0x90 else 0x80) ≤ b1 ∧ b1 ≤ (if p0 = 0xF4 then 0x8F else 0xBF)
            ∧ 0x80 ≤ b2 ∧ b2 ≤ 0xBF ∧ 0x80 ≤ b3 ∧ b3 ≤ 0xBF then
          some ((p0 % 8) * 262144 + (b1 % 64) * 4096 + (b2 % 64) * 64 + b3 % 64, 4)
        else none
      | _ => none
    else none

/-- Go `utf8.AppendRune`: the UTF-8 encoding of a rune, of U+FFFD for a surrogate or a
value above U+10FFFF. -/
def encodeRune (r : Nat) : Bytes :=
  if r < 0x80 then [r]
  else if r < 0x800 then [0xC0 + r / 64, 0x80 + r % 64]
  else if 0x10FFFF < r ∨ (0xD800 ≤ r ∧ r ≤ 0xDFFF) then [0xEF, 0xBF, 0xBD]
  else if r < 0x10000 then [0xE0 + r / 4096, 0x80 + (r / 64) % 64, 0x80 + r % 64]
  else [0xF0 + r / 262144, 0x80 + (r / 4096) % 64, 0x80 + (r / 64) % 64, 0x80 + r % 64]

/-- Go `utf8.Valid`, by the same decoding steps; the fuel is the length of the input. -/
def validUTF8Loop : Nat → Bytes → Bool
  | _, [] => true
  | 0, _ :: _ => false
  | fuel + 1, b :: rest =>
    match decodeRune (b :: rest) with
    | none => false
    | some (_, size) => validUTF8Loop fuel ((b :: rest).drop size)

/-- Go `utf8.Valid`. -/
def validUTF8 (s : Bytes) : Bool := validUTF8Loop s.length s

/-! ## encoding/json: Marshal -/

/-- Go `hex[n]` of `const hex = "0123456789abcdef"`. -/
def hexDigit (n : Nat) : Nat := if n < 10 then 48 + n else 87 + n

/-- Decimal digits of a natural number, most significant first (`strconv.AppendUint`). -/
def formatNatLoop : Nat → Nat → Bytes → Bytes
  | 0, _, acc => acc
  | fuel + 1, n, acc =>
    if n < 10 then (48 + n) :: acc else formatNatLoop fuel (n / 10) ((48 + n % 10) :: acc)

/-- Go `strconv.AppendUint(nil, n, 10)`. -/
def formatNat (n : Nat) : Bytes := formatNatLoop (n + 1) n []

/-- Go `strconv.AppendInt(nil, i, 10)`, the encoding of an `int` field. -/
def formatInt (i : Int) : Bytes :=
  if i < 0 then 45 :: formatNat (-i).toNat else formatNat i.toNat

/-- The body of a JSON string as `json.Marshal` writes it (HTML escaping on): what stands
between the two quotes.  The fuel is the length of the input. -/
def escapeLoop : Nat → Bytes → Bytes
  | _, [] => []
  | 0, _ :: _ => []
  | fuel + 1, b :: rest =>
    if b < 0x80 then
      if b = 92 ∨ b = 34 then 92 :: b :: escapeLoop fuel rest
      else if b = 8 then 92 :: 98 :: escapeLoop fuel rest
      else if b = 12 then 92 :: 102 :: escapeLoop fuel rest
      else if b = 10 then 92 :: 110 :: escapeLoop fuel rest
      else if b = 13 then 92 :: 114 :: escapeLoop fuel rest
      else if b = 9 then 92 :: 116 :: escapeLoop fuel rest
      else if b < 0x20 ∨ b = 60 ∨ b = 62 ∨ b = 38 then
        92 :: 117 :: 48 :: 48 :: hexDigit (b / 16) :: hexDigit (b % 16) :: escapeLoop fuel rest
      else b :: escapeLoop fuel rest
    else
      match decodeRune (b :: rest) with
      | none => 92 :: 117 :: 102 :: 102 :: 102 :: 100 :: escapeLoop fuel rest
      | some (c, size) =>
        if c = 0x2028 ∨ c = 0x2029 then
          92 :: 117 :: 50 :: 48 :: 50 :: hexDigit (c % 16)
            :: escapeLoop fuel ((b :: rest).drop size)
        else (b :: rest).take size ++ escapeLoop fuel ((b :: rest).drop size)

/-- Go `appendString(dst, src, true)`: a quoted JSON string. -/
def appendString (s : Bytes) : Bytes := 34 :: (escapeLoop s.length s ++ [34])

/-- The character of a 6-bit value in the standard base64 alphabet. -/
def b64Char (n : Nat) : Nat :=
  if n < 26 then 65 + n
  else if n < 52 then 71 + n
  else if n < 62 then n - 4
  else if n = 62 then 43
  else 47

/-- Go `base64.StdEncoding.Encode`. -/
def base64Encode : Bytes → Bytes
  | a :: b :: c :: rest =>
    b64Char (a / 4) :: b64Char ((a % 4) * 16 + b / 16) :: b64Char ((b % 16) * 4 + c / 64)
      :: b64Char (c % 64) :: base64Encode rest
  | [a, b] => [b64Char (a / 4), b64Char ((a % 4) * 16 + b / 16), b64Char ((b % 16) * 4), 61]
  | [a] => [b64Char (a / 4), b64Char ((a % 4) * 16), 61, 61]
  | [] => []

/-- The elements of a JSON array of strings, comma separated. -/
def marshalStringsLoop : List Bytes → Bytes
  | [] => []
  | [s] => appendString s
  | s :: t :: rest => appendString s ++ 44 :: marshalStringsLoop (t :: rest)

/-- Go `json.Marshal` of a non-nil `[]string`; it never fails. -/
def marshalStrings (xs : List Bytes) : Bytes := 91 :: (marshalStringsLoop xs ++ [93])

/-- Go `json.Marshal` of a `[]byte`: `null` for the nil slice, else a base64 string. -/
def marshalPayload : Option Bytes → Bytes
  | none => [110, 117, 108, 108]
  | some p => 34 :: (base64Encode p ++ [34])

/-! ## message.go -/

/-- Go `type Message struct`.  The length fields are Go `int`; `Payload = none` is the nil
slice. -/
structure Message where
  RoomLength : Int
  Room : Bytes
  EventLength : Int
  Event : Bytes
  DstLength : Int
  Dst : Bytes
  SrcLength : Int
  Src : Bytes
  PayloadLength : Int
  Payload : Option Bytes
deriving DecidableEq, Repr

/-- The value of `new(Message)`. -/
def Message.zero : Message := ⟨0, [], 0, [], 0, [], 0, [], 0, none⟩

/-- Go `len(payload)` of a `[]byte`. -/
def payloadLen : Option Bytes → Nat
  | none => 0
  | some p => p.length

/-- Go `ConstructMessage`. -/
def ConstructMessage (room event dst src : Bytes) (payload : Option Bytes) : Message :=
  { RoomLength := room.length
    Room := room
    EventLength := event.length
    Event := event
    DstLength := dst.length
    Dst := dst
    SrcLength := src.length
    Src := src
    PayloadLength := payloadLen payload
    Payload := payload }

/-- The text `{"roomLength":`. -/
def keyRoomLength : Bytes := [123, 34, 114, 111, 111, 109, 76, 101, 110, 103, 116, 104, 34, 58]
/-- The text `,"room":`. -/
def keyRoom : Bytes := [44, 34, 114, 111, 111, 109, 34, 58]
/-- The text `,"eventLength":`. -/
def keyEventLength : Bytes :=
  [44, 34, 101, 118, 101, 110, 116, 76, 101, 110, 103, 116, 104, 34, 58]
/-- The text `,"event":`. -/
def keyEvent : Bytes := [44, 34, 101, 118, 101, 110, 116, 34, 58]
/-- The text `,"dstLength":`. -/
def keyDstLength : Bytes := [44, 34, 100, 115, 116, 76, 101, 110, 103, 116, 104, 34, 58]
/-- The text `,"dst":`. -/
def keyDst : Bytes := [44, 34, 100, 115, 116, 34, 58]
/-- The text `,"srcLength":`. -/
def keySrcLength : Bytes := [44, 34, 115, 114, 99, 76, 101, 110, 103, 116, 104, 34, 58]
/-- The text `,"src":`. -/
def keySrc : Bytes := [44, 34, 115, 114, 99, 34, 58]
/-- The text `,"payloadLength":`. -/
def keyPayloadLength : Bytes :=
  [44, 34, 112, 97, 121, 108, 111, 97, 100, 76, 101, 110, 103, 116, 104, 34, 58]
/-- The text `,"payload":`. -/
def keyPayload : Bytes := [44, 34, 112, 97, 121, 108, 111, 97, 100, 34, 58]

/-- Go `(*Message).Bytes`: `json.Marshal(msg)`, which cannot fail on this struct. -/
def Message.Bytes (m : Message) : Bytes :=
  keyRoomLength ++ formatInt m.RoomLength
    ++ keyRoom ++ appendString m.Room
    ++ keyEventLength ++ formatInt m.EventLength
    ++ keyEvent ++ appendString m.Event
    ++ keyDstLength ++ formatInt m.DstLength
    ++ keyDst ++ appendString m.Dst
    ++ keySrcLength ++ formatInt m.SrcLength
    ++ keySrc ++ appendString m.Src
    ++ keyPayloadLength ++ formatInt m.PayloadLength
    ++ keyPayload ++ marshalPayload m.Payload
    ++ [125]

/-! ## encoding/json: Unmarshal -/

/-- A JSON value as the scanner delimits it; a string is held unquoted, a number as its
literal text. -/
inductive JValue where
  | null
  | bool (b : Bool)
  | number (lit : Bytes)
  | string (s : Bytes)
  | array (xs : List JValue)
  | object (kvs : List (Bytes × JValue))

/-- The errors `json.Unmarshal` can return here: a `SyntaxError` of the scanner, an
`UnmarshalTypeError`, a `base64.CorruptInputError`. -/
inductive DecodeError where
  | malformed
  | mismatch
  | corruptBase64
deriving DecidableEq, Repr

/-- Go `isSpace` of the scanner: space, tab, carriage return, line feed. -/
def skipWS : Bytes → Bytes
  | [] => []
  | b :: rest => if b = 32 ∨ b = 9 ∨ b = 13 ∨ b = 10 then skipWS rest else b :: rest

/-- The value of a hexadecimal digit. -/
def hexVal (c : Nat) : Option Nat :=
  if 48 ≤ c ∧ c ≤ 57 then some (c - 48)
  else if 97 ≤ c ∧ c ≤ 102 then some (c - 87)
  else if 65 ≤ c ∧ c ≤ 70 then some (c - 55)
  else none

/-- Four hexadecimal digits at the head of the input. -/
def hex4 : Bytes → Option Nat
  | a :: b :: c :: d :: _ =>
    match hexVal a, hexVal b, hexVal c, hexVal d with
    | some x, some y, some z, some w => some (x * 4096 + y * 256 + z * 16 + w)
    | _, _, _, _ => none
  | _ => none

/-- Go `getu4`: the rune of a `\uXXXX` at the head of the input. -/
def getu4 : Bytes → Option Nat
  | x :: y :: rest => if x = 92 ∧ y = 117 then hex4 rest else none
  | _ => none

/-- The byte a one-letter escape stands for. -/
def simpleEscape (e : Nat) : Option Nat :=
  if e = 34 ∨ e = 92 ∨ e = 47 then some e
  else if e = 98 then some 8
  else if e = 102 then some 12
  else if e = 110 then some 10
  else if e = 114 then some 13
  else if e = 116 then some 9
  else none

/-- Puts decoded bytes in front of the rest of a string. -/
def consBytes (b : Bytes) : Option (Bytes × Bytes) → Option (Bytes × Bytes)
  | some (s, r) => some (b ++ s, r)
  | none => none

/-- A string literal after its opening quote: the scanner's string states together with
Go `unquote`.  Returns the unquoted string and the input after the closing quote. -/
def unquoteLoop : Nat → Bytes → Option (Bytes × Bytes)
  | 0, _ => none
  | _ + 1, [] => none
  | fuel + 1, c :: rest =>
    if c = 34 then some ([], rest)
    else if c = 92 then
      match rest with
      | [] => none
      | e :: rest1 =>
        if e = 117 then
          match hex4 rest1 with
          | none => none
          | some rr =>
            if 0xD800 ≤ rr ∧ rr < 0xE000 then
              match getu4 (rest1.drop 4) with
              | some rr1 =>
                if rr < 0xDC00 ∧ 0xDC00 ≤ rr1 ∧ rr1 < 0xE000 then
                  consBytes (encodeRune ((rr - 0xD800) * 1024 + (rr1 - 0xDC00) + 0x10000))
                    (unquoteLoop fuel (rest1.drop 10))
                else consBytes [0xEF, 0xBF, 0xBD] (unquoteLoop fuel (rest1.drop 4))
              | none => consBytes [0xEF, 0xBF, 0xBD] (unquoteLoop fuel (rest1.drop 4))
            else consBytes (encodeRune rr) (unquoteLoop fuel (rest1.drop 4))
        else
          match simpleEscape e with
          | some ch => consBytes [ch] (unquoteLoop fuel rest1)
          | none => none
    else if c < 0x20 then none
    else if c < 0x80 then consBytes [c] (unquoteLoop fuel rest)
    else
      match decodeRune (c :: rest) with
      | none => consBytes [0xEF, 0xBF, 0xBD] (unquoteLoop fuel rest)
      | some (r, size) => consBytes (encodeRune r) (unquoteLoop fuel ((c :: rest).drop size))

/-- A string literal after its opening quote. -/
def unquote (inp : Bytes) : Option (Bytes × Bytes) := unquoteLoop inp.length inp

/-- Whether a byte is a decimal digit. -/
def isDigit (c : Nat) : Bool := decide (48 ≤ c ∧ c ≤ 57)

/-- A non-empty run of digits and what follows it. -/
def digits1 (inp : Bytes) : Option (Bytes × Bytes) :=
  if inp.takeWhile isDigit = [] then none
  else some (inp.takeWhile isDigit, inp.dropWhile isDigit)

/-- The optional exponent of a number; `none` when an exponent starts and does not finish. -/
def scanExp (inp : Bytes) : Option (Bytes × Bytes) :=
  match inp with
  | e :: rest =>
    if e = 101 ∨ e = 69 then
      match rest with
      | s :: rest1 =>
        if s = 43 ∨ s = 45 then
          match digits1 rest1 with
          | some (ds, r) => some (e :: s :: ds, r)
          | none => none
        else
          match digits1 rest with
          | some (ds, r) => some (e :: ds, r)
          | none => none
      | [] => none
    else some ([], inp)
  | [] => some ([], [])

/-- The optional fraction and exponent of a number. -/
def scanFrac (inp : Bytes) : Option (Bytes × Bytes) :=
  match inp with
  | p :: rest =>
    if p = 46 then
      match digits1 rest with
      | some (ds, r) =>
        match scanExp r with
        | some (ex, r1) => some (p :: ds ++ ex, r1)
        | none => none
      | none => none
    else scanExp inp
  | [] => some ([], [])

/-- The integer part of a number, then fraction and exponent. -/
def scanUnsigned (inp : Bytes) : Option (Bytes × Bytes) :=
  match inp with
  | d :: rest =>
    if d = 48 then
      match scanFrac rest with
      | some (t, r) => some (d :: t, r)
      | none => none
    else if 49 ≤ d ∧ d ≤ 57 then
      match scanFrac (rest.dropWhile isDigit) with
      | some (t, r) => some (d :: rest.takeWhile isDigit ++ t, r)
      | none => none
    else none
  | [] => none

/-- The scanner's number states: the literal and what follows it. -/
def scanNumber (inp : Bytes) : Option (Bytes × Bytes) :=
  match inp with
  | c :: rest =>
    if c = 45 then
      match scanUnsigned rest with
      | some (t, r) => some (c :: t, r)
      | none => none
    else scanUnsigned inp
  | [] => none

/-- A fixed word at the head of the input. -/
def expectWord (word : Bytes) (v : JValue) (inp : Bytes) : Option (JValue × Bytes) :=
  if inp.take word.length = word then some (v, inp.drop word.length) else none

/-- A value that is not an array or an object. -/
def parseScalar (inp : Bytes) : Option (JValue × Bytes) :=
  match inp with
  | [] => none
  | c :: rest =>
    if c = 34 then
      match unquote rest with
      | some (s, r) => some (JValue.string s, r)
      | none => none
    else if c = 45 ∨ (48 ≤ c ∧ c ≤ 57) then
      match scanNumber inp with
      | some (l, r) => some (JValue.number l, r)
      | none => none
    else if c = 116 then expectWord [116, 114, 117, 101] (JValue.bool true) inp
    else if c = 102 then expectWord [102, 97, 108, 115, 101] (JValue.bool false) inp
    else if c = 110 then expectWord [110, 117, 108, 108] JValue.null inp
    else none

/-- The elements of a non-empty array, up to and including the closing bracket. -/
def parseElems (pv : Bytes → Option (JValue × Bytes)) :
    Nat → Bytes → Option (List JValue × Bytes)
  | 0, _ => none
  | fuel + 1, inp =>
    match pv inp with
    | none => none
    | some (v, r) =>
      match skipWS r with
      | [] => none
      | c :: r1 =>
        if c = 44 then
          match parseElems pv fuel (skipWS r1) with
          | some (vs, r2) => some (v :: vs, r2)
          | none => none
        else if c = 93 then some ([v], r1)
        else none

/-- The members of a non-empty object, up to and including the closing brace. -/
def parseMembers (pv : Bytes → Option (JValue × Bytes)) :
    Nat → Bytes → Option (List (Bytes × JValue) × Bytes)
  | 0, _ => none
  | fuel + 1, inp =>
    match inp with
    | [] => none
    | q :: r0 =>
      if q = 34 then
        match unquote r0 with
        | none => none
        | some (key, r1) =>
          match skipWS r1 with
          | [] => none
          | c :: r2 =>
            if c = 58 then
              match pv (skipWS r2) with
              | none => none
              | some (v, r3) =>
                match skipWS r3 with
                | [] => none
                | s :: r4 =>
                  if s = 44 then
                    match parseMembers pv fuel (skipWS r4) with
                    | some (kvs, r5) => some ((key, v) :: kvs, r5)
                    | none => none
                  else if s = 125 then some ([(key, v)], r4)
                  else none
            else none
      else none

/-- One JSON value at the head of the input; the first argument is how many more levels
of arrays and objects may open (the scanner's `maxNestingDepth`). -/
def parseValue : Nat → Bytes → Option (JValue × Bytes)
  | 0, inp => parseScalar inp
  | d + 1, inp =>
    match inp with
    | [] => none
    | c :: rest =>
      if c = 91 then
        match skipWS rest with
        | [] => none
        | c1 :: r1 =>
          if c1 = 93 then some (JValue.array [], r1)
          else
            match parseElems (parseValue d) rest.length (c1 :: r1) with
            | some (vs, r) => some (JValue.array vs, r)
            | none => none
      else if c = 123 then
        match skipWS rest with
        | [] => none
        | c1 :: r1 =>
          if c1 = 125 then some (JValue.object [], r1)
          else
            match parseMembers (parseValue d) rest.length (c1 :: r1) with
            | some (kvs, r) => some (JValue.object kvs, r)
            | none => none
      else parseScalar inp

/-- Go `checkValid` together with the delimiting of values: the whole input is one JSON
value between optional white space, nested at most 10000 deep. -/
def parseJSON (data : Bytes) : Option JValue :=
  match parseValue 10000 (skipWS data) with
  | some (v, rest) => if skipWS rest = [] then some v else none
  | none => none

/-- The value of decimal digits. -/
def digitsVal (ds : Bytes) : Nat := ds.foldl (fun acc d => 10 * acc + (d - 48)) 0

/-- Go `strconv.ParseInt(s, 10, 64)` on a number literal of the scanner. -/
def parseInt (lit : Bytes) : Option Int :=
  match lit with
  | [] => none
  | c :: ds =>
    if c = 45 then
      if ds ≠ [] ∧ ds.all isDigit ∧ digitsVal ds ≤ 2 ^ 63 then some (-(digitsVal ds : Int))
      else none
    else if lit.all isDigit ∧ digitsVal lit < 2 ^ 63 then some (digitsVal lit : Int)
    else none

/-- Go `strconv.ParseUint(s, 10, 64)` with the overflow check of a `uint8`. -/
def parseUint8 (lit : Bytes) : Option Nat :=
  if lit ≠ [] ∧ lit.all isDigit ∧ digitsVal lit < 256 then some (digitsVal lit) else none

/-- The 6-bit value of a character of the standard base64 alphabet. -/
def b64Val (c : Nat) : Option Nat :=
  if 65 ≤ c ∧ c ≤ 90 then some (c - 65)
  else if 97 ≤ c ∧ c ≤ 122 then some (c - 71)
  else if 48 ≤ c ∧ c ≤ 57 then some (c + 4)
  else if c = 43 then some 62
  else if c = 47 then some 63
  else none

/-- Drops line feeds and carriage returns. -/
def dropNL : Bytes → Bytes
  | [] => []
  | c :: rest => if c = 10 ∨ c = 13 then dropNL rest else c :: rest

/-- Go `base64.StdEncoding.Decode`; the first argument holds the 6-bit values read so far
in the current group of four. -/
def base64Loop : List Nat → Bytes → Option Bytes
  | acc, [] => if acc = [] then some [] else none
  | acc, c :: rest =>
    match b64Val c with
    | some v =>
      match acc with
      | [s0, s1, s2] =>
        match base64Loop [] rest with
        | some out =>
          some ((s0 * 4 + s1 / 16) :: ((s1 % 16) * 16 + s2 / 4) :: ((s2 % 4) * 64 + v) :: out)
        | none => none
      | _ => base64Loop (acc ++ [v]) rest
    | none =>
      if c = 10 ∨ c = 13 then base64Loop acc rest
      else if c = 61 then
        match acc with
        | [s0, s1] =>
          match dropNL rest with
          | p :: rest2 =>
            if p = 61 ∧ dropNL rest2 = [] then some [s0 * 4 + s1 / 16] else none
          | [] => none
        | [s0, s1, s2] =>
          if dropNL rest = [] then some [s0 * 4 + s1 / 16, (s1 % 16) * 16 + s2 / 4] else none
        | _ => none
      else none

/-- Go `base64.StdEncoding.Decode`. -/
def base64Decode (s : Bytes) : Option Bytes := base64Loop [] s

/-- Go `foldName` as far as it can meet the names of the fields, which are ASCII: a lower
case ASCII letter goes to upper case, U+017F to `S` and U+212A to `K`; other bytes stay. -/
def foldName : Bytes → Bytes
  | [] => []
  | [c] => [if 97 ≤ c ∧ c ≤ 122 then c - 32 else c]
  | [c, d] =>
    if c = 0xC5 ∧ d = 0xBF then [83]
    else (if 97 ≤ c ∧ c ≤ 122 then c - 32 else c) :: foldName [d]
  | c :: d :: e :: rest =>
    if c = 0xC5 ∧ d = 0xBF then 83 :: foldName (e :: rest)
    else if c = 0xE2 ∧ d = 0x84 ∧ e = 0xAA then 75 :: foldName rest
    else (if 97 ≤ c ∧ c ≤ 122 then c - 32 else c) :: foldName (d :: e :: rest)

/-- The fields of `Message`, in the order of the struct. -/
inductive Field where
  | roomLength | room | eventLength | event | dstLength | dst | srcLength | src
  | payloadLength | payload
deriving DecidableEq, Repr

/-- The name a field has in JSON (its struct tag). -/
def Field.tag : Field → Bytes
  | .roomLength => [114, 111, 111, 109, 76, 101, 110, 103, 116, 104]
  | .room => [114, 111, 111, 109]
  | .eventLength => [101, 118, 101, 110, 116, 76, 101, 110, 103, 116, 104]
  | .event => [101, 118, 101, 110, 116]
  | .dstLength => [100, 115, 116, 76, 101, 110, 103, 116, 104]
  | .dst => [100, 115, 116]
  | .srcLength => [115, 114, 99, 76, 101, 110, 103, 116, 104]
  | .src => [115, 114, 99]
  | .payloadLength => [112, 97, 121, 108, 111, 97, 100, 76, 101, 110, 103, 116, 104]
  | .payload => [112, 97, 121, 108, 111, 97, 100]

/-- Every field of `Message`. -/
def allFields : List Field :=
  [.roomLength, .room, .eventLength, .event, .dstLength, .dst, .srcLength, .src,
    .payloadLength, .payload]

/-- The field an object key selects: the one with exactly that name, else the first one
whose name is equal under case folding. -/
def findField (key : Bytes) : Option Field :=
  match allFields.find? (fun f => decide (f.tag = key)) with
  | some f => some f
  | none => allFields.find? (fun f => decide (foldName f.tag = foldName key))

/-- Go `literalStore` into an `int`. -/
def storeInt (v : JValue) (old : Int) : Int × Option DecodeError :=
  match v with
  | .number lit =>
    match parseInt lit with
    | some i => (i, none)
    | none => (old, some .mismatch)
  | .null => (old, none)
  | _ => (old, some .mismatch)

/-- Go `literalStore` into a `string`. -/
def storeString (v : JValue) (old : Bytes) : Bytes × Option DecodeError :=
  match v with
  | .string s => (s, none)
  | .null => (old, none)
  | _ => (old, some .mismatch)

/-- One element of a JSON array stored into a byte. -/
def storeByte (v : JValue) (old : Nat) : Nat × Option DecodeError :=
  match v with
  | .number lit =>
    match parseUint8 lit with
    | some b => (b, none)
    | none => (old, some .mismatch)
  | .null => (old, none)
  | _ => (old, some .mismatch)

/-- Go `(*decodeState).array` into a `[]byte`: element `i` is stored over the byte the
slice held at `i`, or over 0 past its length. -/
def storeBytes : List JValue → Nat → Bytes → Bytes × Option DecodeError
  | [], _, _ => ([], none)
  | v :: vs, i, old =>
    let b := storeByte v (old.getD i 0)
    let t := storeBytes vs (i + 1) old
    (b.1 :: t.1, b.2.orElse (fun _ => t.2))

/-- A value stored into the `[]byte` field: a string is base64, `null` gives the nil
slice, an array is stored element by element. -/
def storePayload (v : JValue) (old : Option Bytes) : Option Bytes × Option DecodeError :=
  match v with
  | .string s =>
    match base64Decode s with
    | some b => (some b, none)
    | none => (old, some .corruptBase64)
  | .null => (none, none)
  | .array xs =>
    let r := storeBytes xs 0 (old.getD [])
    (some r.1, r.2)
  | _ => (old, some .mismatch)

/-- One member of the object stored into the message: the message after it and the error
it saved, if any.  A key that selects no field is skipped. -/
def storeMember (m : Message) (key : Bytes) (v : JValue) : Message × Option DecodeError :=
  match findField key with
  | none => (m, none)
  | some .roomLength => let r := storeInt v m.RoomLength; ({ m with RoomLength := r.1 }, r.2)
  | some .room => let r := storeString v m.Room; ({ m with Room := r.1 }, r.2)
  | some .eventLength =>
    let r := storeInt v m.EventLength; ({ m with EventLength := r.1 }, r.2)
  | some .event => let r := storeString v m.Event; ({ m with Event := r.1 }, r.2)
  | some .dstLength => let r := storeInt v m.DstLength; ({ m with DstLength := r.1 }, r.2)
  | some .dst => let r := storeString v m.Dst; ({ m with Dst := r.1 }, r.2)
  | some .srcLength => let r := storeInt v m.SrcLength; ({ m with SrcLength := r.1 }, r.2)
  | some .src => let r := storeString v m.Src; ({ m with Src := r.1 }, r.2)
  | some .payloadLength =>
    let r := storeInt v m.PayloadLength; ({ m with PayloadLength := r.1 }, r.2)
  | some .payload => let r := storePayload v m.Payload; ({ m with Payload := r.1 }, r.2)

/-- The members of an object stored in order; the first error saved is the one kept. -/
def storeMembers : List (Bytes × JValue) → Message → Message × Option DecodeError
  | [], m => (m, none)
  | (key, v) :: kvs, m =>
    let r := storeMember m key v
    let t := storeMembers kvs r.1
    (t.1, r.2.orElse (fun _ => t.2))

/-- Go `json.Unmarshal(data, msg)`: the message afterwards and the error returned.  The
input is checked as a whole first; a type error is saved and decoding goes on. -/
def Unmarshal (data : Bytes) (msg : Message) : Message × Option DecodeError :=
  match parseJSON data with
  | none => (msg, some .malformed)
  | some (.object kvs) => storeMembers kvs msg
  | some .null => (msg, none)
  | some _ => (msg, some .mismatch)

/-- Go `BytesToMessage`: the error of `json.Unmarshal` is dropped. -/
def BytesToMessage (data : Bytes) : Message := (Unmarshal data Message.zero).1

/-! ## room.go and conn.go: the state -/

/-- Go `Conn.Send`, a `chan []byte` of capacity 256: the frames buffered, oldest first, and
whether `close` was called. -/
structure Chan where
  buf : List Bytes
  closed : Bool
deriving DecidableEq, Repr

/-- Go `type Conn struct`, without the socket and the cookie.  `Rooms` is the list of the
keys of the `sync.Map` (`Join` stores the name under itself). -/
structure Conn where
  ID : Bytes
  Send : Chan
  Rooms : List Bytes
deriving DecidableEq, Repr

/-- Go `type Room struct`, without its channels.  `Members` is the list of the keys of the
`sync.Map` (the join intake stores the identifier under itself). -/
structure Room where
  Name : Bytes
  Members : List Bytes
deriving DecidableEq, Repr

/-- What a room receives on one of its four channels: a `*Conn` on `joinchan` or
`leavechan`, a `RoomMessage` on `Send`, a value on `stopchan`. -/
inductive Intake where
  | joinchan (c : Nat)
  | leavechan (c : Nat)
  | Send (sender : Nat) (data : Bytes)
  | stopchan
deriving DecidableEq, Repr

/-- What the log of a run records: an intake handed to the room of that name, or a call
`Emitter.Emit(event, c, msg)` of the application's listeners. -/
inductive Effect where
  | intake (room : Bytes) (i : Intake)
  | listener (event : Bytes) (c : Nat) (msg : Message)
deriving DecidableEq, Repr

/-- The state of the package: every `Conn` object (a `*Conn` is its index in `heap`),
`ConnManager.Conns`, `RoomManager.Rooms` (a room is stored under its `Name`), the number
of listeners the `Emitter` holds for each event, and the log. -/
structure World where
  heap : List Conn
  Conns : List (Bytes × Nat)
  Rooms : List Room
  Listeners : List (Bytes × Nat)
  log : List Effect
deriving DecidableEq, Repr

/-- How an operation ends: it ran to its end; the goroutine is suspended in a send on a
full queue (the frame is not enqueued); the Go runtime panicked (send on, or close of, a
closed channel).  Each carries the state reached. -/
inductive Outcome where
  | done (w : World)
  | blocked (w : World) (c : Nat) (frame : Bytes)
  | panicked (w : World)
deriving DecidableEq, Repr

/-- The state an outcome carries. -/
def Outcome.world : Outcome → World
  | .done w => w
  | .blocked w _ _ => w
  | .panicked w => w

/-- Sequencing: what follows runs only after an operation that ran to its end. -/
def Outcome.andThen (o : Outcome) (f : World → Outcome) : Outcome :=
  match o with
  | .done w => f w
  | .blocked w c frame => .blocked w c frame
  | .panicked w => .panicked w

/-- The capacity of `Conn.Send`: `make(chan []byte, 256)`. -/
def sendCap : Nat := 256

/-- `sync.Map.Store(k, k)` on the list of keys. -/
def mapStore (k : Bytes) (m : List Bytes) : List Bytes := if k ∈ m then m else m ++ [k]

/-- `sync.Map.Delete(k)` on the list of keys. -/
def mapDelete (k : Bytes) (m : List Bytes) : List Bytes := m.filter (fun x => decide (x ≠ k))

/-- The connection object a `*Conn` points to. -/
def World.conn (w : World) (p : Nat) : Conn := w.heap.getD p ⟨[], ⟨[], false⟩, []⟩

/-- Writes a connection object. -/
def World.setConn (w : World) (p : Nat) (c : Conn) : World := { w with heap := w.heap.set p c }

/-- `ConnManager.Conns.Load(id)`. -/
def World.loadConn (w : World) (id : Bytes) : Option Nat := w.Conns.lookup id

/-- `RoomManager.Rooms.Load(name)`. -/
def World.loadRoom (w : World) (name : Bytes) : Option Room :=
  w.Rooms.find? (fun r => decide (r.Name = name))

/-- The keys of the `Members` map of the room stored under a name, in the order `Range`
visits them. -/
def World.members (w : World) (name : Bytes) : List Bytes :=
  match w.loadRoom name with
  | some r => r.Members
  | none => []

/-- Changes the `Members` map of the room stored under a name. -/
def World.setMembers (w : World) (name : Bytes) (f : List Bytes → List Bytes) : World :=
  { w with Rooms := w.Rooms.map (fun r => if r.Name = name then { r with Members := f r.Members } else r) }

/-- Appends to the log. -/
def World.record (w : World) (e : Effect) : World := { w with log := w.log ++ [e] }

/-- `Emitter.GetListenerCount(event)`. -/
def World.listenerCount (w : World) (event : Bytes) : Nat := (w.Listeners.lookup event).getD 0

/-- A frame put at the end of a connection's queue. -/
def World.enqueue (w : World) (p : Nat) (frame : Bytes) : World :=
  w.setConn p { w.conn p with Send := { (w.conn p).Send with buf := (w.conn p).Send.buf ++ [frame] } }

/-- Go `c.Send <- frame`, a blocking send: it panics on a closed channel, enqueues while
the buffer has room, and otherwise suspends the sender. -/
def sendBlocking (w : World) (p : Nat) (frame : Bytes) : Outcome :=
  if (w.conn p).Send.closed then .panicked w
  else if (w.conn p).Send.buf.length < sendCap then .done (w.enqueue p frame)
  else .blocked w p frame

/-- Go `close(c.Send)`: it panics on a closed channel. -/
def closeSend (w : World) (p : Nat) : Outcome :=
  if (w.conn p).Send.closed then .panicked w
  else .done (w.setConn p { w.conn p with Send := { (w.conn p).Send with closed := true } })

/-- `sync.Map.Range` with a callback that always returns true: the keys of the snapshot
are visited in order. -/
def rangeM (f : World → Bytes → Outcome) : List Bytes → World → Outcome
  | [], w => .done w
  | k :: ks, w => (f w k).andThen (rangeM f ks)

/-! ## room.go -/

/-- The text `join`. -/
def evJoin : Bytes := [106, 111, 105, 110]
/-- The text `leave`. -/
def evLeave : Bytes := [108, 101, 97, 118, 101]
/-- The text `joined`. -/
def evJoined : Bytes := [106, 111, 105, 110, 101, 100]
/-- The text `left`. -/
def evLeft : Bytes := [108, 101, 102, 116]
/-- The text `root`. -/
def roomRoot : Bytes := [114, 111, 111, 116]

/-- The callback of `Range` in the broadcast intake, at member `k`: a member that does not
resolve, or resolves to the sender, is passed over; otherwise `select` with a send and a
`default`, which deletes the member and closes its queue when the queue is full. -/
def broadcastVisit (name : Bytes) (sender : Nat) (data : Bytes) (w : World) (k : Bytes) :
    Outcome :=
  match w.loadConn k with
  | none => .done w
  | some p =>
    if p = sender then .done w
    else if (w.conn p).Send.closed then .panicked w
    else if (w.conn p).Send.buf.length < sendCap then .done (w.enqueue p data)
    else closeSend (w.setMembers name (mapDelete k)) p

/-- Go `(*Room).Start`, one turn of the loop: the room stored under `name` services one
intake to completion. -/
def Room.Start (w : World) (name : Bytes) : Intake → Outcome
  | .joinchan c =>
    let members := w.members name
    let w1 := w.setMembers name (mapStore (w.conn c).ID)
    let payload := marshalStrings members
    sendBlocking w1 c (ConstructMessage name evJoin [] (w.conn c).ID (some payload)).Bytes
  | .leavechan c =>
    if (w.conn c).ID ∈ w.members name then
      sendBlocking (w.setMembers name (mapDelete (w.conn c).ID)) c
        (ConstructMessage name evLeave [] (w.conn c).ID (some (w.conn c).ID)).Bytes
    else .done w
  | .Send sender data => rangeM (broadcastVisit name sender data) (w.members name) w
  | .stopchan => .done { w with Rooms := w.Rooms.filter (fun r => decide (r.Name ≠ name)) }

/-- A value sent on one of the room's channels, which are unbuffered: the loop takes it
and services it. -/
def Room.submit (w : World) (name : Bytes) (i : Intake) : Outcome :=
  Room.Start (w.record (.intake name i)) name i

/-- Go `(*Room).Stop`. -/
def Room.Stop (w : World) (name : Bytes) : Outcome := Room.submit w name .stopchan

/-- Go `(*Room).Join`. -/
def Room.Join (w : World) (name : Bytes) (c : Nat) : Outcome := Room.submit w name (.joinchan c)

/-- Go `(*Room).Leave`. -/
def Room.Leave (w : World) (name : Bytes) (c : Nat) : Outcome :=
  Room.submit w name (.leavechan c)

/-- Go `(*Room).Emit`. -/
def Room.Emit (w : World) (name : Bytes) (c : Nat) (msg : Message) : Outcome :=
  Room.submit w name (.Send c msg.Bytes)

/-- Go `NewRoom`: a room with no member, stored under its name. -/
def NewRoom (w : World) (name : Bytes) : World :=
  { w with Rooms := w.Rooms.filter (fun r => decide (r.Name ≠ name)) ++ [⟨name, []⟩] }

/-! ## conn.go -/

/-- Go `(*Conn).Join`. -/
def Conn.Join (w : World) (c : Nat) (name : Bytes) : Outcome :=
  let w1 := match w.loadRoom name with
    | some _ => w
    | none => NewRoom w name
  let w2 := w1.setConn c { w1.conn c with Rooms := mapStore name (w1.conn c).Rooms }
  Room.Join w2 name c

/-- Go `(*Conn).Leave`. -/
def Conn.Leave (w : World) (c : Nat) (name : Bytes) : Outcome :=
  match w.loadRoom name with
  | none => .done w
  | some _ =>
    if name ∈ (w.conn c).Rooms then
      Room.Leave (w.setConn c { w.conn c with Rooms := mapDelete name (w.conn c).Rooms }) name c
    else .done w

/-- Go `(*Conn).Emit`. -/
def Conn.Emit (w : World) (c : Nat) (msg : Message) : Outcome :=
  match w.loadRoom msg.Room with
  | some _ => Room.Emit w msg.Room c msg
  | none => .done w

/-- The end of the `left` case and of the close branch: the connection's identifier is
deleted from the room's members, and the room is stopped when none is left. -/
def dropAndStop (w : World) (c : Nat) (name : Bytes) : Outcome :=
  let w1 := w.setMembers name (mapDelete (w.conn c).ID)
  if (w1.members name).length = 0 then Room.Stop w1 name else .done w1

/-- Go `HandleData`. -/
def HandleData (w : World) (c : Nat) (msg : Message) : Outcome :=
  if msg.Event = evJoin then Conn.Join w c msg.Room
  else if msg.Event = evLeave then Conn.Leave w c msg.Room
  else if msg.Event = evJoined then Conn.Emit w c msg
  else if msg.Event = evLeft then
    (Conn.Emit w c msg).andThen fun w1 =>
      match w1.loadRoom msg.Room with
      | none => .done w1
      | some _ => dropAndStop w1 c msg.Room
  else if msg.Dst ≠ [] then
    match w.loadRoom msg.Room with
    | none => .done w
    | some r =>
      if msg.Dst ∈ r.Members then
        match w.loadConn msg.Dst with
        | none => .done w
        | some dst => sendBlocking w dst msg.Bytes
      else .done w
  else if 0 < w.listenerCount msg.Event then .done (w.record (.listener msg.Event c msg))
  else Conn.Emit w c msg

/-- How `c.Socket.ReadMessage` fails in the end: with a `*websocket.CloseError`, or with
any other error. -/
inductive ReadError where
  | closeError
  | other
deriving DecidableEq, Repr

/-! ## conn.go: the read pump beside the rooms' loops

`(*Room).Join`, `Leave`, `Emit` and `Stop` send on a channel of the room that has no
buffer: the send returns as soon as the loop of the room has received the value, and the
loop services the value on its own goroutine.  So a confirmation send that finds the queue
full suspends the loop of the room, not the sender; and a loop that is suspended receives
nothing, so the next send on a channel of that room suspends its sender.  `ReadPump` makes
many such sends one after the other, so its run carries the rooms whose loop is
suspended. -/

/-- The run of a goroutine that sends to the rooms: the state, and the rooms whose loop is
suspended in a confirmation send, each under its name with the connection and the frame
of that send. -/
structure Pump where
  world : World
  parked : List (Bytes × Nat × Bytes)
deriving DecidableEq, Repr

/-- How far the goroutine has come: it goes on (or has returned); it is suspended, in a
send of its own on a full queue or at the channel of a room whose loop is suspended in the
send given; the Go runtime panicked, which ends the process. -/
inductive Progress where
  | going (s : Pump)
  | suspended (s : Pump) (c : Nat) (frame : Bytes)
  | panicked (s : Pump)
deriving DecidableEq, Repr

/-- The run a progress carries. -/
def Progress.state : Progress → Pump
  | .going s => s
  | .suspended s _ _ => s
  | .panicked s => s

/-- Sequencing: what follows runs only while the goroutine goes on. -/
def Progress.andThen (o : Progress) (f : Pump → Progress) : Progress :=
  match o with
  | .going s => f s
  | .suspended s c frame => .suspended s c frame
  | .panicked s => .panicked s

/-- The outcome for the goroutine, without the suspended loops. -/
def Progress.outcome : Progress → Outcome
  | .going s => .done s.world
  | .suspended s c frame => .blocked s.world c frame
  | .panicked s => .panicked s.world

/-- Go `r.joinchan <- c`, `r.leavechan <- c`, `r.Send <- rmsg`, `r.stopchan <- true`, from
the sender: when the loop of the room is suspended the sender is suspended with it;
otherwise the loop receives the value and the sender goes on, whether the loop services
the value to its end or is suspended in its confirmation send.  A panic of the loop ends
the process. -/
def Pump.handOff (s : Pump) (name : Bytes) (i : Intake) : Progress :=
  match s.parked.lookup name with
  | some e => .suspended s e.1 e.2
  | none =>
    match Room.submit s.world name i with
    | .done w => .going ⟨w, s.parked⟩
    | .blocked w c frame => .going ⟨w, s.parked ++ [(name, c, frame)]⟩
    | .panicked w => .panicked ⟨w, s.parked⟩

/-- Go `(*Conn).Join`, from the sender.  A room made by `NewRoom` has a loop of its own,
which is not suspended. -/
def Pump.Join (s : Pump) (c : Nat) (name : Bytes) : Progress :=
  let s1 : Pump := match s.world.loadRoom name with
    | some _ => s
    | none => ⟨NewRoom s.world name, s.parked.filter (fun e => decide (e.1 ≠ name))⟩
  let w2 := s1.world.setConn c { s1.world.conn c with Rooms := mapStore name (s1.world.conn c).Rooms }
  Pump.handOff ⟨w2, s1.parked⟩ name (.joinchan c)

/-- Go `(*Conn).Leave`, from the sender. -/
def Pump.Leave (s : Pump) (c : Nat) (name : Bytes) : Progress :=
  match s.world.loadRoom name with
  | none => .going s
  | some _ =>
    if name ∈ (s.world.conn c).Rooms then
      Pump.handOff
        ⟨s.world.setConn c { s.world.conn c with Rooms := mapDelete name (s.world.conn c).Rooms },
          s.parked⟩ name (.leavechan c)
    else .going s

/-- Go `(*Conn).Emit`, from the sender. -/
def Pump.Emit (s : Pump) (c : Nat) (msg : Message) : Progress :=
  match s.world.loadRoom msg.Room with
  | some _ => Pump.handOff s msg.Room (.Send c msg.Bytes)
  | none => .going s

/-- The end of the `left` case and of the close branch, from the sender: the delete is the
sender's own, the stop is sent to the room. -/
def Pump.dropAndStop (s : Pump) (c : Nat) (name : Bytes) : Progress :=
  let w1 := s.world.setMembers name (mapDelete (s.world.conn c).ID)
  if (w1.members name).length = 0 then Pump.handOff ⟨w1, s.parked⟩ name .stopchan
  else .going ⟨w1, s.parked⟩

/-- Go `HandleData`, from the sender.  The directed send is the sender's own: a full queue
suspends the sender. -/
def Pump.HandleData (s : Pump) (c : Nat) (msg : Message) : Progress :=
  if msg.Event = evJoin then Pump.Join s c msg.Room
  else if msg.Event = evLeave then Pump.Leave s c msg.Room
  else if msg.Event = evJoined then Pump.Emit s c msg
  else if msg.Event = evLeft then
    (Pump.Emit s c msg).andThen fun s1 =>
      match s1.world.loadRoom msg.Room with
      | none => .going s1
      | some _ => Pump.dropAndStop s1 c msg.Room
  else if msg.Dst ≠ [] then
    match s.world.loadRoom msg.Room with
    | none => .going s
    | some r =>
      if msg.Dst ∈ r.Members then
        match s.world.loadConn msg.Dst with
        | none => .going s
        | some dst =>
          match sendBlocking s.world dst msg.Bytes with
          | .done w => .going ⟨w, s.parked⟩
          | .blocked w p frame => .suspended ⟨w, s.parked⟩ p frame
          | .panicked w => .panicked ⟨w, s.parked⟩
      else .going s
  else if 0 < s.world.listenerCount msg.Event then
    .going ⟨s.world.record (.listener msg.Event c msg), s.parked⟩
  else Pump.Emit s c msg

/-- The `sync.Map.Range` of the read pump, with a callback that always returns true: the
keys of the snapshot are visited in order. -/
def Pump.rangeM (f : Pump → Bytes → Progress) : List Bytes → Pump → Progress
  | [], s => .going s
  | k :: ks, s => (f s k).andThen (Pump.rangeM f ks)

/-- The callback of `c.Rooms.Range` after a close error, at room name `k`. -/
def Pump.closeVisit (c : Nat) (s : Pump) (k : Bytes) : Progress :=
  match s.world.loadRoom k with
  | none => .going s
  | some _ =>
    (Pump.handOff s k
      (.Send c (ConstructMessage k evLeft [] (s.world.conn c).ID
        (some (s.world.conn c).ID)).Bytes)).andThen
      fun s1 => Pump.dropAndStop s1 c k

/-- The callback of `c.Rooms.Range` in the deferred function, at room name `k`. -/
def Pump.deferVisit (c : Nat) (s : Pump) (k : Bytes) : Progress :=
  match s.world.loadRoom k with
  | some _ => Pump.handOff s k (.leavechan c)
  | none => .going s

/-- The `for` loop of `ReadPump`: the frames the socket delivers, then the error that
ends the loop. -/
def Pump.readLoop (c : Nat) : List Bytes → ReadError → Pump → Progress
  | [], .closeError, s => Pump.rangeM (Pump.closeVisit c) (s.world.conn c).Rooms s
  | [], .other, s => .going s
  | data :: rest, e, s =>
    (Pump.HandleData s c (BytesToMessage data)).andThen (Pump.readLoop c rest e)

/-- Go `(*Conn).ReadPump` beside rooms of which some loops are suspended: the loop, then
the deferred function. -/
def Pump.ReadPump (s : Pump) (c : Nat) (frames : List Bytes) (e : ReadError) : Progress :=
  (Pump.readLoop c frames e s).andThen fun s1 =>
    Pump.rangeM (Pump.deferVisit c) (s1.world.conn c).Rooms s1

/-- Go `(*Conn).ReadPump`, started while no loop is suspended. -/
def Conn.ReadPump (w : World) (c : Nat) (frames : List Bytes) (e : ReadError) : Outcome :=
  (Pump.ReadPump ⟨w, []⟩ c frames e).outcome

/-- Go `NewConnection` when the upgrade succeeds and the identifier source returns `id`:
the new state and the `*Conn`. -/
def NewConnection (w : World) (id : Bytes) : World × Nat :=
  ({ w with
      heap := w.heap ++ [⟨id, ⟨[], false⟩, []⟩]
      Conns := w.Conns.filter (fun e => decide (e.1 ≠ id)) ++ [(id, w.heap.length)] },
    w.heap.length)

/-- Go `SocketHandler` on a `GET` request, up to the start of the read pump. -/
def SocketHandler (w : World) (id : Bytes) : Outcome :=
  Conn.Join (NewConnection w id).1 (NewConnection w id).2 roomRoot

/-- The state at process start: both registries empty. -/
def World.init (listeners : List (Bytes × Nat)) : World := ⟨[], [], [], listeners, []⟩

/-- Whether an operation ran to its end. -/
def Outcome.isDone : Outcome → Bool
  | .done _ => true
  | _ => false

/-- Whether an operation ended in a panic of the Go runtime. -/
def Outcome.isPanicked : Outcome → Bool
  | .panicked _ => true
  | _ => false

/-- One member of a JSON object as `json.Marshal` lays it out: the quoted key, a colon,
the text of the value, and what follows. -/
def memberText (key value rest : Bytes) : Bytes := 34 :: (key ++ 34 :: 58 :: (value ++ rest))

/-- The members of a JSON object as `json.Marshal` lays them out, from the first key to the
closing brace, followed by `tail`.  An item is a key, the text of its value, and the value
the text stands for. -/
def objectBody : List (Bytes × Bytes × JValue) → Bytes → Bytes
  | [], tail => tail
  | [it], tail => memberText it.1 it.2.1 (125 :: tail)
  | it :: it2 :: rest, tail => memberText it.1 it.2.1 (44 :: objectBody (it2 :: rest) tail)

/-- The JSON value of a `[]byte` as `json.Marshal` writes it. -/
def payloadValue : Option Bytes → JValue
  | none => .null
  | some p => .string (base64Encode p)

/-- The ten members of a marshalled `Message`. -/
def messageItems (m : Message) : List (Bytes × Bytes × JValue) :=
  [(Field.roomLength.tag, formatInt m.RoomLength, .number (formatInt m.RoomLength)),
   (Field.room.tag, appendString m.Room, .string m.Room),
   (Field.eventLength.tag, formatInt m.EventLength, .number (formatInt m.EventLength)),
   (Field.event.tag, appendString m.Event, .string m.Event),
   (Field.dstLength.tag, formatInt m.DstLength, .number (formatInt m.DstLength)),
   (Field.dst.tag, appendString m.Dst, .string m.Dst),
   (Field.srcLength.tag, formatInt m.SrcLength, .number (formatInt m.SrcLength)),
   (Field.src.tag, appendString m.Src, .string m.Src),
   (Field.payloadLength.tag, formatInt m.PayloadLength, .number (formatInt m.PayloadLength)),
   (Field.payload.tag, marshalPayload m.Payload, payloadValue m.Payload)]

/-- A later state in which no registry entry of a connection, no identifier and no
joined-set has changed, every room of the registry was there before under the same name,
and no room has gained a member. -/
def Shrink (w w' : World) : Prop :=
  w'.Conns = w.Conns ∧ w'.heap.length = w.heap.length ∧
  (∀ q, (w'.conn q).ID = (w.conn q).ID ∧ (w'.conn q).Rooms = (w.conn q).Rooms) ∧
  (∀ r' ∈ w'.Rooms, ∃ r ∈ w.Rooms, r.Name = r'.Name ∧ ∀ x ∈ r'.Members, x ∈ r.Members) ∧
  ((w.Rooms.map Room.Name).Nodup → (w'.Rooms.map Room.Name).Nodup)

/-- The joined-set of connection `c` records every room of the registry that has the
identifier of `c` among its members; the registry holds one room under a name; `c` is a
connection object. -/
def Joined (w : World) (c : Nat) : Prop :=
  (w.Rooms.map Room.Name).Nodup ∧ c < w.heap.length ∧
  ∀ r ∈ w.Rooms, (w.conn c).ID ∈ r.Members → r.Name ∈ (w.conn c).Rooms

/-- What a step of the run of connection `c` keeps: the Connection Registry, the
identifier of every connection, that the Room Registry holds one room under a name, and
that the joined-set of `c` records its memberships. -/
def Kept (c : Nat) (w w' : World) : Prop :=
  w'.Conns = w.Conns ∧ (∀ q, (w'.conn q).ID = (w.conn q).ID) ∧
  ((w.Rooms.map Room.Name).Nodup → (w'.Rooms.map Room.Name).Nodup) ∧
  (Joined w c → Joined w' c)

/-! ## Concrete states -/

namespace Demo

/-- The text `lobby`. -/
def lobby : Bytes := [108, 111, 98, 98, 121]

/-- The identifier `A`. -/
def idA : Bytes := [65]

/-- The identifier `B`. -/
def idB : Bytes := [66]

/-- A frame of two bytes, the text of an empty JSON object. -/
def frame : Bytes := [123, 125]

/-- Connection `A` (pointer 0) has connected: it is the one member of `root`. -/
def oneConn : World := (SocketHandler (World.init []) idA).world

/-- After `oneConn`, connection `A` has joined `lobby`, which did not exist. -/
def oneInLobby : World := (Conn.Join oneConn 0 lobby).world

/-- After `oneConn`, connection `B` (pointer 1) has connected too. -/
def twoConns : World := (SocketHandler oneConn idB).world

/-- After `twoConns`, `A` and then `B` have joined `lobby`. -/
def bothInLobby : World := (Conn.Join (Conn.Join twoConns 0 lobby).world 1 lobby).world

/-- A message `A` could send: event `chat`, room `lobby`, no destination. -/
def chat : Message := ConstructMessage lobby [99, 104, 97, 116] [] idA none

/-- A message `A` could send: event `chat`, room `root`, no destination. -/
def chatRoot : Message := ConstructMessage roomRoot [99, 104, 97, 116] [] idA none

/-- A message `A` could send: event `leave`, room `lobby`. -/
def leaveLobby : Message := ConstructMessage lobby evLeave [] idA none

/-- The state `bothInLobby` after `A` has sent `chat` `j` times while the write pump of `B`
took nothing: the queue of `B` holds its two join messages and `j` copies of the frame. -/
def backlog (j : Nat) : World :=
  { heap :=
      [⟨idA, ⟨[(ConstructMessage roomRoot evJoin [] idA (some (marshalStrings []))).Bytes,
                (ConstructMessage lobby evJoin [] idA (some (marshalStrings []))).Bytes],
             false⟩, [roomRoot, lobby]⟩,
       ⟨idB, ⟨[(ConstructMessage roomRoot evJoin [] idB (some (marshalStrings [idA]))).Bytes,
                (ConstructMessage lobby evJoin [] idB (some (marshalStrings [idA]))).Bytes]
               ++ List.replicate j chat.Bytes,
             false⟩, [roomRoot, lobby]⟩]
    Conns := [(idA, 0), (idB, 1)]
    Rooms := [⟨roomRoot, [idA, idB]⟩, ⟨lobby, [idA, idB]⟩]
    Listeners := []
    log := [.intake roomRoot (.joinchan 0), .intake roomRoot (.joinchan 1),
            .intake lobby (.joinchan 0), .intake lobby (.joinchan 1)]
          ++ List.replicate j (.intake lobby (.Send 0 chat.Bytes)) }

/-- Connections `A` and `B` are both members of `root` and of `lobby`; the queue of `B`
holds 256 frames its write pump has not taken yet: its two join messages and 254 frames
that `A` broadcast in `lobby`. -/
def slowB : World := backlog 254

/-- The state `slowB` after `A` has sent `chat` once more: `B` was evicted from `lobby` and
its queue closed, and `B` is still a member of `root`. -/
def evictedB : World := (HandleData slowB 0 chat).world

/-- The state `slowB` after `A` has left `lobby`: `B` is the only member of `lobby`. -/
def aloneB : World := (HandleData slowB 0 leaveLobby).world

/-- A frame a client could send: the text `{"room":"a","event":1}`, a JSON object with a
number where the event name should be. -/
def mistyped : Bytes :=
  [123, 34, 114, 111, 111, 109, 34, 58, 34, 97, 34, 44, 34, 101, 118, 101, 110, 116, 34, 58,
    49, 125]

/-- A frame cut short: the text `{"room":"a"`. -/
def truncated : Bytes := [123, 34, 114, 111, 111, 109, 34, 58, 34, 97, 34]

/-- A frame from a client: the JSON text of a message with event `join` and room `lobby`. -/
def joinLobby : Bytes := (ConstructMessage lobby evJoin [] [] none).Bytes

/-- A message `A` could send: event `chat`, room `root`, destination `B`. -/
def directed : Message := ConstructMessage roomRoot [99, 104, 97, 116] idB idA none

end Demo

/-! # Theorems -/

set_option maxRecDepth 100000

/-! ## Decimal integers -/

theorem digitsVal_append (xs : Bytes) (x : Nat) :
    digitsVal (xs ++ [x]) = 10 * digitsVal xs + (x - 48) := by
  simp [digitsVal, List.foldl_append]

/-- What `formatNatLoop` puts in front of the accumulator: the digits of `n`, with no
leading zero. -/
theorem formatNatLoop_spec : ∀ (fuel n : Nat) (acc : Bytes), n < fuel →
    ∃ d ds, formatNatLoop fuel n acc = d :: ds ++ acc ∧
      (∀ x ∈ d :: ds, isDigit x = true) ∧ (n = 0 → d = 48 ∧ ds = []) ∧
      (0 < n → 49 ≤ d) ∧ digitsVal (d :: ds) = n := by
  intro fuel
  induction fuel with
  | zero => intro n acc h; omega
  | succ fuel ih =>
    intro n acc h
    unfold formatNatLoop
    by_cases h10 : n < 10
    · rw [if_pos h10]
      refine ⟨48 + n, [], rfl, ?_, ?_, ?_, ?_⟩
      · intro x hx
        simp only [List.mem_singleton] at hx
        subst hx
        simp [isDigit]; omega
      · intro h0; subst h0; exact ⟨rfl, rfl⟩
      · intro _; omega
      · simp [digitsVal]
    · rw [if_neg h10]
      obtain ⟨d, ds, heq, hdig, _, hpos, hval⟩ :=
        ih (n / 10) ((48 + n % 10) :: acc) (by omega)
      refine ⟨d, ds ++ [48 + n % 10], ?_, ?_, ?_, ?_, ?_⟩
      · rw [heq]; simp
      · intro x hx
        rw [← List.cons_append, List.mem_append] at hx
        rcases hx with hx | hx
        · exact hdig x hx
        · simp only [List.mem_singleton] at hx
          subst hx
          simp [isDigit]; omega
      · intro h0; omega
      · intro _; exact hpos (by omega)
      · rw [← List.cons_append, digitsVal_append, hval]
        omega

theorem formatNat_spec (n : Nat) :
    ∃ d ds, formatNat n = d :: ds ∧
      (∀ x ∈ d :: ds, isDigit x = true) ∧ (n = 0 → d = 48 ∧ ds = []) ∧
      (0 < n → 49 ≤ d) ∧ digitsVal (d :: ds) = n := by
  obtain ⟨d, ds, heq, h⟩ := formatNatLoop_spec (n + 1) n [] (by omega)
  exact ⟨d, ds, by rw [formatNat, heq]; simp, h⟩

theorem span_digits (ds : Bytes) (c : Nat) (rest : Bytes)
    (hds : ∀ x ∈ ds, isDigit x = true) (hc : isDigit c = false) :
    (ds ++ c :: rest).takeWhile isDigit = ds ∧ (ds ++ c :: rest).dropWhile isDigit = c :: rest := by
  induction ds with
  | nil => simp [List.takeWhile, List.dropWhile, hc]
  | cons d ds ih =>
    have hd := hds d (List.mem_cons_self _ _)
    have := ih (fun x hx => hds x (List.mem_cons_of_mem _ hx))
    simp [List.takeWhile, List.dropWhile, hd, this]

theorem scanFrac_stop (c : Nat) (rest : Bytes) (hc : c = 44 ∨ c = 125) :
    scanFrac (c :: rest) = some ([], c :: rest) := by
  rcases hc with h | h <;> subst h <;> simp [scanFrac, scanExp]

theorem isDigit_stop (c : Nat) (hc : c = 44 ∨ c = 125) : isDigit c = false := by
  rcases hc with h | h <;> subst h <;> decide

theorem scanUnsigned_formatNat (n c : Nat) (rest : Bytes) (hc : c = 44 ∨ c = 125) :
    scanUnsigned (formatNat n ++ c :: rest) = some (formatNat n, c :: rest) := by
  obtain ⟨d, ds, heq, hdig, hzero, hpos, _⟩ := formatNat_spec n
  rw [heq]
  have hd : isDigit d = true := hdig d (List.mem_cons_self _ _)
  have hd' : 48 ≤ d ∧ d ≤ 57 := by simpa [isDigit] using hd
  have hspan := span_digits ds c rest (fun x hx => hdig x (List.mem_cons_of_mem _ hx))
    (isDigit_stop c hc)
  by_cases h0 : d = 48
  · have hn : n = 0 := by
      by_contra hne
      have := hpos (Nat.pos_of_ne_zero hne)
      omega
    obtain ⟨_, hds⟩ := hzero hn
    subst hds
    subst h0
    simp [scanUnsigned, scanFrac_stop c rest hc]
  · have h1 : 49 ≤ d ∧ d ≤ 57 := by omega
    simp only [scanUnsigned, List.cons_append, h0, if_false, h1, and_self, if_true, hspan.1, hspan.2,
      scanFrac_stop c rest hc, List.append_nil]

theorem formatNat_head_ne_minus (n : Nat) : ∃ d ds, formatNat n = d :: ds ∧ d ≠ 45 ∧
    isDigit d = true := by
  obtain ⟨d, ds, heq, hdig, _, _, _⟩ := formatNat_spec n
  have hd : isDigit d = true := hdig d (List.mem_cons_self _ _)
  have hd' : 48 ≤ d ∧ d ≤ 57 := by simpa [isDigit] using hd
  exact ⟨d, ds, heq, by omega, hd⟩

/-- The scanner reads back the literal that `strconv.AppendInt` wrote, when a comma or a
closing brace follows. -/
theorem scanNumber_formatInt (i : Int) (c : Nat) (rest : Bytes) (hc : c = 44 ∨ c = 125) :
    scanNumber (formatInt i ++ c :: rest) = some (formatInt i, c :: rest) := by
  unfold formatInt
  by_cases hneg : i < 0
  · simp only [hneg, if_true, List.cons_append, scanNumber,
      scanUnsigned_formatNat _ c rest hc]
  · simp only [hneg, if_false]
    obtain ⟨d, ds, heq, hne, _⟩ := formatNat_head_ne_minus i.toNat
    have h := scanUnsigned_formatNat i.toNat c rest hc
    rw [heq] at h ⊢
    simp only [List.cons_append, scanNumber, hne, if_false] at h ⊢
    exact h

/-- `strconv.ParseInt` reads back what `strconv.AppendInt` wrote for a 64-bit integer. -/
theorem parseInt_formatInt (i : Int) (hlo : -(2 ^ 63) ≤ i) (hhi : i < 2 ^ 63) :
    parseInt (formatInt i) = some i := by
  unfold formatInt
  by_cases hneg : i < 0
  · simp only [hneg, if_true, parseInt]
    obtain ⟨d, ds, heq, hdig, _, _, hval⟩ := formatNat_spec (-i).toNat
    rw [heq]
    have hall : (d :: ds).all isDigit = true := List.all_eq_true.mpr hdig
    have hle : digitsVal (d :: ds) ≤ 2 ^ 63 := by rw [hval]; omega
    have hcond : (d :: ds) ≠ [] ∧ (d :: ds).all isDigit = true ∧ digitsVal (d :: ds) ≤ 2 ^ 63 :=
      ⟨by simp, hall, hle⟩
    rw [if_pos hcond, hval]
    congr 1
    omega
  · simp only [hneg, if_false]
    obtain ⟨d, ds, heq, hdig, _, _, hval⟩ := formatNat_spec i.toNat
    obtain ⟨d', ds', heq', hne, _⟩ := formatNat_head_ne_minus i.toNat
    rw [heq] at heq'
    cases heq'
    rw [heq]
    have hall : (d :: ds).all isDigit = true := List.all_eq_true.mpr hdig
    have hlt : digitsVal (d :: ds) < 2 ^ 63 := by rw [hval]; omega
    have hcond : (d :: ds).all isDigit = true ∧ digitsVal (d :: ds) < 2 ^ 63 := ⟨hall, hlt⟩
    simp only [parseInt, hne, if_false]
    rw [if_pos hcond, hval]
    congr 1
    omega

/-! ## UTF-8 -/

/-- The four shapes of a valid encoding. -/
theorem decodeRune_cases (s : Bytes) (r size : Nat) (h : decodeRune s = some (r, size)) :
    (∃ p0 rest, s = p0 :: rest ∧ p0 < 0x80 ∧ r = p0 ∧ size = 1) ∨
    (∃ p0 b1 rest, s = p0 :: b1 :: rest ∧ 0xC2 ≤ p0 ∧ p0 < 0xE0 ∧ 0x80 ≤ b1 ∧ b1 ≤ 0xBF ∧
      r = (p0 % 32) * 64 + b1 % 64 ∧ size = 2) ∨
    (∃ p0 b1 b2 rest, s = p0 :: b1 :: b2 :: rest ∧ 0xE0 ≤ p0 ∧ p0 < 0xF0 ∧
      0x80 ≤ b1 ∧ b1 ≤ 0xBF ∧ (p0 = 0xE0 → 0xA0 ≤ b1) ∧ (p0 = 0xED → b1 ≤ 0x9F) ∧
      0x80 ≤ b2 ∧ b2 ≤ 0xBF ∧
      r = (p0 % 16) * 4096 + (b1 % 64) * 64 + b2 % 64 ∧ size = 3) ∨
    (∃ p0 b1 b2 b3 rest, s = p0 :: b1 :: b2 :: b3 :: rest ∧ 0xF0 ≤ p0 ∧ p0 < 0xF5 ∧
      0x80 ≤ b1 ∧ b1 ≤ 0xBF ∧ (p0 = 0xF0 → 0x90 ≤ b1) ∧ (p0 = 0xF4 → b1 ≤ 0x8F) ∧
      0x80 ≤ b2 ∧ b2 ≤ 0xBF ∧ 0x80 ≤ b3 ∧ b3 ≤ 0xBF ∧
      r = (p0 % 8) * 262144 + (b1 % 64) * 4096 + (b2 % 64) * 64 + b3 % 64 ∧ size = 4) := by
  cases s with
  | nil => simp [decodeRune] at h
  | cons p0 rest =>
    simp only [decodeRune] at h
    by_cases c1 : p0 < 0x80
    · rw [if_pos c1] at h
      simp only [Option.some.injEq, Prod.mk.injEq] at h
      exact Or.inl ⟨p0, rest, rfl, c1, h.1.symm, h.2.symm⟩
    · rw [if_neg c1] at h
      by_cases c2 : p0 < 0xC2
      · rw [if_pos c2] at h; cases h
      · rw [if_neg c2] at h
        by_cases c3 : p0 < 0xE0
        · rw [if_pos c3] at h
          cases rest with
          | nil => cases h
          | cons b1 t =>
            simp only at h
            by_cases hb : 0x80 ≤ b1 ∧ b1 ≤ 0xBF
            · rw [if_pos hb] at h
              simp only [Option.some.injEq, Prod.mk.injEq] at h
              exact Or.inr (Or.inl ⟨p0, b1, t, rfl, by omega, c3, hb.1, hb.2,
                h.1.symm, h.2.symm⟩)
            · rw [if_neg hb] at h; cases h
        · rw [if_neg c3] at h
          by_cases c4 : p0 < 0xF0
          · rw [if_pos c4] at h
            match rest, h with
            | [], h => cases h
            | [_], h => cases h
            | b1 :: b2 :: t, h =>
              simp only at h
              by_cases hb : (if p0 = 0xE0 then 0xA0 else 0x80) ≤ b1 ∧
                  b1 ≤ (if p0 = 0xED then 0x9F else 0xBF) ∧ 0x80 ≤ b2 ∧ b2 ≤ 0xBF
              · rw [if_pos hb] at h
                simp only [Option.some.injEq, Prod.mk.injEq] at h
                obtain ⟨hb1, hb2, hb3, hb4⟩ := hb
                refine Or.inr (Or.inr (Or.inl ⟨p0, b1, b2, t, rfl, by omega, c4,
                  ?_, ?_, ?_, ?_, hb3, hb4, h.1.symm, h.2.symm⟩))
                · split at hb1 <;> omega
                · split at hb2 <;> omega
                · intro e; rw [if_pos e] at hb1; exact hb1
                · intro e; rw [if_pos e] at hb2; exact hb2
              · rw [if_neg hb] at h; cases h
          · rw [if_neg c4] at h
            by_cases c5 : p0 < 0xF5
            · rw [if_pos c5] at h
              match rest, h with
              | [], h => cases h
              | [_], h => cases h
              | [_, _], h => cases h
              | b1 :: b2 :: b3 :: t, h =>
                simp only at h
                by_cases hb : (if p0 = 0xF0 then 0x90 else 0x80) ≤ b1 ∧
                    b1 ≤ (if p0 = 0xF4 then 0x8F else 0xBF) ∧ 0x80 ≤ b2 ∧ b2 ≤ 0xBF ∧
                    0x80 ≤ b3 ∧ b3 ≤ 0xBF
                · rw [if_pos hb] at h
                  simp only [Option.some.injEq, Prod.mk.injEq] at h
                  obtain ⟨hb1, hb2, hb3, hb4, hb5, hb6⟩ := hb
                  refine Or.inr (Or.inr (Or.inr ⟨p0, b1, b2, b3, t, rfl, by omega, c5,
                    ?_, ?_, ?_, ?_, hb3, hb4, hb5, hb6, h.1.symm, h.2.symm⟩))
                  · split at hb1 <;> omega
                  · split at hb2 <;> omega
                  · intro e; rw [if_pos e] at hb1; exact hb1
                  · intro e; rw [if_pos e] at hb2; exact hb2
                · rw [if_neg hb] at h; cases h
            · rw [if_neg c5] at h; cases h

theorem decodeRune_size (s : Bytes) (r size : Nat) (h : decodeRune s = some (r, size)) :
    1 ≤ size ∧ size ≤ s.length := by
  rcases decodeRune_cases s r size h with ⟨p0, rest, hs, _, _, hz⟩ |
      ⟨p0, b1, rest, hs, _, _, _, _, _, hz⟩ |
      ⟨p0, b1, b2, rest, hs, _, _, _, _, _, _, _, _, _, hz⟩ |
      ⟨p0, b1, b2, b3, rest, hs, _, _, _, _, _, _, _, _, _, _, _, hz⟩ <;>
    (subst hs; subst hz; simp)

/-- Encoding the rune of a valid encoding gives back its bytes. -/
theorem encodeRune_decodeRune (s : Bytes) (r size : Nat) (h : decodeRune s = some (r, size)) :
    encodeRune r = s.take size := by
  rcases decodeRune_cases s r size h with ⟨p0, rest, hs, h0, hr, hz⟩ |
      ⟨p0, b1, rest, hs, h0, h1, h2, h3, hr, hz⟩ |
      ⟨p0, b1, b2, rest, hs, h0, h1, h2, h3, h4, h5, h6, h7, hr, hz⟩ |
      ⟨p0, b1, b2, b3, rest, hs, h0, h1, h2, h3, h4, h5, h6, h7, h8, h9, hr, hz⟩
  · subst hs; subst hz; subst hr
    simp [encodeRune, h0]
  · subst hs; subst hz
    have e1 : ¬ r < 0x80 := by omega
    have e2 : r < 0x800 := by omega
    have e3 : 0xC0 + r / 64 = p0 := by omega
    have e4 : 0x80 + r % 64 = b1 := by omega
    simp only [encodeRune, e1, e2, if_false, if_true, e3, e4]
    rfl
  · subst hs; subst hz
    have e1 : ¬ r < 0x80 := by omega
    have e2 : ¬ r < 0x800 := by omega
    have e3 : ¬ (0x10FFFF < r ∨ (0xD800 ≤ r ∧ r ≤ 0xDFFF)) := by omega
    have e4 : r < 0x10000 := by omega
    have e5 : 0xE0 + r / 4096 = p0 := by omega
    have e6 : 0x80 + (r / 64) % 64 = b1 := by omega
    have e7 : 0x80 + r % 64 = b2 := by omega
    simp only [encodeRune, e1, e2, e3, e4, if_false, if_true, e5, e6, e7]
    rfl
  · subst hs; subst hz
    have e1 : ¬ r < 0x80 := by omega
    have e2 : ¬ r < 0x800 := by omega
    have e3 : ¬ (0x10FFFF < r ∨ (0xD800 ≤ r ∧ r ≤ 0xDFFF)) := by omega
    have e4 : ¬ r < 0x10000 := by omega
    have e5 : 0xF0 + r / 262144 = p0 := by omega
    have e6 : 0x80 + (r / 4096) % 64 = b1 := by omega
    have e7 : 0x80 + (r / 64) % 64 = b2 := by omega
    have e8 : 0x80 + r % 64 = b3 := by omega
    simp only [encodeRune, e1, e2, e3, e4, if_false, e5, e6, e7, e8]
    rfl

/-- A valid encoding is recognised whatever follows it. -/
theorem decodeRune_take (s : Bytes) (r size : Nat) (h : decodeRune s = some (r, size))
    (x : Bytes) : decodeRune (s.take size ++ x) = some (r, size) := by
  rcases decodeRune_cases s r size h with ⟨p0, rest, hs, h0, hr, hz⟩ |
      ⟨p0, b1, rest, hs, h0, h1, h2, h3, hr, hz⟩ |
      ⟨p0, b1, b2, rest, hs, h0, h1, h2, h3, h4, h5, h6, h7, hr, hz⟩ |
      ⟨p0, b1, b2, b3, rest, hs, h0, h1, h2, h3, h4, h5, h6, h7, h8, h9, hr, hz⟩
  · subst hs; subst hz; subst hr
    simp [decodeRune, h0]
  · subst hs; subst hz
    have e1 : ¬ p0 < 0x80 := by omega
    have e2 : ¬ p0 < 0xC2 := by omega
    simp [decodeRune, e1, e2, h1, h2, h3, hr]
  · subst hs; subst hz
    have e1 : ¬ p0 < 0x80 := by omega
    have e2 : ¬ p0 < 0xC2 := by omega
    have e3 : ¬ p0 < 0xE0 := by omega
    have e4 : (if p0 = 0xE0 then 0xA0 else 0x80) ≤ b1 := by split <;> omega
    have e5 : b1 ≤ (if p0 = 0xED then 0x9F else 0xBF) := by split <;> omega
    simp only [List.take, List.cons_append, List.nil_append, decodeRune, e1, e2, e3, h1,
      if_false, if_true, e4, e5, h6, h7, and_self, hr]
  · subst hs; subst hz
    have e1 : ¬ p0 < 0x80 := by omega
    have e2 : ¬ p0 < 0xC2 := by omega
    have e3 : ¬ p0 < 0xE0 := by omega
    have e4 : ¬ p0 < 0xF0 := by omega
    have e5 : (if p0 = 0xF0 then 0x90 else 0x80) ≤ b1 := by split <;> omega
    have e6 : b1 ≤ (if p0 = 0xF4 then 0x8F else 0xBF) := by split <;> omega
    simp only [List.take, List.cons_append, List.nil_append, decodeRune, e1, e2, e3, e4, h1,
      if_false, if_true, e5, e6, h6, h7, h8, h9, and_self, hr]

/-! ## JSON strings -/

theorem hexVal_hexDigit (n : Nat) (h : n < 16) : hexVal (hexDigit n) = some n := by
  unfold hexDigit hexVal
  by_cases h10 : n < 10
  · have : 48 ≤ 48 + n ∧ 48 + n ≤ 57 := by omega
    simp [h10, this]
  · have h1 : ¬ (48 ≤ 87 + n ∧ 87 + n ≤ 57) := by omega
    have h2 : 97 ≤ 87 + n ∧ 87 + n ≤ 102 := by omega
    simp [h10, h1, h2]

theorem validUTF8Loop_cons (n : Nat) (b : Nat) (t : Bytes)
    (h : validUTF8Loop (n + 1) (b :: t) = true) :
    ∃ r size, decodeRune (b :: t) = some (r, size) ∧
      validUTF8Loop n ((b :: t).drop size) = true := by
  simp only [validUTF8Loop] at h
  cases hd : decodeRune (b :: t) with
  | none => rw [hd] at h; cases h
  | some p =>
    obtain ⟨r, size⟩ := p
    rw [hd] at h
    exact ⟨r, size, rfl, h⟩

theorem decodeRune_ascii (b : Nat) (t : Bytes) (h : b < 0x80) :
    decodeRune (b :: t) = some (b, 1) := by
  simp [decodeRune, h]

theorem consBytes_some (b s r : Bytes) : consBytes b (some (s, r)) = some (b ++ s, r) := rfl

theorem unquoteLoop_quote (f : Nat) (x : Bytes) : unquoteLoop (f + 1) (34 :: x) = some ([], x) := by
  simp [unquoteLoop]

theorem unquoteLoop_simple (f e ch : Nat) (x : Bytes) (h : simpleEscape e = some ch)
    (he : e ≠ 117) :
    unquoteLoop (f + 1) (92 :: e :: x) = consBytes [ch] (unquoteLoop f x) := by
  simp [unquoteLoop, he, h]

theorem unquoteLoop_hex (f rr a b c d : Nat) (x : Bytes)
    (h : hex4 (a :: b :: c :: d :: x) = some rr) (hns : ¬ (0xD800 ≤ rr ∧ rr < 0xE000)) :
    unquoteLoop (f + 1) (92 :: 117 :: a :: b :: c :: d :: x)
      = consBytes (encodeRune rr) (unquoteLoop f x) := by
  rw [unquoteLoop]
  simp only [reduceCtorEq, Nat.reduceEqDiff, if_false, if_true, h, hns, List.drop_succ_cons,
    List.drop_zero]

theorem unquoteLoop_plain (f c : Nat) (x : Bytes) (h34 : c ≠ 34) (h92 : c ≠ 92)
    (h20 : ¬ c < 0x20) (h80 : c < 0x80) :
    unquoteLoop (f + 1) (c :: x) = consBytes [c] (unquoteLoop f x) := by
  simp only [unquoteLoop, h34, h92, h20, h80, if_false, if_true]

theorem unquoteLoop_rune (f c r size : Nat) (x : Bytes) (h80 : ¬ c < 0x80)
    (hdec : decodeRune (c :: x) = some (r, size)) :
    unquoteLoop (f + 1) (c :: x)
      = consBytes (encodeRune r) (unquoteLoop f ((c :: x).drop size)) := by
  have h34 : c ≠ 34 := by omega
  have h92 : c ≠ 92 := by omega
  have h20 : ¬ c < 0x20 := by omega
  simp only [unquoteLoop, h34, h92, h20, h80, if_false, hdec]

/-- `unquote` reads back a string that `appendString` wrote, when the string is valid
UTF-8. -/
theorem unquoteLoop_escapeLoop : ∀ (n : Nat) (s : Bytes), validUTF8Loop n s = true →
    ∀ (fuel : Nat) (rest : Bytes), (escapeLoop n s).length < fuel →
      unquoteLoop fuel (escapeLoop n s ++ 34 :: rest) = some (s, rest) := by
  intro n
  induction n with
  | zero =>
    intro s hv fuel rest hf
    cases s with
    | nil =>
      obtain ⟨f, rfl⟩ : ∃ f, fuel = f + 1 := ⟨fuel - 1, by simp [escapeLoop] at hf; omega⟩
      simp [escapeLoop, unquoteLoop]
    | cons b t => simp [validUTF8Loop] at hv
  | succ n ih =>
    intro s hv fuel rest hf
    cases s with
    | nil =>
      obtain ⟨f, rfl⟩ : ∃ f, fuel = f + 1 := ⟨fuel - 1, by simp [escapeLoop] at hf; omega⟩
      simp [escapeLoop, unquoteLoop]
    | cons b t =>
      obtain ⟨r, size, hdec, hvalid⟩ := validUTF8Loop_cons n b t hv
      obtain ⟨f, rfl⟩ : ∃ f, fuel = f + 1 := ⟨fuel - 1, by omega⟩
      by_cases hascii : b < 0x80
      · -- one ASCII byte
        rw [decodeRune_ascii b t hascii] at hdec
        simp only [Option.some.injEq, Prod.mk.injEq] at hdec
        obtain ⟨_, hsz⟩ := hdec
        subst hsz
        simp only [List.drop_succ_cons, List.drop_zero] at hvalid
        simp only [escapeLoop, hascii, if_true] at hf ⊢
        by_cases c1 : b = 92 ∨ b = 34
        · rw [if_pos c1] at hf ⊢
          have hrec := ih t hvalid f rest (by simp at hf; omega)
          have hs : simpleEscape b = some b := by
            rcases c1 with c | c <;> subst c <;> decide
          have hu : b ≠ 117 := by omega
          simp only [List.cons_append]
          rw [unquoteLoop_simple f b b _ hs hu, hrec]
          rfl
        · rw [if_neg c1] at hf ⊢
          push_neg at c1
          by_cases c2 : b = 8
          · subst c2
            have hrec := ih t hvalid f rest (by simp at hf; omega)
            simp only [if_true, List.cons_append]
            rw [unquoteLoop_simple f 98 8 _ (by decide) (by decide), hrec]
            rfl
          · rw [if_neg c2] at hf ⊢
            by_cases c3 : b = 12
            · subst c3
              have hrec := ih t hvalid f rest (by simp at hf; omega)
              simp only [if_true, List.cons_append]
              rw [unquoteLoop_simple f 102 12 _ (by decide) (by decide), hrec]
              rfl
            · rw [if_neg c3] at hf ⊢
              by_cases c4 : b = 10
              · subst c4
                have hrec := ih t hvalid f rest (by simp at hf; omega)
                simp only [if_true, List.cons_append]
                rw [unquoteLoop_simple f 110 10 _ (by decide) (by decide), hrec]
                rfl
              · rw [if_neg c4] at hf ⊢
                by_cases c5 : b = 13
                · subst c5
                  have hrec := ih t hvalid f rest (by simp at hf; omega)
                  simp only [if_true, List.cons_append]
                  rw [unquoteLoop_simple f 114 13 _ (by decide) (by decide), hrec]
                  rfl
                · rw [if_neg c5] at hf ⊢
                  by_cases c6 : b = 9
                  · subst c6
                    have hrec := ih t hvalid f rest (by simp at hf; omega)
                    simp only [if_true, List.cons_append]
                    rw [unquoteLoop_simple f 116 9 _ (by decide) (by decide), hrec]
                    rfl
                  · rw [if_neg c6] at hf ⊢
                    by_cases c7 : b < 0x20 ∨ b = 60 ∨ b = 62 ∨ b = 38
                    · rw [if_pos c7] at hf ⊢
                      have hrec := ih t hvalid f rest (by simp at hf; omega)
                      have hh1 := hexVal_hexDigit (b / 16) (by omega)
                      have hh2 := hexVal_hexDigit (b % 16) (by omega)
                      have h48 : hexVal 48 = some 0 := by decide
                      have hval : 0 * 4096 + 0 * 256 + b / 16 * 16 + b % 16 = b := by omega
                      have hns : ¬ (0xD800 ≤ b ∧ b < 0xE000) := by omega
                      have hhex : hex4 (48 :: 48 :: hexDigit (b / 16) :: hexDigit (b % 16)
                          :: (escapeLoop n t ++ 34 :: rest)) = some b := by
                        simp only [hex4, h48, hh1, hh2, hval]
                      simp only [List.cons_append]
                      rw [unquoteLoop_hex f b _ _ _ _ _ hhex hns, hrec]
                      simp [encodeRune, hascii, consBytes]
                    · rw [if_neg c7] at hf ⊢
                      push_neg at c7
                      have hrec := ih t hvalid f rest (by simp at hf; omega)
                      simp only [List.cons_append]
                      rw [unquoteLoop_plain f b _ c1.2 c1.1 (by omega) hascii, hrec]
                      rfl
      · -- a rune of several bytes
        obtain ⟨hsz1, hsz2⟩ := decodeRune_size _ _ _ hdec
        have henc := encodeRune_decodeRune _ _ _ hdec
        simp only [escapeLoop, hascii, if_false, hdec] at hf ⊢
        by_cases csep : r = 0x2028 ∨ r = 0x2029
        · rw [if_pos csep] at hf ⊢
          have hrec := ih _ hvalid f rest (by simp at hf; omega)
          have hh : hexVal (hexDigit (r % 16)) = some (r % 16) := hexVal_hexDigit _ (by omega)
          have h50 : hexVal 50 = some 2 := by decide
          have h48 : hexVal 48 = some 0 := by decide
          have hval : 2 * 4096 + 0 * 256 + 2 * 16 + r % 16 = r := by omega
          have hns : ¬ (0xD800 ≤ r ∧ r < 0xE000) := by omega
          have hhex : hex4 (50 :: 48 :: 50 :: hexDigit (r % 16)
              :: (escapeLoop n (List.drop size (b :: t)) ++ 34 :: rest)) = some r := by
            simp only [hex4, h50, h48, hh, hval]
          simp only [List.cons_append]
          rw [unquoteLoop_hex f r _ _ _ _ _ hhex hns, hrec, henc, consBytes_some,
            List.take_append_drop]
        · rw [if_neg csep] at hf ⊢
          have hrec := ih _ hvalid f rest (by simp at hf; omega)
          obtain ⟨k, rfl⟩ : ∃ k, size = k + 1 := ⟨size - 1, by omega⟩
          have htake : List.take (k + 1) (b :: t) = b :: List.take k t := rfl
          have hdec' := decodeRune_take _ _ _ hdec
            (escapeLoop n (List.drop (k + 1) (b :: t)) ++ 34 :: rest)
          have hlen : (List.take (k + 1) (b :: t)).length = k + 1 := by
            rw [List.length_take]; omega
          have hdrop : List.drop (k + 1) (List.take (k + 1) (b :: t) ++
              (escapeLoop n (List.drop (k + 1) (b :: t)) ++ 34 :: rest))
              = escapeLoop n (List.drop (k + 1) (b :: t)) ++ 34 :: rest := by
            rw [List.drop_append_of_le_length (by omega), List.drop_of_length_le (by omega)]
            rfl
          rw [List.append_assoc]
          rw [htake] at hdec' hdrop ⊢
          simp only [List.cons_append] at hdec' hdrop ⊢
          rw [unquoteLoop_rune f b r (k + 1) _ hascii hdec', hdrop, hrec, henc, consBytes_some,
            List.take_append_drop]

/-- A string of bytes that stand for themselves between quotes is read back as it is. -/
theorem unquoteLoop_plainString : ∀ (s : Bytes),
    (∀ c ∈ s, 0x20 ≤ c ∧ c < 0x80 ∧ c ≠ 34 ∧ c ≠ 92) →
    ∀ (fuel : Nat) (rest : Bytes), s.length < fuel →
      unquoteLoop fuel (s ++ 34 :: rest) = some (s, rest) := by
  intro s
  induction s with
  | nil =>
    intro _ fuel rest hf
    obtain ⟨f, rfl⟩ : ∃ f, fuel = f + 1 := ⟨fuel - 1, by simp at hf; omega⟩
    exact unquoteLoop_quote f rest
  | cons c t ih =>
    intro hp fuel rest hf
    obtain ⟨f, rfl⟩ : ∃ f, fuel = f + 1 := ⟨fuel - 1, by simp at hf; omega⟩
    have hc := hp c (List.mem_cons_self _ _)
    have hrec := ih (fun x hx => hp x (List.mem_cons_of_mem _ hx)) f rest
      (by simp at hf; omega)
    rw [List.cons_append, unquoteLoop_plain f c _ hc.2.2.1 hc.2.2.2 (by omega) hc.2.1, hrec]
    rfl

theorem unquote_plainString (s rest : Bytes)
    (hp : ∀ c ∈ s, 0x20 ≤ c ∧ c < 0x80 ∧ c ≠ 34 ∧ c ≠ 92) :
    unquote (s ++ 34 :: rest) = some (s, rest) :=
  unquoteLoop_plainString s hp _ rest (by simp)

theorem unquote_escape (s rest : Bytes) (hv : validUTF8 s = true) :
    unquote (escapeLoop s.length s ++ 34 :: rest) = some (s, rest) :=
  unquoteLoop_escapeLoop s.length s hv _ rest (by simp)

/-! ## base64 -/

theorem b64Val_b64Char (x : Nat) (h : x < 64) : b64Val (b64Char x) = some x := by
  unfold b64Char
  by_cases h1 : x < 26
  · have a : 65 ≤ 65 + x ∧ 65 + x ≤ 90 := by omega
    rw [if_pos h1, b64Val, if_pos a]
    congr 1
    omega
  · by_cases h2 : x < 52
    · have a : ¬ (65 ≤ 71 + x ∧ 71 + x ≤ 90) := by omega
      have b : 97 ≤ 71 + x ∧ 71 + x ≤ 122 := by omega
      rw [if_neg h1, if_pos h2, b64Val, if_neg a, if_pos b]
      congr 1
      omega
    · by_cases h3 : x < 62
      · have a : ¬ (65 ≤ x - 4 ∧ x - 4 ≤ 90) := by omega
        have b : ¬ (97 ≤ x - 4 ∧ x - 4 ≤ 122) := by omega
        have c : 48 ≤ x - 4 ∧ x - 4 ≤ 57 := by omega
        rw [if_neg h1, if_neg h2, if_pos h3, b64Val, if_neg a, if_neg b, if_pos c]
        congr 1
        omega
      · by_cases h4 : x = 62
        · subst h4; decide
        · have : x = 63 := by omega
          subst this; decide

theorem b64Char_plain (x : Nat) :
    0x20 ≤ b64Char x ∧ b64Char x < 0x80 ∧ b64Char x ≠ 34 ∧ b64Char x ≠ 92 := by
  unfold b64Char
  split
  · omega
  · split
    · omega
    · split
      · omega
      · split <;> omega

theorem base64Encode_plain : ∀ (p : Bytes),
    ∀ c ∈ base64Encode p, 0x20 ≤ c ∧ c < 0x80 ∧ c ≠ 34 ∧ c ≠ 92 := by
  intro p
  induction p using base64Encode.induct with
  | case1 a b c rest ih =>
    intro x hx
    simp only [base64Encode, List.mem_cons] at hx
    rcases hx with h | h | h | h | h
    · subst h; exact b64Char_plain _
    · subst h; exact b64Char_plain _
    · subst h; exact b64Char_plain _
    · subst h; exact b64Char_plain _
    · exact ih x h
  | case2 a b =>
    intro x hx
    simp only [base64Encode, List.mem_cons, List.mem_singleton] at hx
    rcases hx with h | h | h | h | h
    · subst h; exact b64Char_plain _
    · subst h; exact b64Char_plain _
    · subst h; exact b64Char_plain _
    · subst h; decide
    · cases h
  | case3 a =>
    intro x hx
    simp only [base64Encode, List.mem_cons, List.mem_singleton] at hx
    rcases hx with h | h | h | h | h
    · subst h; exact b64Char_plain _
    · subst h; exact b64Char_plain _
    · subst h; decide
    · subst h; decide
    · cases h
  | case4 =>
    intro x hx
    simp [base64Encode] at hx

theorem base64Loop_quad (v0 v1 v2 v3 : Nat) (rest : Bytes)
    (h0 : v0 < 64) (h1 : v1 < 64) (h2 : v2 < 64) (h3 : v3 < 64) :
    base64Loop [] (b64Char v0 :: b64Char v1 :: b64Char v2 :: b64Char v3 :: rest) =
      match base64Loop [] rest with
      | some out =>
        some ((v0 * 4 + v1 / 16) :: ((v1 % 16) * 16 + v2 / 4) :: ((v2 % 4) * 64 + v3) :: out)
      | none => none := by
  simp only [base64Loop, b64Val_b64Char _ h0, b64Val_b64Char _ h1, b64Val_b64Char _ h2,
    b64Val_b64Char _ h3, List.nil_append, List.cons_append]

/-- `base64.StdEncoding.Decode` reads back what `Encode` wrote. -/
theorem base64Decode_encode : ∀ (p : Bytes), (∀ b ∈ p, b < 256) →
    base64Loop [] (base64Encode p) = some p := by
  intro p
  induction p using base64Encode.induct with
  | case1 a b c rest ih =>
    intro hb
    have ha := hb a (by simp)
    have hb' := hb b (by simp)
    have hc := hb c (by simp)
    have hrec := ih (fun x hx => hb x (by simp [hx]))
    simp only [base64Encode]
    rw [base64Loop_quad _ _ _ _ _ (by omega) (by omega) (by omega) (by omega), hrec]
    simp only [Option.some.injEq, List.cons.injEq, and_true]
    omega
  | case2 a b =>
    intro hb
    have ha := hb a (by simp)
    have hb' := hb b (by simp)
    have e61 : b64Val 61 = none := by decide
    simp only [base64Encode, base64Loop, b64Val_b64Char (a / 4) (by omega),
      b64Val_b64Char ((a % 4) * 16 + b / 16) (by omega),
      b64Val_b64Char ((b % 16) * 4) (by omega), e61, List.nil_append, List.cons_append,
      dropNL, reduceCtorEq, Nat.reduceEqDiff, if_false, if_true, or_self]
    simp only [Option.some.injEq, List.cons.injEq, and_true]
    omega
  | case3 a =>
    intro hb
    have ha := hb a (by simp)
    have e61 : b64Val 61 = none := by decide
    simp only [base64Encode, base64Loop, b64Val_b64Char (a / 4) (by omega),
      b64Val_b64Char ((a % 4) * 16) (by omega), e61, List.nil_append, List.cons_append,
      dropNL, reduceCtorEq, Nat.reduceEqDiff, if_false, if_true, or_self, and_self]
    simp only [Option.some.injEq, List.cons.injEq, and_true]
    omega
  | case4 =>
    intro _
    simp [base64Encode, base64Loop]

/-! ## A marshalled object is parsed back -/

theorem skipWS_cons (c : Nat) (t : Bytes) (h : ¬ (c = 32 ∨ c = 9 ∨ c = 13 ∨ c = 10)) :
    skipWS (c :: t) = c :: t := by
  simp only [skipWS, h, if_false]

theorem parseMembers_last (pv : Bytes → Option (JValue × Bytes)) (fuel : Nat)
    (key value tail : Bytes) (v : JValue)
    (hkey : ∀ c ∈ key, 0x20 ≤ c ∧ c < 0x80 ∧ c ≠ 34 ∧ c ≠ 92)
    (hv : pv (value ++ 125 :: tail) = some (v, 125 :: tail))
    (hws : skipWS (value ++ 125 :: tail) = value ++ 125 :: tail) :
    parseMembers pv (fuel + 1) (memberText key value (125 :: tail)) = some ([(key, v)], tail) := by
  simp only [parseMembers, memberText, if_true, unquote_plainString key _ hkey,
    skipWS_cons 58 _ (by decide), hws, hv, skipWS_cons 125 _ (by decide), reduceCtorEq,
    Nat.reduceEqDiff, if_false]

theorem parseMembers_cont (pv : Bytes → Option (JValue × Bytes)) (fuel : Nat)
    (key value next : Bytes) (v : JValue)
    (hkey : ∀ c ∈ key, 0x20 ≤ c ∧ c < 0x80 ∧ c ≠ 34 ∧ c ≠ 92)
    (hv : pv (value ++ 44 :: next) = some (v, 44 :: next))
    (hws : skipWS (value ++ 44 :: next) = value ++ 44 :: next)
    (hnext : skipWS next = next) :
    parseMembers pv (fuel + 1) (memberText key value (44 :: next)) =
      match parseMembers pv fuel next with
      | some (kvs, r) => some ((key, v) :: kvs, r)
      | none => none := by
  simp only [parseMembers, memberText, if_true, unquote_plainString key _ hkey,
    skipWS_cons 58 _ (by decide), hws, hv, skipWS_cons 44 _ (by decide), hnext]

theorem skipWS_objectBody (it : Bytes × Bytes × JValue) (rest : List (Bytes × Bytes × JValue))
    (tail : Bytes) : skipWS (objectBody (it :: rest) tail) = objectBody (it :: rest) tail := by
  cases rest with
  | nil => exact skipWS_cons 34 _ (by decide)
  | cons it2 rest => exact skipWS_cons 34 _ (by decide)

/-- The members that `json.Marshal` laid out are parsed back, each to the value its text
stands for. -/
theorem parseMembers_objectBody (pv : Bytes → Option (JValue × Bytes)) :
    ∀ (items : List (Bytes × Bytes × JValue)), items ≠ [] →
    (∀ it ∈ items, (∀ c ∈ it.1, 0x20 ≤ c ∧ c < 0x80 ∧ c ≠ 34 ∧ c ≠ 92) ∧
      (∀ c t, (c = 44 ∨ c = 125) → pv (it.2.1 ++ c :: t) = some (it.2.2, c :: t)) ∧
      (∀ t, skipWS (it.2.1 ++ t) = it.2.1 ++ t)) →
    ∀ (fuel : Nat) (tail : Bytes), items.length ≤ fuel →
      parseMembers pv fuel (objectBody items tail)
        = some (items.map (fun it => (it.1, it.2.2)), tail) := by
  intro items
  induction items with
  | nil => intro h; exact absurd rfl h
  | cons it rest ih =>
    intro _ hitems fuel tail hf
    obtain ⟨f, rfl⟩ : ∃ f, fuel = f + 1 := ⟨fuel - 1, by simp at hf; omega⟩
    obtain ⟨hkey, hv, hws⟩ := hitems it (List.mem_cons_self _ _)
    cases rest with
    | nil =>
      simp only [objectBody, List.map]
      exact parseMembers_last pv f _ _ tail _ hkey (hv 125 tail (Or.inr rfl)) (hws _)
    | cons it2 rest =>
      have hrec := ih (by simp) (fun x hx => hitems x (List.mem_cons_of_mem _ hx)) f tail
        (by simp at hf ⊢; omega)
      simp only [objectBody]
      rw [parseMembers_cont pv f _ _ _ _ hkey (hv 44 _ (Or.inl rfl)) (hws _)
        (skipWS_objectBody it2 rest tail), hrec]
      rfl

theorem parseValue_scalar (d c0 : Nat) (rest : Bytes) (h91 : c0 ≠ 91) (h123 : c0 ≠ 123) :
    parseValue d (c0 :: rest) = parseScalar (c0 :: rest) := by
  cases d with
  | zero => rfl
  | succ d => simp only [parseValue, h91, h123, if_false]

theorem formatInt_head (i : Int) :
    ∃ c0 rest, formatInt i = c0 :: rest ∧ (c0 = 45 ∨ (48 ≤ c0 ∧ c0 ≤ 57)) := by
  unfold formatInt
  by_cases hneg : i < 0
  · exact ⟨45, formatNat (-i).toNat, by simp [hneg], Or.inl rfl⟩
  · obtain ⟨d, ds, heq, _, hd⟩ := formatNat_head_ne_minus i.toNat
    refine ⟨d, ds, by simp [hneg, heq], Or.inr ?_⟩
    simpa [isDigit] using hd

theorem skipWS_formatInt (i : Int) (t : Bytes) : skipWS (formatInt i ++ t) = formatInt i ++ t := by
  obtain ⟨c0, rest, heq, hc0⟩ := formatInt_head i
  rw [heq, List.cons_append]
  exact skipWS_cons c0 _ (by omega)

theorem parseValue_int (d : Nat) (i : Int) (c : Nat) (t : Bytes) (hc : c = 44 ∨ c = 125) :
    parseValue d (formatInt i ++ c :: t) = some (.number (formatInt i), c :: t) := by
  have hscan := scanNumber_formatInt i c t hc
  obtain ⟨c0, rest, heq, hc0⟩ := formatInt_head i
  rw [heq] at hscan ⊢
  rw [List.cons_append] at hscan ⊢
  rw [parseValue_scalar d c0 _ (by omega) (by omega)]
  have h34 : c0 ≠ 34 := by omega
  simp only [parseScalar, h34, if_false, hc0, if_true, hscan]

theorem skipWS_appendString (s t : Bytes) : skipWS (appendString s ++ t) = appendString s ++ t := by
  simp only [appendString, List.cons_append]
  exact skipWS_cons 34 _ (by decide)

theorem parseValue_string (d : Nat) (s : Bytes) (c : Nat) (t : Bytes)
    (hv : validUTF8 s = true) :
    parseValue d (appendString s ++ c :: t) = some (.string s, c :: t) := by
  have hu := unquote_escape s (c :: t) hv
  have hshape : appendString s ++ c :: t = 34 :: (escapeLoop s.length s ++ 34 :: c :: t) := by
    simp [appendString]
  rw [hshape, parseValue_scalar d 34 _ (by decide) (by decide)]
  simp only [parseScalar, if_true, hu]

theorem skipWS_marshalPayload (p : Option Bytes) (t : Bytes) :
    skipWS (marshalPayload p ++ t) = marshalPayload p ++ t := by
  cases p with
  | none => exact skipWS_cons 110 _ (by decide)
  | some p => exact skipWS_cons 34 _ (by decide)

theorem parseValue_payload (d : Nat) (p : Option Bytes) (c : Nat) (t : Bytes) :
    parseValue d (marshalPayload p ++ c :: t) = some (payloadValue p, c :: t) := by
  cases p with
  | none =>
    simp only [marshalPayload, List.cons_append, List.nil_append]
    rw [parseValue_scalar d 110 _ (by decide) (by decide)]
    simp [parseScalar, expectWord, payloadValue]
  | some p =>
    have hu := unquote_plainString (base64Encode p) (c :: t) (base64Encode_plain p)
    have hshape : marshalPayload (some p) ++ c :: t = 34 :: (base64Encode p ++ 34 :: c :: t) := by
      simp [marshalPayload]
    rw [hshape, parseValue_scalar d 34 _ (by decide) (by decide)]
    simp only [parseScalar, if_true, hu, payloadValue]

theorem parseValue_object (d c1 : Nat) (r1 rest : Bytes) (hws : skipWS rest = c1 :: r1)
    (hne : c1 ≠ 125) :
    parseValue (d + 1) (123 :: rest) =
      match parseMembers (parseValue d) rest.length (c1 :: r1) with
      | some (kvs, r) => some (.object kvs, r)
      | none => none := by
  simp only [parseValue, reduceCtorEq, Nat.reduceEqDiff, if_false, if_true, hws, hne]

theorem tag_plain (f : Field) : ∀ c ∈ f.tag, 0x20 ≤ c ∧ c < 0x80 ∧ c ≠ 34 ∧ c ≠ 92 := by
  cases f <;> decide

theorem bytes_eq_objectBody (m : Message) : m.Bytes = 123 :: objectBody (messageItems m) [] := by
  simp [Message.Bytes, messageItems, objectBody, memberText, keyRoomLength, keyRoom,
    keyEventLength, keyEvent, keyDstLength, keyDst, keySrcLength, keySrc, keyPayloadLength,
    keyPayload, Field.tag]

/-- The text `json.Marshal` writes for a message whose strings are valid UTF-8 is one JSON
object, with the ten members in the order of the struct. -/
theorem parseJSON_bytes (m : Message) (hroom : validUTF8 m.Room = true)
    (hevent : validUTF8 m.Event = true) (hdst : validUTF8 m.Dst = true)
    (hsrc : validUTF8 m.Src = true) :
    parseJSON m.Bytes = some (.object ((messageItems m).map (fun it => (it.1, it.2.2)))) := by
  have hint : ∀ (f : Field) (i : Int),
      (∀ c ∈ f.tag, 0x20 ≤ c ∧ c < 0x80 ∧ c ≠ 34 ∧ c ≠ 92) ∧
      (∀ c t, (c = 44 ∨ c = 125) →
        parseValue 9999 (formatInt i ++ c :: t) = some (.number (formatInt i), c :: t)) ∧
      (∀ t, skipWS (formatInt i ++ t) = formatInt i ++ t) :=
    fun f i => ⟨tag_plain f, fun c t hc => parseValue_int 9999 i c t hc, skipWS_formatInt i⟩
  have hstr : ∀ (f : Field) (s : Bytes), validUTF8 s = true →
      (∀ c ∈ f.tag, 0x20 ≤ c ∧ c < 0x80 ∧ c ≠ 34 ∧ c ≠ 92) ∧
      (∀ c t, (c = 44 ∨ c = 125) →
        parseValue 9999 (appendString s ++ c :: t) = some (.string s, c :: t)) ∧
      (∀ t, skipWS (appendString s ++ t) = appendString s ++ t) :=
    fun f s hs => ⟨tag_plain f, fun c t _ => parseValue_string 9999 s c t hs,
      skipWS_appendString s⟩
  have hitems : ∀ it ∈ messageItems m,
      (∀ c ∈ it.1, 0x20 ≤ c ∧ c < 0x80 ∧ c ≠ 34 ∧ c ≠ 92) ∧
      (∀ c t, (c = 44 ∨ c = 125) → parseValue 9999 (it.2.1 ++ c :: t) = some (it.2.2, c :: t)) ∧
      (∀ t, skipWS (it.2.1 ++ t) = it.2.1 ++ t) := by
    intro it hit
    simp only [messageItems, List.mem_cons, List.mem_singleton, List.not_mem_nil, or_false] at hit
    rcases hit with h | h | h | h | h | h | h | h | h | h <;> subst h
    · exact hint Field.roomLength m.RoomLength
    · exact hstr Field.room m.Room hroom
    · exact hint Field.eventLength m.EventLength
    · exact hstr Field.event m.Event hevent
    · exact hint Field.dstLength m.DstLength
    · exact hstr Field.dst m.Dst hdst
    · exact hint Field.srcLength m.SrcLength
    · exact hstr Field.src m.Src hsrc
    · exact hint Field.payloadLength m.PayloadLength
    · exact ⟨tag_plain Field.payload, fun c t _ => parseValue_payload 9999 m.Payload c t,
        skipWS_marshalPayload m.Payload⟩
  have hbody : ∀ fuel, 10 ≤ fuel →
      parseMembers (parseValue 9999) fuel (objectBody (messageItems m) [])
        = some ((messageItems m).map (fun it => (it.1, it.2.2)), []) :=
    fun fuel hf => parseMembers_objectBody (parseValue 9999) (messageItems m) (by simp [messageItems])
      hitems fuel [] (by simpa [messageItems] using hf)
  have hlen : 10 ≤ (objectBody (messageItems m) []).length := by
    simp [messageItems, objectBody, memberText, Field.tag]
  obtain ⟨c1, r1, hc1, hne⟩ : ∃ c1 r1, objectBody (messageItems m) [] = c1 :: r1 ∧ c1 ≠ 125 :=
    ⟨34, _, rfl, by decide⟩
  have hws : skipWS (objectBody (messageItems m) []) = objectBody (messageItems m) [] :=
    skipWS_objectBody _ _ _
  rw [bytes_eq_objectBody]
  simp only [parseJSON]
  rw [skipWS_cons 123 _ (by decide)]
  have hpv : parseValue 10000 (123 :: objectBody (messageItems m) [])
      = some (.object ((messageItems m).map (fun it => (it.1, it.2.2))), []) := by
    have hws' : skipWS (objectBody (messageItems m) []) = c1 :: r1 := by rw [hws, hc1]
    rw [show (10000 : Nat) = 9999 + 1 from rfl,
      parseValue_object 9999 c1 r1 (objectBody (messageItems m) []) hws' hne, ← hc1,
      hbody _ hlen]
  rw [hpv]
  simp [skipWS]

/-! ## The snapshot of the members as JSON -/

theorem skipWS_marshalStringsLoop (s : Bytes) (rest : List Bytes) (tail : Bytes) :
    skipWS (marshalStringsLoop (s :: rest) ++ tail) = marshalStringsLoop (s :: rest) ++ tail := by
  cases rest with
  | nil => exact skipWS_appendString s tail
  | cons t rest =>
    simp only [marshalStringsLoop, List.append_assoc]
    exact skipWS_appendString s _

theorem parseElems_marshalStrings (d : Nat) :
    ∀ (xs : List Bytes), xs ≠ [] → (∀ s ∈ xs, validUTF8 s = true) →
    ∀ (fuel : Nat) (tail : Bytes), xs.length ≤ fuel →
      parseElems (parseValue d) fuel (marshalStringsLoop xs ++ 93 :: tail)
        = some (xs.map JValue.string, tail) := by
  intro xs
  induction xs with
  | nil => intro h; exact absurd rfl h
  | cons s rest ih =>
    intro _ hv fuel tail hf
    obtain ⟨f, rfl⟩ : ∃ f, fuel = f + 1 := ⟨fuel - 1, by simp at hf; omega⟩
    have hs := hv s (List.mem_cons_self _ _)
    cases rest with
    | nil =>
      simp only [marshalStringsLoop, parseElems, parseValue_string d s 93 tail hs,
        skipWS_cons 93 _ (by decide), reduceCtorEq, Nat.reduceEqDiff, if_false, if_true,
        List.map]
    | cons t rest =>
      have hrec := ih (by simp) (fun x hx => hv x (List.mem_cons_of_mem _ hx)) f tail
        (by simp at hf ⊢; omega)
      have hshape : marshalStringsLoop (s :: t :: rest) ++ 93 :: tail
          = appendString s ++ 44 :: (marshalStringsLoop (t :: rest) ++ 93 :: tail) := by
        simp [marshalStringsLoop]
      rw [hshape]
      simp only [parseElems, parseValue_string d s 44 _ hs, skipWS_cons 44 _ (by decide),
        if_true, skipWS_marshalStringsLoop t rest (93 :: tail), hrec, List.map]

theorem parseValue_array (d c1 : Nat) (r1 rest : Bytes) (hws : skipWS rest = c1 :: r1)
    (hne : c1 ≠ 93) :
    parseValue (d + 1) (91 :: rest) =
      match parseElems (parseValue d) rest.length (c1 :: r1) with
      | some (vs, r) => some (.array vs, r)
      | none => none := by
  simp only [parseValue, if_true, hws, hne, if_false]

/-- The text `json.Marshal` writes for a list of valid UTF-8 strings is the JSON array of
exactly these strings, in order. -/
theorem parseJSON_marshalStrings (xs : List Bytes) (hv : ∀ s ∈ xs, validUTF8 s = true) :
    parseJSON (marshalStrings xs) = some (.array (xs.map JValue.string)) := by
  cases xs with
  | nil => rfl
  | cons s rest =>
    have hbody := parseElems_marshalStrings 9999 (s :: rest) (by simp) hv
    have hws := skipWS_marshalStringsLoop s rest [93]
    obtain ⟨c1, r1, hc1, hne⟩ : ∃ c1 r1, marshalStringsLoop (s :: rest) ++ [93] = c1 :: r1 ∧
        c1 ≠ 93 := by
      cases rest with
      | nil =>
        exact ⟨34, escapeLoop s.length s ++ [34, 93],
          by simp [marshalStringsLoop, appendString], by decide⟩
      | cons t rest =>
        exact ⟨34, escapeLoop s.length s ++ 34 :: 44 :: (marshalStringsLoop (t :: rest) ++ [93]),
          by simp [marshalStringsLoop, appendString], by decide⟩
    have hlen : (s :: rest).length ≤ (marshalStringsLoop (s :: rest) ++ [93]).length := by
      clear hbody hws hc1 hv
      induction rest generalizing s with
      | nil => simp [marshalStringsLoop, appendString]
      | cons t rest ih =>
        have := ih t
        simp only [marshalStringsLoop, List.length_append, List.length_cons, appendString,
          List.length_nil] at this ⊢
        omega
    have hpv : parseValue 10000 (91 :: (marshalStringsLoop (s :: rest) ++ [93]))
        = some (.array ((s :: rest).map JValue.string), []) := by
      have hws' : skipWS (marshalStringsLoop (s :: rest) ++ [93]) = c1 :: r1 := by
        rw [hws, hc1]
      rw [show (10000 : Nat) = 9999 + 1 from rfl,
        parseValue_array 9999 c1 r1 (marshalStringsLoop (s :: rest) ++ [93]) hws' hne, ← hc1,
        hbody _ [] hlen]
    simp only [parseJSON, marshalStrings, skipWS_cons 91 _ (by decide), hpv]
    simp [skipWS]

/-! ## The envelope: decoding what was encoded -/

theorem findField_tag (f : Field) : findField f.tag = some f := by
  cases f <;> decide

theorem storePayload_payloadValue (p old : Option Bytes)
    (hp : ∀ q, p = some q → ∀ b ∈ q, b < 256) :
    storePayload (payloadValue p) old = (p, none) := by
  cases p with
  | none => rfl
  | some q =>
    simp only [payloadValue, storePayload, base64Decode, base64Decode_encode q (hp q rfl)]

/-- The members of a marshalled message, stored into the zero message, give the message
back and save no error. -/
theorem storeMembers_items (m : Message)
    (hint : ∀ i ∈ [m.RoomLength, m.EventLength, m.DstLength, m.SrcLength, m.PayloadLength],
      -(2 ^ 63) ≤ i ∧ i < 2 ^ 63)
    (hp : ∀ q, m.Payload = some q → ∀ b ∈ q, b < 256) :
    storeMembers ((messageItems m).map (fun it => (it.1, it.2.2))) Message.zero = (m, none) := by
  have h1 := parseInt_formatInt m.RoomLength (hint _ (by simp)).1 (hint _ (by simp)).2
  have h2 := parseInt_formatInt m.EventLength (hint _ (by simp)).1 (hint _ (by simp)).2
  have h3 := parseInt_formatInt m.DstLength (hint _ (by simp)).1 (hint _ (by simp)).2
  have h4 := parseInt_formatInt m.SrcLength (hint _ (by simp)).1 (hint _ (by simp)).2
  have h5 := parseInt_formatInt m.PayloadLength (hint _ (by simp)).1 (hint _ (by simp)).2
  simp only [messageItems, List.map, storeMembers, storeMember, findField_tag, storeInt,
    storeString, h1, h2, h3, h4, h5, storePayload_payloadValue m.Payload _ hp, Message.zero,
    Option.orElse]

/-- `json.Unmarshal` into a zero message reads back what `json.Marshal` wrote and reports
no error, when the strings are valid UTF-8, the integers fit 64 bits and the payload is
made of bytes. -/
theorem unmarshal_bytes (m : Message) (hroom : validUTF8 m.Room = true)
    (hevent : validUTF8 m.Event = true) (hdst : validUTF8 m.Dst = true)
    (hsrc : validUTF8 m.Src = true)
    (hint : ∀ i ∈ [m.RoomLength, m.EventLength, m.DstLength, m.SrcLength, m.PayloadLength],
      -(2 ^ 63) ≤ i ∧ i < 2 ^ 63)
    (hp : ∀ q, m.Payload = some q → ∀ b ∈ q, b < 256) :
    Unmarshal m.Bytes Message.zero = (m, none) := by
  simp only [Unmarshal, parseJSON_bytes m hroom hevent hdst hsrc, storeMembers_items m hint hp]

/-- C7, counterexample.  The room name is the one byte `0xFF`, which is not valid UTF-8.
The constructed message has room length 1; `Bytes` writes the room as the escape of
U+FFFD, and `BytesToMessage` gives back a room of three bytes: the field `Room` of the
decoded message is not that of the message. -/
theorem C7_invalid_utf8_room_changes :
    (ConstructMessage [0xFF] [] [] [] none).Room = [0xFF] ∧
    (ConstructMessage [0xFF] [] [] [] none).RoomLength = 1 ∧
    (BytesToMessage (ConstructMessage [0xFF] [] [] [] none).Bytes).Room = [0xEF, 0xBF, 0xBD] ∧
    BytesToMessage (ConstructMessage [0xFF] [] [] [] none).Bytes
      ≠ ConstructMessage [0xFF] [] [] [] none := by
  decide

/-- C7, amended.  For every room, event, dst and src that are valid UTF-8 and every
payload (a nil slice, or a sequence of bytes), all of a length below 2^63, the message
`m = ConstructMessage(room, event, dst, src, payload)` has each length field equal to the
byte length of its paired value, and `BytesToMessage(m.Bytes())` has exactly the ten
field values of `m`. -/
theorem C7_roundtrip (room event dst src : Bytes) (payload : Option Bytes)
    (hroom : validUTF8 room = true) (hevent : validUTF8 event = true)
    (hdst : validUTF8 dst = true) (hsrc : validUTF8 src = true)
    (hpay : ∀ q, payload = some q → ∀ b ∈ q, b < 256)
    (hlen : room.length < 2 ^ 63 ∧ event.length < 2 ^ 63 ∧ dst.length < 2 ^ 63 ∧
      src.length < 2 ^ 63 ∧ payloadLen payload < 2 ^ 63) :
    (ConstructMessage room event dst src payload).RoomLength = room.length ∧
    (ConstructMessage room event dst src payload).EventLength = event.length ∧
    (ConstructMessage room event dst src payload).DstLength = dst.length ∧
    (ConstructMessage room event dst src payload).SrcLength = src.length ∧
    (ConstructMessage room event dst src payload).PayloadLength = payloadLen payload ∧
    BytesToMessage (ConstructMessage room event dst src payload).Bytes
      = ConstructMessage room event dst src payload := by
  refine ⟨rfl, rfl, rfl, rfl, rfl, ?_⟩
  unfold BytesToMessage
  rw [unmarshal_bytes (ConstructMessage room event dst src payload) hroom hevent hdst hsrc ?_ hpay]
  intro i hi
  simp only [ConstructMessage, List.mem_cons, List.mem_singleton, List.not_mem_nil,
    or_false] at hi
  obtain ⟨h1, h2, h3, h4, h5⟩ := hlen
  rcases hi with h | h | h | h | h <;> subst h <;> constructor <;> omega

/-- C7, amended: an instance.  The room is `lobby`, the event `join`, the source the two
bytes of U+00E9, the payload three bytes. -/
theorem C7_roundtrip_witness :
    (ConstructMessage Demo.lobby evJoin [] [0xC3, 0xA9] (some [0, 255, 34])).RoomLength
      = Demo.lobby.length ∧
    (ConstructMessage Demo.lobby evJoin [] [0xC3, 0xA9] (some [0, 255, 34])).EventLength
      = evJoin.length ∧
    (ConstructMessage Demo.lobby evJoin [] [0xC3, 0xA9] (some [0, 255, 34])).DstLength
      = ([] : Bytes).length ∧
    (ConstructMessage Demo.lobby evJoin [] [0xC3, 0xA9] (some [0, 255, 34])).SrcLength
      = ([0xC3, 0xA9] : Bytes).length ∧
    (ConstructMessage Demo.lobby evJoin [] [0xC3, 0xA9] (some [0, 255, 34])).PayloadLength
      = payloadLen (some [0, 255, 34]) ∧
    BytesToMessage (ConstructMessage Demo.lobby evJoin [] [0xC3, 0xA9] (some [0, 255, 34])).Bytes
      = ConstructMessage Demo.lobby evJoin [] [0xC3, 0xA9] (some [0, 255, 34]) :=
  C7_roundtrip Demo.lobby evJoin [] [0xC3, 0xA9] (some [0, 255, 34]) (by decide) (by decide)
    (by decide) (by decide) (by decide) (by decide)

/-! ## The envelope: decoding anything else -/

theorem storeInt_err (v : JValue) (old : Int) : (storeInt v old).2 ≠ some .malformed := by
  unfold storeInt
  cases v with
  | number lit => simp only []; cases h : parseInt lit <;> simp
  | _ => simp

theorem storeString_err (v : JValue) (old : Bytes) :
    (storeString v old).2 ≠ some .malformed := by
  unfold storeString
  cases v <;> simp

theorem storeByte_err (v : JValue) (old : Nat) : (storeByte v old).2 ≠ some .malformed := by
  unfold storeByte
  cases v with
  | number lit => simp only []; cases h : parseUint8 lit <;> simp
  | _ => simp

theorem orElse_err (a b : Option DecodeError) (ha : a ≠ some .malformed)
    (hb : b ≠ some .malformed) : (a.orElse (fun _ => b)) ≠ some .malformed := by
  cases a with
  | none => exact hb
  | some e => exact ha

theorem storeBytes_err : ∀ (xs : List JValue) (i : Nat) (old : Bytes),
    (storeBytes xs i old).2 ≠ some .malformed := by
  intro xs
  induction xs with
  | nil => intro i old; simp [storeBytes]
  | cons v vs ih =>
    intro i old
    simp only [storeBytes]
    exact orElse_err _ _ (storeByte_err _ _) (ih _ _)

theorem storePayload_err (v : JValue) (old : Option Bytes) :
    (storePayload v old).2 ≠ some .malformed := by
  unfold storePayload
  cases v with
  | string s => simp only []; cases h : base64Decode s <;> simp
  | array xs => exact storeBytes_err _ _ _
  | _ => simp

theorem storeMember_err (m : Message) (key : Bytes) (v : JValue) :
    (storeMember m key v).2 ≠ some .malformed := by
  unfold storeMember
  cases findField key with
  | none => simp
  | some f =>
    cases f
    · exact storeInt_err _ _
    · exact storeString_err _ _
    · exact storeInt_err _ _
    · exact storeString_err _ _
    · exact storeInt_err _ _
    · exact storeString_err _ _
    · exact storeInt_err _ _
    · exact storeString_err _ _
    · exact storeInt_err _ _
    · exact storePayload_err _ _

theorem storeMembers_err : ∀ (kvs : List (Bytes × JValue)) (m : Message),
    (storeMembers kvs m).2 ≠ some .malformed := by
  intro kvs
  induction kvs with
  | nil => intro m; simp [storeMembers]
  | cons kv kvs ih =>
    intro m
    obtain ⟨key, v⟩ := kv
    simp only [storeMembers]
    exact orElse_err _ _ (storeMember_err _ _ _) (ih _)

/-- A syntax error is reported exactly when the input is not one well-formed JSON value. -/
theorem malformed_iff (data : Bytes) (msg : Message) :
    (Unmarshal data msg).2 = some .malformed ↔ parseJSON data = none := by
  unfold Unmarshal
  cases h : parseJSON data with
  | none => simp
  | some v =>
    cases v with
    | object kvs =>
      simp only [reduceCtorEq, iff_false]
      exact storeMembers_err kvs msg
    | _ => simp

/-- C8, counterexample.  The input is the well-formed object `{"room":"a","event":1}`,
whose `event` is a number.  `json.Unmarshal` reports a type error, and the message
`BytesToMessage` returns has the room `a`: it is not the zero-valued message. -/
theorem C8_type_error_keeps_decoded_fields :
    (Unmarshal Demo.mistyped Message.zero).2 = some .mismatch ∧
    (BytesToMessage Demo.mistyped).Room = [97] ∧
    BytesToMessage Demo.mistyped ≠ Message.zero := by
  decide

/-- C8, amended.  For every byte string on which JSON decoding reports a syntax error
(the input is not one well-formed JSON value), and for every well-formed input whose
value is not an object, `BytesToMessage` returns the zero-valued message: the five
strings and the payload empty, the five length fields 0. -/
theorem C8_malformed_gives_zero (data : Bytes)
    (h : (Unmarshal data Message.zero).2 = some .malformed ∨
      ∃ v, parseJSON data = some v ∧ ∀ kvs, v ≠ .object kvs) :
    BytesToMessage data = Message.zero ∧
    (BytesToMessage data).Room = [] ∧ (BytesToMessage data).Event = [] ∧
    (BytesToMessage data).Dst = [] ∧ (BytesToMessage data).Src = [] ∧
    (BytesToMessage data).Payload = none ∧
    (BytesToMessage data).RoomLength = 0 ∧ (BytesToMessage data).EventLength = 0 ∧
    (BytesToMessage data).DstLength = 0 ∧ (BytesToMessage data).SrcLength = 0 ∧
    (BytesToMessage data).PayloadLength = 0 := by
  have hz : BytesToMessage data = Message.zero := by
    unfold BytesToMessage
    rcases h with h | ⟨v, hv, hno⟩
    · have hp := (malformed_iff data Message.zero).mp h
      simp [Unmarshal, hp]
    · unfold Unmarshal
      rw [hv]
      cases v with
      | object kvs => exact absurd rfl (hno kvs)
      | _ => rfl
  rw [hz]
  exact ⟨rfl, rfl, rfl, rfl, rfl, rfl, rfl, rfl, rfl, rfl, rfl⟩

/-- C8, amended: an instance.  The input `{"room":"a"` is cut short before the closing
brace. -/
theorem C8_malformed_gives_zero_witness :
    BytesToMessage Demo.truncated = Message.zero ∧
    (BytesToMessage Demo.truncated).Room = [] ∧ (BytesToMessage Demo.truncated).Event = [] ∧
    (BytesToMessage Demo.truncated).Dst = [] ∧ (BytesToMessage Demo.truncated).Src = [] ∧
    (BytesToMessage Demo.truncated).Payload = none ∧
    (BytesToMessage Demo.truncated).RoomLength = 0 ∧
    (BytesToMessage Demo.truncated).EventLength = 0 ∧
    (BytesToMessage Demo.truncated).DstLength = 0 ∧
    (BytesToMessage Demo.truncated).SrcLength = 0 ∧
    (BytesToMessage Demo.truncated).PayloadLength = 0 :=
  C8_malformed_gives_zero Demo.truncated (Or.inl (by decide))

/-! ## The state: reading after writing -/

theorem conn_setConn (w : World) (p q : Nat) (c : Conn) :
    (w.setConn p c).conn q = if q = p ∧ p < w.heap.length then c else w.conn q := by
  unfold World.conn World.setConn
  simp only [List.getD_eq_getElem?_getD, List.getElem?_set]
  by_cases h : p = q
  · subst h
    by_cases h2 : p < w.heap.length
    · simp [h2]
    · have h3 : w.heap[p]? = none := by simp; omega
      simp [h2, h3]
  · have h' : ¬ q = p := fun e => h e.symm
    simp [h, h']

theorem conn_setConn_same (w : World) (p : Nat) (c : Conn) (h : p < w.heap.length) :
    (w.setConn p c).conn p = c := by
  simp [conn_setConn, h]

theorem conn_setConn_ne (w : World) (p q : Nat) (c : Conn) (h : q ≠ p) :
    (w.setConn p c).conn q = w.conn q := by
  simp [conn_setConn, h]

theorem conn_invalid (w : World) (p : Nat) (h : ¬ p < w.heap.length) :
    w.conn p = ⟨[], ⟨[], false⟩, []⟩ := by
  unfold World.conn
  have h3 : w.heap[p]? = none := by simp; omega
  simp [List.getD_eq_getElem?_getD, h3]

theorem loadRoom_name (w : World) (name : Bytes) (r : Room) (h : w.loadRoom name = some r) :
    r.Name = name := by
  have := List.find?_some h
  simpa using this

theorem loadRoom_mem (w : World) (name : Bytes) (r : Room) (h : w.loadRoom name = some r) :
    r ∈ w.Rooms := List.mem_of_find?_eq_some h

theorem members_of_loadRoom (w : World) (name : Bytes) (r : Room)
    (h : w.loadRoom name = some r) : w.members name = r.Members := by
  simp [World.members, h]

theorem loadRoom_setMembers (w : World) (name n : Bytes) (f : List Bytes → List Bytes) :
    (w.setMembers name f).loadRoom n =
      (w.loadRoom n).map (fun r => if r.Name = name then { r with Members := f r.Members } else r) := by
  unfold World.loadRoom World.setMembers
  simp only [List.find?_map]
  have hp : ((fun r : Room => decide (r.Name = n)) ∘
      fun r : Room => if r.Name = name then { r with Members := f r.Members } else r)
      = fun r : Room => decide (r.Name = n) := by
    funext r
    by_cases h : r.Name = name <;> simp [h]
  rw [hp]

theorem members_setMembers (w : World) (name n : Bytes) (f : List Bytes → List Bytes) :
    (w.setMembers name f).members n =
      if n = name ∧ (w.loadRoom n).isSome then f (w.members n) else w.members n := by
  unfold World.members
  rw [loadRoom_setMembers]
  cases h : w.loadRoom n with
  | none => simp
  | some r =>
    have hn := loadRoom_name w n r h
    by_cases e : n = name
    · simp [hn, e]
    · simp [hn, e]

theorem mem_mapDelete (k x : Bytes) (m : List Bytes) : x ∈ mapDelete k m ↔ x ∈ m ∧ x ≠ k := by
  simp [mapDelete, List.mem_filter]

theorem mem_mapStore (k x : Bytes) (m : List Bytes) : x ∈ mapStore k m ↔ x ∈ m ∨ x = k := by
  unfold mapStore
  by_cases h : k ∈ m
  · simp only [h, if_true]
    constructor
    · intro hx; exact Or.inl hx
    · rintro (hx | hx)
      · exact hx
      · rw [hx]; exact h
  · simp [h]

theorem mapDelete_of_not_mem (k : Bytes) (m : List Bytes) (h : k ∉ m) : mapDelete k m = m := by
  unfold mapDelete
  rw [List.filter_eq_self]
  intro x hx
  have : x ≠ k := fun e => h (e ▸ hx)
  simpa using this

theorem conn_enqueue (w : World) (p q : Nat) (f : Bytes) :
    (w.enqueue p f).conn q =
      if q = p ∧ p < w.heap.length then
        { w.conn p with Send := { (w.conn p).Send with buf := (w.conn p).Send.buf ++ [f] } }
      else w.conn q := by
  unfold World.enqueue
  rw [conn_setConn]

theorem sendBlocking_world (w : World) (p : Nat) (f : Bytes) :
    (sendBlocking w p f).world = w ∨ (sendBlocking w p f).world = w.enqueue p f := by
  unfold sendBlocking
  by_cases h1 : (w.conn p).Send.closed = true
  · simp [h1, Outcome.world]
  · by_cases h2 : (w.conn p).Send.buf.length < sendCap
    · simp [h1, h2, Outcome.world]
    · simp [h1, h2, Outcome.world]

theorem sendBlocking_rooms (w : World) (p : Nat) (f : Bytes) :
    (sendBlocking w p f).world.Rooms = w.Rooms := by
  rcases sendBlocking_world w p f with h | h
  · rw [h]
  · rw [h]; rfl

theorem sendBlocking_conn_Rooms (w : World) (p q : Nat) (f : Bytes) :
    ((sendBlocking w p f).world.conn q).Rooms = (w.conn q).Rooms := by
  rcases sendBlocking_world w p f with h | h <;> rw [h]
  rw [conn_enqueue]
  split
  · rename_i hq; rw [hq.1]
  · rfl

theorem sendBlocking_conn_ID (w : World) (p q : Nat) (f : Bytes) :
    ((sendBlocking w p f).world.conn q).ID = (w.conn q).ID := by
  rcases sendBlocking_world w p f with h | h <;> rw [h]
  rw [conn_enqueue]
  split
  · rename_i hq; rw [hq.1]
  · rfl

theorem members_congr (w w' : World) (h : w'.Rooms = w.Rooms) (n : Bytes) :
    w'.members n = w.members n := by
  unfold World.members World.loadRoom
  rw [h]

theorem loadRoom_congr (w w' : World) (h : w'.Rooms = w.Rooms) (n : Bytes) :
    w'.loadRoom n = w.loadRoom n := by
  unfold World.loadRoom
  rw [h]

/-! ## Leaving a room -/

/-- The leave intake on the lists of keys: the members of the room are the old ones
without the identifier of the leaving connection, whatever the outcome of the send. -/
theorem leave_intake_members (w : World) (n : Bytes) (c : Nat) (m : Bytes) :
    (Room.Start w n (.leavechan c)).world.members m =
      if m = n then mapDelete (w.conn c).ID (w.members n) else w.members m := by
  unfold Room.Start
  by_cases hmem : (w.conn c).ID ∈ w.members n
  · simp only [hmem, if_true]
    rw [members_congr _ _ (sendBlocking_rooms _ _ _), members_setMembers]
    by_cases e : m = n
    · subst e
      have hsome : (w.loadRoom m).isSome = true := by
        cases h : w.loadRoom m with
        | none => simp [World.members, h] at hmem
        | some r => rfl
      simp [hsome]
    · simp [e]
  · simp only [hmem, if_false, Outcome.world]
    by_cases e : m = n
    · subst e
      simp [mapDelete_of_not_mem _ _ hmem]
    · simp [e]

theorem leave_intake_loadRoom_isSome (w : World) (n : Bytes) (c : Nat) (m : Bytes) :
    ((Room.Start w n (.leavechan c)).world.loadRoom m).isSome = (w.loadRoom m).isSome := by
  unfold Room.Start
  by_cases hmem : (w.conn c).ID ∈ w.members n
  · simp only [hmem, if_true]
    rw [loadRoom_congr _ _ (sendBlocking_rooms _ _ _), loadRoom_setMembers]
    cases w.loadRoom m <;> rfl
  · simp only [hmem, if_false, Outcome.world]

theorem leave_intake_conn_Rooms (w : World) (n : Bytes) (c q : Nat) :
    ((Room.Start w n (.leavechan c)).world.conn q).Rooms = (w.conn q).Rooms := by
  unfold Room.Start
  by_cases hmem : (w.conn c).ID ∈ w.members n
  · simp only [hmem, if_true]
    rw [sendBlocking_conn_Rooms]
    rfl
  · simp only [hmem, if_false, Outcome.world]

theorem leave_noop (w : World) (c : Nat) (n : Bytes)
    (h : w.loadRoom n = none ∨ n ∉ (w.conn c).Rooms) : Conn.Leave w c n = .done w := by
  unfold Conn.Leave
  cases hr : w.loadRoom n with
  | none => rfl
  | some r =>
    rcases h with h | h
    · rw [hr] at h; cases h
    · simp [h]

/-- `Conn.Leave(n)` on a room of the registry that is in the joined-set: the joined-set
loses `n` and the members of `n` lose the identifier, whatever the outcome of the send. -/
theorem leave_frame_core (w : World) (c : Nat) (n : Bytes)
    (hr : w.loadRoom n ≠ none) (hn : n ∈ (w.conn c).Rooms) :
    ((Conn.Leave w c n).world.conn c).Rooms = mapDelete n (w.conn c).Rooms ∧
    (Conn.Leave w c n).world.members n = mapDelete (w.conn c).ID (w.members n) := by
  have hc : c < w.heap.length := by
    by_contra hc
    rw [conn_invalid w c hc] at hn
    cases hn
  obtain ⟨r, hr⟩ := Option.ne_none_iff_exists'.mp hr
  have hL : Conn.Leave w c n = Room.Start
      ((w.setConn c { w.conn c with Rooms := mapDelete n (w.conn c).Rooms }).record
        (.intake n (.leavechan c))) n (.leavechan c) := by
    unfold Conn.Leave Room.Leave Room.submit
    simp [hr, hn]
  have hID : (((w.setConn c { w.conn c with Rooms := mapDelete n (w.conn c).Rooms }).record
        (.intake n (.leavechan c))).conn c).ID = (w.conn c).ID := by
    show ((w.setConn c _).conn c).ID = _
    rw [conn_setConn_same _ _ _ hc]
  constructor
  · rw [hL, leave_intake_conn_Rooms]
    show ((w.setConn c _).conn c).Rooms = _
    rw [conn_setConn_same _ _ _ hc]
  · rw [hL, leave_intake_members, hID]
    simp
    rfl

/-- C5. `Conn.Leave(n)` on a room that is not in the Room Registry, or that is not in the
joined-set of the connection, returns with the whole state unchanged (registries,
memberships, joined-sets, queues, log).  Otherwise the joined-set of the connection loses
exactly `n`, the membership of room `n` loses exactly the identifier of the connection,
every other joined-set and every other room stay as they were, no room enters or leaves
the registry, and a second `Conn.Leave(n)` returns with the state unchanged. -/
theorem C5_leave_frame (w : World) (c : Nat) (n : Bytes) :
    ((w.loadRoom n = none ∨ n ∉ (w.conn c).Rooms) → Conn.Leave w c n = .done w) ∧
    ((w.loadRoom n ≠ none ∧ n ∈ (w.conn c).Rooms) →
      ((Conn.Leave w c n).world.conn c).Rooms = mapDelete n (w.conn c).Rooms ∧
      (∀ x, x ∈ ((Conn.Leave w c n).world.conn c).Rooms ↔ x ∈ (w.conn c).Rooms ∧ x ≠ n) ∧
      (Conn.Leave w c n).world.members n = mapDelete (w.conn c).ID (w.members n) ∧
      (∀ x, x ∈ (Conn.Leave w c n).world.members n ↔ x ∈ w.members n ∧ x ≠ (w.conn c).ID) ∧
      (∀ m, m ≠ n → (Conn.Leave w c n).world.members m = w.members m) ∧
      (∀ q, q ≠ c → ((Conn.Leave w c n).world.conn q).Rooms = (w.conn q).Rooms) ∧
      (∀ m, ((Conn.Leave w c n).world.loadRoom m).isSome = (w.loadRoom m).isSome) ∧
      Conn.Leave (Conn.Leave w c n).world c n = .done (Conn.Leave w c n).world) := by
  constructor
  · exact leave_noop w c n
  · rintro ⟨hr, hn⟩
    obtain ⟨hRooms, hMem⟩ := leave_frame_core w c n hr hn
    have hc : c < w.heap.length := by
      by_contra hc
      rw [conn_invalid w c hc] at hn
      cases hn
    obtain ⟨r, hr⟩ := Option.ne_none_iff_exists'.mp hr
    have hL : Conn.Leave w c n = Room.Start
        ((w.setConn c { w.conn c with Rooms := mapDelete n (w.conn c).Rooms }).record
          (.intake n (.leavechan c))) n (.leavechan c) := by
      unfold Conn.Leave Room.Leave Room.submit
      simp [hr, hn]
    refine ⟨hRooms, ?_, hMem, ?_, ?_, ?_, ?_, ?_⟩
    · intro x
      rw [hRooms, mem_mapDelete]
    · intro x
      rw [hMem, mem_mapDelete]
    · intro m hm
      rw [hL, leave_intake_members]
      simp [hm]
      rfl
    · intro q hq
      rw [hL, leave_intake_conn_Rooms]
      show ((w.setConn c _).conn q).Rooms = _
      rw [conn_setConn_ne _ _ _ _ hq]
    · intro m
      rw [hL, leave_intake_loadRoom_isSome]
      rfl
    · have hnot : n ∉ ((Conn.Leave w c n).world.conn c).Rooms := by
        rw [hRooms, mem_mapDelete]
        exact fun h => h.2 rfl
      exact leave_noop _ c n (Or.inr hnot)

theorem conn_enqueue_same (w : World) (p : Nat) (f : Bytes) (h : p < w.heap.length) :
    (w.enqueue p f).conn p =
      { w.conn p with Send := { (w.conn p).Send with buf := (w.conn p).Send.buf ++ [f] } } := by
  simp [conn_enqueue, h]

theorem conn_enqueue_ne (w : World) (p q : Nat) (f : Bytes) (h : q ≠ p) :
    (w.enqueue p f).conn q = w.conn q := by
  simp [conn_enqueue, h]

/-! ## A slow consumer, reached from the start -/

/-- The first connections and joins of the concrete states all run to their end. -/
theorem demo_setup_done :
    (SocketHandler (World.init []) Demo.idA).isDone = true ∧
    (SocketHandler Demo.oneConn Demo.idB).isDone = true ∧
    (Conn.Join Demo.twoConns 0 Demo.lobby).isDone = true ∧
    (Conn.Join (Conn.Join Demo.twoConns 0 Demo.lobby).world 1 Demo.lobby).isDone = true := by
  decide

theorem backlog_zero : Demo.backlog 0 = Demo.bothInLobby := by decide

theorem backlog_step (j : Nat) (h : j < 254) :
    HandleData (Demo.backlog j) 0 Demo.chat = .done (Demo.backlog (j + 1)) := by
  have e1 : Demo.chat.Event ≠ evJoin := by decide
  have e2 : Demo.chat.Event ≠ evLeave := by decide
  have e3 : Demo.chat.Event ≠ evJoined := by decide
  have e4 : Demo.chat.Event ≠ evLeft := by decide
  have e5 : ¬ Demo.chat.Dst ≠ [] := fun hne => hne rfl
  have e6 : ¬ 0 < (Demo.backlog j).listenerCount Demo.chat.Event := by
    simp [World.listenerCount, Demo.backlog, List.lookup]
  have hroom : (Demo.backlog j).loadRoom Demo.chat.Room
      = some ⟨Demo.lobby, [Demo.idA, Demo.idB]⟩ := rfl
  have hstart : HandleData (Demo.backlog j) 0 Demo.chat
      = rangeM (broadcastVisit Demo.lobby 0 Demo.chat.Bytes) [Demo.idA, Demo.idB]
          ((Demo.backlog j).record (.intake Demo.lobby (.Send 0 Demo.chat.Bytes))) := by
    simp only [HandleData, e1, e2, e3, e4, e5, e6, if_false, Conn.Emit, hroom]
    rfl
  have hA : broadcastVisit Demo.lobby 0 Demo.chat.Bytes
      ((Demo.backlog j).record (.intake Demo.lobby (.Send 0 Demo.chat.Bytes))) Demo.idA
      = .done ((Demo.backlog j).record (.intake Demo.lobby (.Send 0 Demo.chat.Bytes))) := rfl
  have hlen : (((Demo.backlog j).record
      (.intake Demo.lobby (.Send 0 Demo.chat.Bytes))).conn 1).Send.buf.length < sendCap := by
    show ([_, _] ++ List.replicate j Demo.chat.Bytes).length < sendCap
    simp [sendCap]
    omega
  have hB : broadcastVisit Demo.lobby 0 Demo.chat.Bytes
      ((Demo.backlog j).record (.intake Demo.lobby (.Send 0 Demo.chat.Bytes))) Demo.idB
      = .done (((Demo.backlog j).record (.intake Demo.lobby (.Send 0 Demo.chat.Bytes))).enqueue 1
          Demo.chat.Bytes) := by
    have hl : ((Demo.backlog j).record
        (.intake Demo.lobby (.Send 0 Demo.chat.Bytes))).loadConn Demo.idB = some 1 := rfl
    have hc : (((Demo.backlog j).record
        (.intake Demo.lobby (.Send 0 Demo.chat.Bytes))).conn 1).Send.closed = false := rfl
    simp only [broadcastVisit, hl, hc, hlen, if_true, if_false, Nat.succ_ne_zero,
      Bool.false_eq_true, OfNat.one_ne_ofNat, one_ne_zero]
  rw [hstart]
  simp only [rangeM, hA, hB, Outcome.andThen]
  simp only [Demo.backlog, World.record, World.enqueue, World.setConn, World.conn,
    List.getD_cons_succ, List.getD_cons_zero, List.set_cons_succ, List.set_cons_zero,
    List.replicate_succ', List.append_assoc, Outcome.done.injEq]

/-- Every state `backlog k` up to 254 is reached from `bothInLobby` by `k` frames of `A`
handled by `HandleData`, each of which runs to its end. -/
theorem backlog_reached : ∀ k, k ≤ 254 →
    Nat.iterate (fun w => (HandleData w 0 Demo.chat).world) k Demo.bothInLobby
      = Demo.backlog k := by
  intro k
  induction k with
  | zero => intro _; exact backlog_zero.symm
  | succ k ih =>
    intro hk
    rw [Function.iterate_succ_apply', ih (by omega), backlog_step k (by omega)]
    rfl

/-- The state `slowB` is reached from `bothInLobby` by 254 frames of `A`. -/
theorem slowB_reached :
    Nat.iterate (fun w => (HandleData w 0 Demo.chat).world) 254 Demo.bothInLobby = Demo.slowB :=
  backlog_reached 254 (Nat.le_refl _)

/-! ## Rooms without members -/

/-- C1, at failing inputs.  Connection `A` is the only member of `lobby`: `Conn.Leave`
runs to its end and removes the last member, and `lobby` is still in the Room Registry,
with no member.  Likewise `B` is the only member of `lobby` and its queue is full: the
broadcast that `HandleData` issues for a frame of `A` runs to its end and evicts `B`, and
`lobby` is still in the Room Registry, with no member. -/
theorem C1_empty_room_stays_registered :
    Demo.oneInLobby.members Demo.lobby = [Demo.idA] ∧
    (Conn.Leave Demo.oneInLobby 0 Demo.lobby).isDone = true ∧
    (Conn.Leave Demo.oneInLobby 0 Demo.lobby).world.loadRoom Demo.lobby
      = some ⟨Demo.lobby, []⟩ ∧
    (HandleData Demo.slowB 0 Demo.leaveLobby).isDone = true ∧
    Demo.aloneB.members Demo.lobby = [Demo.idB] ∧
    (HandleData Demo.aloneB 0 Demo.chat).isDone = true ∧
    (HandleData Demo.aloneB 0 Demo.chat).world.loadRoom Demo.lobby
      = some ⟨Demo.lobby, []⟩ := by
  decide

/-! ## The join intake -/

/-- C2, counterexample.  Connection `A` is already a member of `root`, so the membership
before the join is `[A]`.  The join intake for `A` appends one `join` message whose
payload is the JSON list of `[A]`: the list contains the identifier of `A` itself. -/
theorem C2_rejoin_lists_self :
    (Demo.oneConn.conn 0).ID = Demo.idA ∧
    Demo.oneConn.members roomRoot = [Demo.idA] ∧
    Demo.idA ∈ Demo.oneConn.members roomRoot ∧
    (Room.Start Demo.oneConn roomRoot (.joinchan 0)).isDone = true ∧
    ((Room.Start Demo.oneConn roomRoot (.joinchan 0)).world.conn 0).Send.buf
      = (Demo.oneConn.conn 0).Send.buf ++
        [(ConstructMessage roomRoot evJoin [] Demo.idA
            (some (marshalStrings [Demo.idA]))).Bytes] := by
  decide

/-- C2, amended.  When the queue of `c` is open and holds fewer than 256 frames, the join
intake for `c` in room `R` with membership `M` runs to its end and appends to the queue
of `c` exactly one message: event `join`, room `R.Name`, source `c.ID`, payload the JSON
list of `M` as it was before the join: the text parses back to the array of exactly the
identifiers of `M`, in order, so it lists `c.ID` exactly when `c` was a member already.
Afterwards the membership is `M ∪ {c.ID}`, no other room has changed, and no other
connection has changed. -/
theorem C2_join_intake (w : World) (name : Bytes) (c : Nat) (r : Room)
    (hr : w.loadRoom name = some r) (hc : c < w.heap.length)
    (hopen : (w.conn c).Send.closed = false)
    (hroom : (w.conn c).Send.buf.length < sendCap) :
    ∃ w', Room.Start w name (.joinchan c) = .done w' ∧
      (w'.conn c).Send.buf = (w.conn c).Send.buf ++
        [(ConstructMessage r.Name evJoin [] (w.conn c).ID
            (some (marshalStrings r.Members))).Bytes] ∧
      ((∀ s ∈ r.Members, validUTF8 s = true) →
        parseJSON (marshalStrings r.Members) = some (.array (r.Members.map JValue.string))) ∧
      w.members name = r.Members ∧
      w'.members name = mapStore (w.conn c).ID r.Members ∧
      (∀ x, x ∈ w'.members name ↔ x ∈ r.Members ∨ x = (w.conn c).ID) ∧
      (∀ n, n ≠ name → w'.members n = w.members n) ∧
      (∀ q, q ≠ c → w'.conn q = w.conn q) := by
  have hname := loadRoom_name w name r hr
  have hmem := members_of_loadRoom w name r hr
  have hopen' : ((w.setMembers name (mapStore (w.conn c).ID)).conn c).Send.closed = false := hopen
  have hroom' : ((w.setMembers name (mapStore (w.conn c).ID)).conn c).Send.buf.length < sendCap :=
    hroom
  refine ⟨(w.setMembers name (mapStore (w.conn c).ID)).enqueue c
      (ConstructMessage name evJoin [] (w.conn c).ID (some (marshalStrings (w.members name)))).Bytes,
    ?_, ?_, ?_, ?_, ?_, ?_, ?_, ?_⟩
  · simp only [Room.Start, sendBlocking, hopen', hroom', if_true]
    simp
  · rw [conn_enqueue_same _ _ _ (by exact hc), hname, hmem]
    rfl
  · exact parseJSON_marshalStrings r.Members
  · exact hmem
  · show ((w.setMembers name (mapStore (w.conn c).ID))).members name = _
    rw [members_setMembers, hr, hmem]
    simp
  · intro x
    show x ∈ ((w.setMembers name (mapStore (w.conn c).ID))).members name ↔ _
    rw [members_setMembers, hr, hmem]
    simp [mem_mapStore]
  · intro n hn
    show ((w.setMembers name (mapStore (w.conn c).ID))).members n = _
    rw [members_setMembers]
    simp [hn]
  · intro q hq
    rw [conn_enqueue_ne _ _ _ _ hq]
    rfl

/-- C2, amended: an instance.  Connection `B` joins `root`, of which `A` is the member. -/
theorem C2_join_intake_witness :
    ∃ w', Room.Start (NewConnection Demo.oneConn Demo.idB).1 roomRoot (.joinchan 1) = .done w' ∧
      (w'.conn 1).Send.buf = ((NewConnection Demo.oneConn Demo.idB).1.conn 1).Send.buf ++
        [(ConstructMessage (Room.mk roomRoot [Demo.idA]).Name evJoin []
            ((NewConnection Demo.oneConn Demo.idB).1.conn 1).ID
            (some (marshalStrings (Room.mk roomRoot [Demo.idA]).Members))).Bytes] ∧
      ((∀ s ∈ (Room.mk roomRoot [Demo.idA]).Members, validUTF8 s = true) →
        parseJSON (marshalStrings (Room.mk roomRoot [Demo.idA]).Members)
          = some (.array ((Room.mk roomRoot [Demo.idA]).Members.map JValue.string))) ∧
      (NewConnection Demo.oneConn Demo.idB).1.members roomRoot
        = (Room.mk roomRoot [Demo.idA]).Members ∧
      w'.members roomRoot = mapStore ((NewConnection Demo.oneConn Demo.idB).1.conn 1).ID
        (Room.mk roomRoot [Demo.idA]).Members ∧
      (∀ x, x ∈ w'.members roomRoot ↔ x ∈ (Room.mk roomRoot [Demo.idA]).Members
        ∨ x = ((NewConnection Demo.oneConn Demo.idB).1.conn 1).ID) ∧
      (∀ n, n ≠ roomRoot → w'.members n = (NewConnection Demo.oneConn Demo.idB).1.members n) ∧
      (∀ q, q ≠ 1 → w'.conn q = (NewConnection Demo.oneConn Demo.idB).1.conn q) :=
  C2_join_intake (NewConnection Demo.oneConn Demo.idB).1 roomRoot 1 ⟨roomRoot, [Demo.idA]⟩
    (by decide) (by decide) (by decide) (by decide)

/-! ## A closed queue is used again -/

/-- C9, at a failing input.  `B` is a member of `root` and of `lobby` and its queue holds
256 frames.  The next broadcast of `A` in `lobby` evicts `B` and closes its queue; `B` is
still a member of `root`.  After that a broadcast of `A` in `root` sends on the closed
queue, and so do the leave intake that the read pump of `B` issues when it ends and the
join intake when `B` asks to join a room: each time the Go runtime panics. -/
theorem C9_send_on_closed_queue :
    (Demo.slowB.conn 1).Send.buf.length = 256 ∧
    (Demo.slowB.conn 1).Send.closed = false ∧
    (HandleData Demo.slowB 0 Demo.chat).isDone = true ∧
    (Demo.evictedB.conn 1).Send.closed = true ∧
    Demo.idB ∉ Demo.evictedB.members Demo.lobby ∧
    Demo.idB ∈ Demo.evictedB.members roomRoot ∧
    (HandleData Demo.evictedB 0 Demo.chatRoot).isPanicked = true ∧
    (Room.Start Demo.evictedB roomRoot (.leavechan 1)).isPanicked = true ∧
    (Conn.ReadPump Demo.evictedB 1 [] .other).isPanicked = true ∧
    (Conn.Join Demo.evictedB 1 [120]).isPanicked = true := by
  decide

/-- C4, at a failing input.  In the state where a broadcast in `lobby` has closed the full
queue of `B`, `B` is a member of `root`, resolves in the Connection Registry and its queue
holds 256 frames.  The broadcast intake of `root` from `A` panics on the send; `B` is
still a member of `root` afterwards. -/
theorem C4_full_closed_member_not_evicted :
    Demo.idB ∈ Demo.evictedB.members roomRoot ∧
    Demo.evictedB.loadConn Demo.idB = some 1 ∧
    (Demo.evictedB.conn 1).Send.buf.length = 256 ∧
    (Demo.evictedB.conn 1).Send.closed = true ∧
    (Room.Start Demo.evictedB roomRoot (.Send 0 Demo.chatRoot.Bytes)).isPanicked = true ∧
    Demo.idB ∈ (Room.Start Demo.evictedB roomRoot
      (.Send 0 Demo.chatRoot.Bytes)).world.members roomRoot := by
  decide

/-! ## Directed delivery -/

/-- Directed delivery while the queue of the destination is open and has room: when the
room is in the Room Registry, the destination is a member of it and resolves in the
Connection Registry, `HandleData` appends the encoded message to the queue of the
destination and changes nothing else (no other queue, no membership, no registry, and the
log records no intake and no listener call). -/
theorem directed_delivery (w : World) (c : Nat) (msg : Message) (r : Room) (dst : Nat)
    (hev : msg.Event ≠ evJoin ∧ msg.Event ≠ evLeave ∧ msg.Event ≠ evJoined ∧
      msg.Event ≠ evLeft)
    (hdst : msg.Dst ≠ []) (hr : w.loadRoom msg.Room = some r) (hm : msg.Dst ∈ r.Members)
    (hc : w.loadConn msg.Dst = some dst)
    (hopen : (w.conn dst).Send.closed = false)
    (hroom : (w.conn dst).Send.buf.length < sendCap) :
    HandleData w c msg = .done (w.enqueue dst msg.Bytes) := by
  obtain ⟨h1, h2, h3, h4⟩ := hev
  simp [HandleData, h1, h2, h3, h4, hdst, hr, hm, hc, sendBlocking, hopen, hroom]

/-- Directed delivery when one of the three lookups fails: `HandleData` returns with the
whole state unchanged. -/
theorem directed_lookup_failure (w : World) (c : Nat) (msg : Message)
    (hev : msg.Event ≠ evJoin ∧ msg.Event ≠ evLeave ∧ msg.Event ≠ evJoined ∧
      msg.Event ≠ evLeft)
    (hdst : msg.Dst ≠ [])
    (hfail : w.loadRoom msg.Room = none ∨ msg.Dst ∉ w.members msg.Room ∨
      w.loadConn msg.Dst = none) :
    HandleData w c msg = .done w := by
  obtain ⟨h1, h2, h3, h4⟩ := hev
  simp only [HandleData, h1, h2, h3, h4, hdst, if_false, ne_eq, not_false_eq_true, if_true]
  cases hr : w.loadRoom msg.Room with
  | none => rfl
  | some r =>
    simp only
    by_cases hm : msg.Dst ∈ r.Members
    · rw [if_pos hm]
      rcases hfail with h | h | h
      · rw [hr] at h; cases h
      · rw [members_of_loadRoom w _ r hr] at h; exact absurd hm h
      · rw [h]
    · rw [if_neg hm]

/-- C6, at a failing input.  In the state where a broadcast in `lobby` has closed the full
queue of `B`, a message of event `chat` from `A` with room `root` and destination `B`
passes the three lookups; `HandleData` panics on the send to the closed queue of `B` and
appends the message to no queue. -/
theorem C6_directed_send_on_closed_queue :
    Demo.directed.Event ≠ evJoin ∧ Demo.directed.Event ≠ evLeave ∧
    Demo.directed.Event ≠ evJoined ∧ Demo.directed.Event ≠ evLeft ∧
    Demo.directed.Dst = Demo.idB ∧
    (Demo.evictedB.loadRoom Demo.directed.Room).isSome = true ∧
    Demo.directed.Dst ∈ Demo.evictedB.members Demo.directed.Room ∧
    Demo.evictedB.loadConn Demo.directed.Dst = some 1 ∧
    HandleData Demo.evictedB 0 Demo.directed = .panicked Demo.evictedB := by
  decide

/-! ## The broadcast intake -/

theorem broadcastVisit_skip (name : Bytes) (sender : Nat) (data : Bytes) (w : World) (k : Bytes)
    (h : ∀ p, w.loadConn k = some p → p = sender) :
    broadcastVisit name sender data w k = .done w := by
  unfold broadcastVisit
  cases hk : w.loadConn k with
  | none => rfl
  | some p => simp [h p hk]

/-- One visit of the broadcast at a member that resolves to a valid connection other than
the sender, with an open queue. -/
theorem broadcastVisit_target (name : Bytes) (sender : Nat) (data : Bytes) (w : World)
    (k : Bytes) (p : Nat) (hk : w.loadConn k = some p) (hne : p ≠ sender)
    (hv : p < w.heap.length) (hopen : (w.conn p).Send.closed = false) :
    ∃ w1, broadcastVisit name sender data w k = .done w1 ∧
      w1.Conns = w.Conns ∧ w1.heap.length = w.heap.length ∧ w1.log = w.log ∧
      (∀ q, q ≠ p → w1.conn q = w.conn q) ∧
      (w1.conn p).ID = (w.conn p).ID ∧ (w1.conn p).Rooms = (w.conn p).Rooms ∧
      (w1.conn p).Send = (if (w.conn p).Send.buf.length < sendCap
        then ⟨(w.conn p).Send.buf ++ [data], false⟩ else ⟨(w.conn p).Send.buf, true⟩) ∧
      (∀ n, n ≠ name → w1.members n = w.members n) ∧
      (∀ n, (w1.loadRoom n).isSome = (w.loadRoom n).isSome) ∧
      (∀ x, x ∈ w1.members name ↔
        x ∈ w.members name ∧ ¬ (x = k ∧ ¬ (w.conn p).Send.buf.length < sendCap)) := by
  by_cases hroom : (w.conn p).Send.buf.length < sendCap
  · refine ⟨w.enqueue p data, ?_, rfl, ?_, rfl, ?_, ?_, ?_, ?_, ?_, ?_, ?_⟩
    · simp [broadcastVisit, hk, hne, hopen, hroom]
    · simp [World.enqueue, World.setConn]
    · intro q hq; exact conn_enqueue_ne w p q data hq
    · rw [conn_enqueue_same w p data hv]
    · rw [conn_enqueue_same w p data hv]
    · rw [conn_enqueue_same w p data hv, if_pos hroom, ← hopen]
    · intro n _; rfl
    · intro n; rfl
    · intro x
      show x ∈ w.members name ↔ _
      simp [hroom]
  · have hclosed' : ((w.setMembers name (mapDelete k)).conn p).Send.closed = false := hopen
    refine ⟨(w.setMembers name (mapDelete k)).setConn p
        { w.conn p with Send := { (w.conn p).Send with closed := true } },
      ?_, rfl, ?_, rfl, ?_, ?_, ?_, ?_, ?_, ?_, ?_⟩
    · simp only [broadcastVisit, hk, hne, hopen, hroom, closeSend, hclosed', if_false]
      simp
      rfl
    · simp [World.setConn, World.setMembers]
    · intro q hq
      rw [conn_setConn_ne _ _ _ _ hq]
      rfl
    · rw [conn_setConn_same _ _ _ (by exact hv)]
    · rw [conn_setConn_same _ _ _ (by exact hv)]
    · rw [conn_setConn_same _ _ _ (by exact hv), if_neg hroom]
    · intro n hn
      show (w.setMembers name (mapDelete k)).members n = _
      rw [members_setMembers]
      simp [hn]
    · intro n
      show ((w.setMembers name (mapDelete k)).loadRoom n).isSome = _
      rw [loadRoom_setMembers]
      cases w.loadRoom n <;> rfl
    · intro x
      show x ∈ (w.setMembers name (mapDelete k)).members name ↔ _
      rw [members_setMembers]
      cases hr : w.loadRoom name with
      | none => simp [World.members, hr]
      | some r => simp [mem_mapDelete, hroom]

/-- The broadcast over the keys `ks`: when the keys are distinct, resolve to distinct
valid connections, and no target has a closed queue, the loop runs to its end; every
target whose queue has room receives the payload, every target whose queue is full is
deleted from the room and has its queue closed, and nothing else changes. -/
theorem broadcast_range (name : Bytes) (sender : Nat) (data : Bytes) :
    ∀ (ks : List Bytes) (w : World), ks.Nodup →
    (∀ k1 ∈ ks, ∀ k2 ∈ ks, ∀ p, w.loadConn k1 = some p → w.loadConn k2 = some p → k1 = k2) →
    (∀ k ∈ ks, ∀ p, w.loadConn k = some p → p < w.heap.length) →
    (∀ k ∈ ks, ∀ p, w.loadConn k = some p → p ≠ sender → (w.conn p).Send.closed = false) →
    ∃ w', rangeM (broadcastVisit name sender data) ks w = .done w' ∧
      w'.Conns = w.Conns ∧ w'.heap.length = w.heap.length ∧ w'.log = w.log ∧
      (∀ q, (q = sender ∨ ∀ k ∈ ks, w.loadConn k ≠ some q) → w'.conn q = w.conn q) ∧
      (∀ k ∈ ks, ∀ p, w.loadConn k = some p → p ≠ sender →
        (w'.conn p).ID = (w.conn p).ID ∧ (w'.conn p).Rooms = (w.conn p).Rooms ∧
        (w'.conn p).Send = (if (w.conn p).Send.buf.length < sendCap
          then ⟨(w.conn p).Send.buf ++ [data], false⟩ else ⟨(w.conn p).Send.buf, true⟩)) ∧
      (∀ n, n ≠ name → w'.members n = w.members n) ∧
      (∀ n, (w'.loadRoom n).isSome = (w.loadRoom n).isSome) ∧
      (∀ x, x ∈ w'.members name ↔ x ∈ w.members name ∧
        ¬ (x ∈ ks ∧ ∃ p, w.loadConn x = some p ∧ p ≠ sender ∧
            ¬ (w.conn p).Send.buf.length < sendCap)) := by
  intro ks
  induction ks with
  | nil =>
    intro w _ _ _ _
    exact ⟨w, rfl, rfl, rfl, rfl, fun _ _ => rfl, by simp, fun _ _ => rfl, fun _ => rfl, by simp⟩
  | cons k ks ih =>
    intro w hnd hinj hvalid hopen
    have hk_notin : k ∉ ks := (List.nodup_cons.mp hnd).1
    have hnd' : ks.Nodup := (List.nodup_cons.mp hnd).2
    by_cases hskip : ∀ p, w.loadConn k = some p → p = sender
    · -- the member does not resolve, or is the sender
      obtain ⟨w', hrun, hC, hH, hL, hframe, htarget, hother, hsome, hmem⟩ :=
        ih w hnd'
          (fun k1 h1 k2 h2 => hinj k1 (List.mem_cons_of_mem _ h1) k2 (List.mem_cons_of_mem _ h2))
          (fun k' h' => hvalid k' (List.mem_cons_of_mem _ h'))
          (fun k' h' => hopen k' (List.mem_cons_of_mem _ h'))
      refine ⟨w', ?_, hC, hH, hL, ?_, ?_, hother, hsome, ?_⟩
      · simp only [rangeM, broadcastVisit_skip name sender data w k hskip, Outcome.andThen]
        exact hrun
      · intro q hq
        apply hframe
        rcases hq with hq | hq
        · exact Or.inl hq
        · exact Or.inr (fun k' h' => hq k' (List.mem_cons_of_mem _ h'))
      · intro k' hk' p hp hne
        rcases List.mem_cons.mp hk' with e | e
        · subst e
          exact absurd (hskip p hp) hne
        · exact htarget k' e p hp hne
      · intro x
        rw [hmem x]
        constructor
        · rintro ⟨hx, hno⟩
          refine ⟨hx, ?_⟩
          rintro ⟨hxin, p, hp, hne, hfull⟩
          rcases List.mem_cons.mp hxin with e | e
          · subst e
            exact hne (hskip p hp)
          · exact hno ⟨e, p, hp, hne, hfull⟩
        · rintro ⟨hx, hno⟩
          refine ⟨hx, ?_⟩
          rintro ⟨hxin, p, hp, hne, hfull⟩
          exact hno ⟨List.mem_cons_of_mem _ hxin, p, hp, hne, hfull⟩
    · -- the member resolves to a target
      push_neg at hskip
      obtain ⟨p, hp, hne⟩ := hskip
      have hv : p < w.heap.length := hvalid k (List.mem_cons_self _ _) p hp
      have ho : (w.conn p).Send.closed = false := hopen k (List.mem_cons_self _ _) p hp hne
      obtain ⟨w1, hstep, hC1, hH1, hL1, hframe1, hID1, hRooms1, hSend1, hother1, hsome1, hmem1⟩ :=
        broadcastVisit_target name sender data w k p hp hne hv ho
      have hload : ∀ x, w1.loadConn x = w.loadConn x := by
        intro x; unfold World.loadConn; rw [hC1]
      have hdistinct : ∀ k' ∈ ks, w.loadConn k' ≠ some p := by
        intro k' hk' hp'
        have := hinj k' (List.mem_cons_of_mem _ hk') k (List.mem_cons_self _ _) p hp' hp
        exact hk_notin (this ▸ hk')
      obtain ⟨w', hrun, hC, hH, hL, hframe, htarget, hother, hsome, hmem⟩ :=
        ih w1 hnd'
          (fun k1 h1 k2 h2 q hq1 hq2 =>
            hinj k1 (List.mem_cons_of_mem _ h1) k2 (List.mem_cons_of_mem _ h2) q
              (by rw [← hload]; exact hq1) (by rw [← hload]; exact hq2))
          (fun k' h' q hq => by
            rw [hH1]
            exact hvalid k' (List.mem_cons_of_mem _ h') q (by rw [← hload]; exact hq))
          (fun k' h' q hq hqs => by
            have hq' : w.loadConn k' = some q := by rw [← hload]; exact hq
            have hqp : q ≠ p := fun e => hdistinct k' h' (e ▸ hq')
            rw [hframe1 q hqp]
            exact hopen k' (List.mem_cons_of_mem _ h') q hq' hqs)
      have hp_after : w'.conn p = w1.conn p :=
        hframe p (Or.inr (fun k' h' => by rw [hload]; exact hdistinct k' h'))
      refine ⟨w', ?_, hC.trans hC1, hH.trans hH1, hL.trans hL1, ?_, ?_, ?_, ?_, ?_⟩
      · simp only [rangeM, hstep, Outcome.andThen]
        exact hrun
      · intro q hq
        have hqp : q ≠ p := by
          rcases hq with hq | hq
          · rw [hq]; exact fun e => hne e.symm
          · exact fun e => hq k (List.mem_cons_self _ _) (e ▸ hp)
        rw [← hframe1 q hqp]
        apply hframe
        rcases hq with hq | hq
        · exact Or.inl hq
        · exact Or.inr (fun k' h' => by rw [hload]; exact hq k' (List.mem_cons_of_mem _ h'))
      · intro k' hk' q hq hqs
        rcases List.mem_cons.mp hk' with e | e
        · subst e
          have hqp : q = p := by rw [hp] at hq; exact (Option.some.inj hq).symm
          subst hqp
          rw [hp_after]
          exact ⟨hID1, hRooms1, hSend1⟩
        · have hqp : q ≠ p := fun e' => hdistinct k' e (e' ▸ hq)
          have := htarget k' e q (by rw [hload]; exact hq) hqs
          rw [hframe1 q hqp] at this
          exact this
      · intro n hn
        rw [hother n hn, hother1 n hn]
      · intro n
        rw [hsome n, hsome1 n]
      · intro x
        rw [hmem x, hmem1 x]
        constructor
        · rintro ⟨⟨hx, hnk⟩, hno⟩
          refine ⟨hx, ?_⟩
          rintro ⟨hxin, q, hq, hqs, hfull⟩
          rcases List.mem_cons.mp hxin with e | e
          · subst e
            have hqp : q = p := by rw [hp] at hq; exact (Option.some.inj hq).symm
            subst hqp
            exact hnk ⟨rfl, hfull⟩
          · have hqp : q ≠ p := fun e' => hdistinct x e (e' ▸ hq)
            apply hno
            refine ⟨e, q, by rw [hload]; exact hq, hqs, ?_⟩
            rw [hframe1 q hqp]
            exact hfull
        · rintro ⟨hx, hno⟩
          refine ⟨⟨hx, ?_⟩, ?_⟩
          · rintro ⟨e, hfull⟩
            subst e
            exact hno ⟨List.mem_cons_self _ _, p, hp, hne, hfull⟩
          · rintro ⟨hxin, q, hq, hqs, hfull⟩
            have hq' : w.loadConn x = some q := by rw [← hload]; exact hq
            have hqp : q ≠ p := fun e' => hdistinct x hxin (e' ▸ hq')
            rw [hframe1 q hqp] at hfull
            exact hno ⟨List.mem_cons_of_mem _ hxin, q, hq', hqs, hfull⟩

theorem mem_of_lookup (k : Bytes) (p : Nat) :
    ∀ (l : List (Bytes × Nat)), l.lookup k = some p → (k, p) ∈ l := by
  intro l
  induction l with
  | nil => intro h; simp [List.lookup] at h
  | cons e l ih =>
    intro h
    obtain ⟨a, b⟩ := e
    by_cases hka : k = a
    · subst hka
      simp [List.lookup] at h
      simp [h]
    · have : (k == a) = false := by simpa using hka
      simp only [List.lookup, this] at h
      exact List.mem_cons_of_mem _ (ih h)

/-- C3, counterexample.  `B` is a current member of `lobby`, is not the sender `A`, and
resolves in the Connection Registry; its queue holds 256 frames.  The broadcast intake of
`lobby` from `A` runs to its end and the payload is not in the queue of `B`, which holds
what it held before. -/
theorem C3_full_member_gets_no_payload :
    Demo.idB ∈ Demo.slowB.members Demo.lobby ∧
    Demo.slowB.loadConn Demo.idB = some 1 ∧
    (Room.Start Demo.slowB Demo.lobby (.Send 0 [1])).isDone = true ∧
    [1] ∉ ((Room.Start Demo.slowB Demo.lobby (.Send 0 [1])).world.conn 1).Send.buf ∧
    ((Room.Start Demo.slowB Demo.lobby (.Send 0 [1])).world.conn 1).Send.buf
      = (Demo.slowB.conn 1).Send.buf := by
  decide

/-- C3, amended.  Let the Connection Registry store every connection under its own
identifier, and let no member of `R` other than the sender resolve to a connection whose
queue is closed.  Then the broadcast intake `(S, payload)` runs to its end; it appends
the payload to the queue of every current member of `R` that resolves in the Connection
Registry to a connection other than `S` whose queue holds fewer than 256 frames (once, at
the end of the queue); a member whose queue is full gets nothing; and the connection `S`
is unchanged, so nothing is appended to its queue. -/
theorem C3_broadcast_delivery (w : World) (name : Bytes) (sender : Nat) (data : Bytes)
    (hnodup : (w.members name).Nodup)
    (hreg : ∀ e ∈ w.Conns, e.2 < w.heap.length ∧ (w.conn e.2).ID = e.1)
    (hopen : ∀ k ∈ w.members name, ∀ p ∈ w.loadConn k, p ≠ sender →
      (w.conn p).Send.closed = false) :
    ∃ w', Room.Start w name (.Send sender data) = .done w' ∧
      (∀ k ∈ w.members name, ∀ p ∈ w.loadConn k, p ≠ sender →
        (w.conn p).Send.buf.length < sendCap →
        (w'.conn p).Send.buf = (w.conn p).Send.buf ++ [data]) ∧
      (∀ k ∈ w.members name, ∀ p ∈ w.loadConn k, p ≠ sender →
        ¬ (w.conn p).Send.buf.length < sendCap →
        (w'.conn p).Send.buf = (w.conn p).Send.buf) ∧
      w'.conn sender = w.conn sender := by
  have hreg' : ∀ k p, w.loadConn k = some p → p < w.heap.length ∧ (w.conn p).ID = k :=
    fun k p h => hreg (k, p) (mem_of_lookup k p w.Conns h)
  obtain ⟨w', hrun, _, _, _, hframe, htarget, _, _, _⟩ :=
    broadcast_range name sender data (w.members name) w hnodup
      (fun k1 _ k2 _ p h1 h2 => by rw [← (hreg' k1 p h1).2, ← (hreg' k2 p h2).2])
      (fun k _ p h => (hreg' k p h).1)
      (fun k hk p h hne => hopen k hk p (Option.mem_def.mpr h) hne)
  refine ⟨w', hrun, ?_, ?_, hframe sender (Or.inl rfl)⟩
  · intro k hk p hp hne hroom
    rw [(htarget k hk p (Option.mem_def.mp hp) hne).2.2, if_pos hroom]
  · intro k hk p hp hne hfull
    rw [(htarget k hk p (Option.mem_def.mp hp) hne).2.2, if_neg hfull]

/-- The eviction of the broadcast intake, while no target has a closed queue: every member
that resolves to a connection other than the sender whose queue holds 256 frames is
deleted from the room and has its queue closed with its frames unchanged; every other
member stays; and a target whose queue has room receives the payload whether or not other
members were evicted. -/
theorem broadcast_eviction (w : World) (name : Bytes) (sender : Nat) (data : Bytes)
    (hnodup : (w.members name).Nodup)
    (hreg : ∀ e ∈ w.Conns, e.2 < w.heap.length ∧ (w.conn e.2).ID = e.1)
    (hopen : ∀ k ∈ w.members name, ∀ p ∈ w.loadConn k, p ≠ sender →
      (w.conn p).Send.closed = false) :
    ∃ w', Room.Start w name (.Send sender data) = .done w' ∧
      (∀ k ∈ w.members name, ∀ p ∈ w.loadConn k, p ≠ sender →
        ¬ (w.conn p).Send.buf.length < sendCap →
        k ∉ w'.members name ∧ (w'.conn p).Send = ⟨(w.conn p).Send.buf, true⟩) ∧
      (∀ k ∈ w.members name,
        (∀ p ∈ w.loadConn k, p ≠ sender → (w.conn p).Send.buf.length < sendCap) →
        k ∈ w'.members name) ∧
      (∀ k ∈ w.members name, ∀ p ∈ w.loadConn k, p ≠ sender →
        (w.conn p).Send.buf.length < sendCap →
        (w'.conn p).Send = ⟨(w.conn p).Send.buf ++ [data], false⟩) ∧
      (∀ x ∈ w'.members name, x ∈ w.members name) ∧
      (∀ n, n ≠ name → w'.members n = w.members n) := by
  have hreg' : ∀ k p, w.loadConn k = some p → p < w.heap.length ∧ (w.conn p).ID = k :=
    fun k p h => hreg (k, p) (mem_of_lookup k p w.Conns h)
  obtain ⟨w', hrun, _, _, _, _, htarget, hother, _, hmem⟩ :=
    broadcast_range name sender data (w.members name) w hnodup
      (fun k1 _ k2 _ p h1 h2 => by rw [← (hreg' k1 p h1).2, ← (hreg' k2 p h2).2])
      (fun k _ p h => (hreg' k p h).1)
      (fun k hk p h hne => hopen k hk p (Option.mem_def.mpr h) hne)
  refine ⟨w', hrun, ?_, ?_, ?_, ?_, hother⟩
  · intro k hk p hp hne hfull
    refine ⟨?_, ?_⟩
    · intro hin
      exact ((hmem k).mp hin).2 ⟨hk, p, Option.mem_def.mp hp, hne, hfull⟩
    · rw [(htarget k hk p (Option.mem_def.mp hp) hne).2.2, if_neg hfull]
  · intro k hk hroom
    refine (hmem k).mpr ⟨hk, ?_⟩
    rintro ⟨_, p, hp, hne, hfull⟩
    exact hfull (hroom p (Option.mem_def.mpr hp) hne)
  · intro k hk p hp hne hroom
    rw [(htarget k hk p (Option.mem_def.mp hp) hne).2.2, if_pos hroom]
  · intro x hx
    exact ((hmem x).mp hx).1

/-- C3, amended: an instance.  `A` broadcasts in `root`, of which `A` and `B` are the
members. -/
theorem C3_broadcast_delivery_witness :
    ∃ w', Room.Start Demo.twoConns roomRoot (.Send 0 Demo.frame) = .done w' ∧
      (∀ k ∈ Demo.twoConns.members roomRoot, ∀ p ∈ Demo.twoConns.loadConn k, p ≠ 0 →
        (Demo.twoConns.conn p).Send.buf.length < sendCap →
        (w'.conn p).Send.buf = (Demo.twoConns.conn p).Send.buf ++ [Demo.frame]) ∧
      (∀ k ∈ Demo.twoConns.members roomRoot, ∀ p ∈ Demo.twoConns.loadConn k, p ≠ 0 →
        ¬ (Demo.twoConns.conn p).Send.buf.length < sendCap →
        (w'.conn p).Send.buf = (Demo.twoConns.conn p).Send.buf) ∧
      w'.conn 0 = Demo.twoConns.conn 0 :=
  C3_broadcast_delivery Demo.twoConns roomRoot 0 Demo.frame (by decide) (by decide) (by decide)

/-! ## States that only shrink -/

theorem Shrink.refl (w : World) : Shrink w w :=
  ⟨rfl, rfl, fun _ => ⟨rfl, rfl⟩, fun r hr => ⟨r, hr, rfl, fun _ hx => hx⟩, fun h => h⟩

theorem Shrink.trans {w1 w2 w3 : World} (h12 : Shrink w1 w2) (h23 : Shrink w2 w3) :
    Shrink w1 w3 := by
  obtain ⟨a1, b1, c1, d1, e1⟩ := h12
  obtain ⟨a2, b2, c2, d2, e2⟩ := h23
  refine ⟨a2.trans a1, b2.trans b1, ?_, ?_, fun h => e2 (e1 h)⟩
  · intro q
    exact ⟨(c2 q).1.trans (c1 q).1, (c2 q).2.trans (c1 q).2⟩
  · intro r3 hr3
    obtain ⟨r2, hr2, hn2, hm2⟩ := d2 r3 hr3
    obtain ⟨r1, hr1, hn1, hm1⟩ := d1 r2 hr2
    exact ⟨r1, hr1, hn1.trans hn2, fun x hx => hm1 x (hm2 x hx)⟩

theorem shrink_of_heap (w : World) (p : Nat) (c : Conn)
    (hID : c.ID = (w.conn p).ID) (hRooms : c.Rooms = (w.conn p).Rooms) :
    Shrink w (w.setConn p c) := by
  refine ⟨rfl, by simp [World.setConn], ?_, fun r hr => ⟨r, hr, rfl, fun _ hx => hx⟩, fun h => h⟩
  intro q
  rw [conn_setConn]
  split
  · rename_i hq
    rw [hq.1]
    exact ⟨hID, hRooms⟩
  · exact ⟨rfl, rfl⟩

theorem shrink_enqueue (w : World) (p : Nat) (f : Bytes) : Shrink w (w.enqueue p f) :=
  shrink_of_heap w p _ rfl rfl

theorem shrink_record (w : World) (e : Effect) : Shrink w (w.record e) :=
  ⟨rfl, rfl, fun _ => ⟨rfl, rfl⟩, fun r hr => ⟨r, hr, rfl, fun _ hx => hx⟩, fun h => h⟩

theorem map_name_setMembers (w : World) (name : Bytes) (f : List Bytes → List Bytes) :
    (w.setMembers name f).Rooms.map Room.Name = w.Rooms.map Room.Name := by
  unfold World.setMembers
  simp only [List.map_map]
  apply List.map_congr_left
  intro r _
  simp only [Function.comp]
  split <;> rfl

theorem shrink_delete (w : World) (name k : Bytes) :
    Shrink w (w.setMembers name (mapDelete k)) := by
  refine ⟨rfl, rfl, fun _ => ⟨rfl, rfl⟩, ?_, ?_⟩
  · intro r' hr'
    simp only [World.setMembers, List.mem_map] at hr'
    obtain ⟨r, hr, e⟩ := hr'
    refine ⟨r, hr, ?_, ?_⟩
    · rw [← e]; split <;> rfl
    · intro x hx
      rw [← e] at hx
      split at hx
      · exact ((mem_mapDelete k x r.Members).mp hx).1
      · exact hx
  · intro h
    rw [map_name_setMembers]
    exact h

theorem shrink_stop (w : World) (name : Bytes) :
    Shrink w { w with Rooms := w.Rooms.filter (fun r => decide (r.Name ≠ name)) } := by
  refine ⟨rfl, rfl, fun _ => ⟨rfl, rfl⟩, ?_, ?_⟩
  · intro r' hr'
    exact ⟨r', (List.mem_filter.mp hr').1, rfl, fun _ hx => hx⟩
  · intro h
    exact List.Nodup.sublist (List.Sublist.map _ (List.filter_sublist _)) h

theorem shrink_sendBlocking (w : World) (p : Nat) (f : Bytes) :
    Shrink w (sendBlocking w p f).world := by
  rcases sendBlocking_world w p f with h | h <;> rw [h]
  · exact Shrink.refl w
  · exact shrink_enqueue w p f

theorem shrink_closeSend (w : World) (p : Nat) : Shrink w (closeSend w p).world := by
  unfold closeSend
  split
  · exact Shrink.refl w
  · exact shrink_of_heap w p _ rfl rfl

theorem shrink_broadcastVisit (name : Bytes) (sender : Nat) (data : Bytes) (w : World)
    (k : Bytes) : Shrink w (broadcastVisit name sender data w k).world := by
  unfold broadcastVisit
  split
  · exact Shrink.refl w
  · split
    · exact Shrink.refl w
    · split
      · exact Shrink.refl w
      · split
        · exact shrink_enqueue w _ data
        · exact (shrink_delete w name k).trans (shrink_closeSend _ _)

theorem shrink_andThen (w : World) (o : Outcome) (f : World → Outcome)
    (ho : Shrink w o.world) (hf : ∀ w1, Shrink w1 (f w1).world) :
    Shrink w (o.andThen f).world := by
  cases o with
  | done w1 => exact ho.trans (hf w1)
  | blocked w1 c fr => exact ho
  | panicked w1 => exact ho

theorem shrink_rangeM (f : World → Bytes → Outcome) (hf : ∀ w k, Shrink w (f w k).world) :
    ∀ (ks : List Bytes) (w : World), Shrink w (rangeM f ks w).world := by
  intro ks
  induction ks with
  | nil => intro w; exact Shrink.refl w
  | cons k ks ih => intro w; exact shrink_andThen w _ _ (hf w k) ih

/-- The leave, broadcast and stop intakes only shrink the state, whatever their outcome. -/
theorem shrink_start (w : World) (name : Bytes) (i : Intake) (hi : ∀ c, i ≠ .joinchan c) :
    Shrink w (Room.Start w name i).world := by
  cases i with
  | joinchan c => exact absurd rfl (hi c)
  | leavechan c =>
    simp only [Room.Start]
    split
    · exact (shrink_delete w name _).trans (shrink_sendBlocking _ _ _)
    · exact Shrink.refl w
  | Send sender data => exact shrink_rangeM _ (shrink_broadcastVisit name sender data) _ _
  | stopchan => exact shrink_stop w name

theorem shrink_submit (w : World) (name : Bytes) (i : Intake) (hi : ∀ c, i ≠ .joinchan c) :
    Shrink w (Room.submit w name i).world :=
  (shrink_record w _).trans (shrink_start _ name i hi)

/-! ## The read pump: steps that only shrink the state -/

theorem andThen_going (o : Progress) (f : Pump → Progress) (s' : Pump)
    (h : o.andThen f = .going s') : ∃ s1, o = .going s1 ∧ f s1 = .going s' := by
  cases o with
  | going s1 => exact ⟨s1, rfl, h⟩
  | suspended s1 c fr => simp [Progress.andThen] at h
  | panicked s1 => simp [Progress.andThen] at h

/-- A send to a room after which the sender goes on: the loop has received the value, and
the state is the one its servicing has reached. -/
theorem handOff_going (s s' : Pump) (name : Bytes) (i : Intake)
    (h : Pump.handOff s name i = .going s') :
    s.parked.lookup name = none ∧ s'.world = (Room.submit s.world name i).world ∧
      (Room.submit s.world name i).isPanicked = false := by
  unfold Pump.handOff at h
  cases hp : s.parked.lookup name with
  | some e => rw [hp] at h; cases h
  | none =>
    rw [hp] at h
    simp only at h
    cases ho : Room.submit s.world name i with
    | done w => rw [ho] at h; cases h; exact ⟨rfl, rfl, rfl⟩
    | blocked w c frame => rw [ho] at h; cases h; exact ⟨rfl, rfl, rfl⟩
    | panicked w => rw [ho] at h; cases h

theorem shrink_handOff (s s' : Pump) (name : Bytes) (i : Intake) (hi : ∀ c, i ≠ .joinchan c)
    (h : Pump.handOff s name i = .going s') : Shrink s.world s'.world := by
  rw [(handOff_going s s' name i h).2.1]
  exact shrink_submit _ name i hi

theorem shrink_pump_emit (s s' : Pump) (c : Nat) (msg : Message)
    (h : Pump.Emit s c msg = .going s') : Shrink s.world s'.world := by
  unfold Pump.Emit at h
  split at h
  · exact shrink_handOff _ _ _ _ (fun _ => by simp) h
  · cases h; exact Shrink.refl _

theorem shrink_pump_dropAndStop (s s' : Pump) (c : Nat) (name : Bytes)
    (h : Pump.dropAndStop s c name = .going s') : Shrink s.world s'.world := by
  unfold Pump.dropAndStop at h
  simp only at h
  split at h
  · exact (shrink_delete s.world name _).trans (shrink_handOff _ _ _ _ (fun _ => by simp) h)
  · cases h; exact shrink_delete s.world name _

theorem shrink_pump_closeVisit (c : Nat) (s : Pump) (k : Bytes) (s' : Pump)
    (h : Pump.closeVisit c s k = .going s') : Shrink s.world s'.world := by
  unfold Pump.closeVisit at h
  split at h
  · cases h; exact Shrink.refl _
  · obtain ⟨s1, h1, h2⟩ := andThen_going _ _ _ h
    exact (shrink_handOff _ _ _ _ (fun _ => by simp) h1).trans
      (shrink_pump_dropAndStop _ _ _ _ h2)

theorem shrink_pump_deferVisit (c : Nat) (s : Pump) (k : Bytes) (s' : Pump)
    (h : Pump.deferVisit c s k = .going s') : Shrink s.world s'.world := by
  unfold Pump.deferVisit at h
  split at h
  · exact shrink_handOff _ _ _ _ (fun _ => by simp) h
  · cases h; exact Shrink.refl _

theorem shrink_pump_rangeM (f : Pump → Bytes → Progress)
    (hf : ∀ s k s', f s k = .going s' → Shrink s.world s'.world) :
    ∀ (ks : List Bytes) (s s' : Pump), Pump.rangeM f ks s = .going s' →
      Shrink s.world s'.world := by
  intro ks
  induction ks with
  | nil =>
    intro s s' h
    cases h
    exact Shrink.refl _
  | cons k ks ih =>
    intro s s' h
    obtain ⟨s1, h1, h2⟩ := andThen_going _ _ _ h
    exact (hf s k s1 h1).trans (ih s1 s' h2)

/-! ## The joined-set records every membership -/

theorem loadRoom_of_mem_nodup (w : World) (r : Room)
    (hnd : (w.Rooms.map Room.Name).Nodup) (hr : r ∈ w.Rooms) : w.loadRoom r.Name = some r := by
  unfold World.loadRoom
  generalize w.Rooms = l at hnd hr
  induction l with
  | nil => cases hr
  | cons a l ih =>
    rw [List.map_cons, List.nodup_cons] at hnd
    rcases List.mem_cons.mp hr with e | e
    · subst e
      simp [List.find?]
    · have hne : a.Name ≠ r.Name := by
        intro e'
        exact hnd.1 (e' ▸ List.mem_map_of_mem Room.Name e)
      simp only [List.find?, hne, decide_False]
      exact ih hnd.2 e

theorem members_of_mem_nodup (w : World) (r : Room)
    (hnd : (w.Rooms.map Room.Name).Nodup) (hr : r ∈ w.Rooms) : w.members r.Name = r.Members :=
  members_of_loadRoom w r.Name r (loadRoom_of_mem_nodup w r hnd hr)

theorem loadRoom_none_iff (w : World) (name : Bytes) (h : w.loadRoom name = none) :
    ∀ r ∈ w.Rooms, r.Name ≠ name := by
  intro r hr
  have := List.find?_eq_none.mp h r hr
  simpa using this

/-- What `Joined` needs of a step of connection `c`. -/
theorem joined_of_shrink (w w' : World) (c : Nat) (hj : Joined w c) (hs : Shrink w w') :
    Joined w' c ∧ w'.Conns = w.Conns ∧ (w'.conn c).ID = (w.conn c).ID := by
  obtain ⟨hC, hH, hq, hR, hN⟩ := hs
  obtain ⟨hnd, hv, hjoin⟩ := hj
  refine ⟨⟨hN hnd, by rw [hH]; exact hv, ?_⟩, hC, (hq c).1⟩
  intro r' hr' hmem
  obtain ⟨r, hr, hname, hsub⟩ := hR r' hr'
  rw [(hq c).1] at hmem
  rw [(hq c).2, ← hname]
  exact hjoin r hr (hsub _ hmem)

theorem nodup_newRoom (w : World) (name : Bytes) (hnd : (w.Rooms.map Room.Name).Nodup) :
    ((NewRoom w name).Rooms.map Room.Name).Nodup := by
  unfold NewRoom
  simp only [List.map_append, List.map_cons, List.map_nil]
  rw [List.nodup_append]
  refine ⟨List.Nodup.sublist (List.Sublist.map _ (List.filter_sublist _)) hnd, by simp, ?_⟩
  intro a ha hb
  simp only [List.mem_singleton] at hb
  subst hb
  obtain ⟨r, hr, e⟩ := List.mem_map.mp ha
  have := (List.mem_filter.mp hr).2
  simp at this
  exact this e

theorem setConn_ID (w : World) (c : Nat) (k : Conn) (hk : k.ID = (w.conn c).ID) (q : Nat) :
    ((w.setConn c k).conn q).ID = (w.conn q).ID := by
  rw [conn_setConn]
  split
  · rename_i hq; rw [hq.1]; exact hk
  · rfl

theorem kept_refl (c : Nat) (w : World) : Kept c w w :=
  ⟨rfl, fun _ => rfl, fun h => h, fun h => h⟩

theorem kept_trans {c : Nat} {w1 w2 w3 : World} (h12 : Kept c w1 w2) (h23 : Kept c w2 w3) :
    Kept c w1 w3 :=
  ⟨h23.1.trans h12.1, fun q => (h23.2.1 q).trans (h12.2.1 q), fun h => h23.2.2.1 (h12.2.2.1 h),
    fun h => h23.2.2.2 (h12.2.2.2 h)⟩

theorem kept_of_shrink (c : Nat) (w w' : World) (hs : Shrink w w') : Kept c w w' :=
  ⟨hs.1, fun q => (hs.2.2.1 q).1, hs.2.2.2.2, fun hj => (joined_of_shrink w w' c hj hs).1⟩

/-- The join intake, whatever the outcome of its send: the registry of connections, the
identifiers and the joined-sets are what they were, and the rooms are the old ones with
the identifier stored in the room of that name. -/
theorem join_intake_world (w : World) (name : Bytes) (c : Nat) :
    (Room.Start w name (.joinchan c)).world.Conns = w.Conns ∧
    (Room.Start w name (.joinchan c)).world.heap.length = w.heap.length ∧
    (∀ q, ((Room.Start w name (.joinchan c)).world.conn q).ID = (w.conn q).ID ∧
      ((Room.Start w name (.joinchan c)).world.conn q).Rooms = (w.conn q).Rooms) ∧
    (Room.Start w name (.joinchan c)).world.Rooms
      = (w.setMembers name (mapStore (w.conn c).ID)).Rooms := by
  simp only [Room.Start]
  have hs := shrink_sendBlocking (w.setMembers name (mapStore (w.conn c).ID)) c
    (ConstructMessage name evJoin [] (w.conn c).ID (some (marshalStrings (w.members name)))).Bytes
  exact ⟨hs.1, hs.2.1, hs.2.2.1, sendBlocking_rooms _ _ _⟩

theorem kept_pump_join (s s' : Pump) (c : Nat) (name : Bytes)
    (h : Pump.Join s c name = .going s') : Kept c s.world s'.world := by
  -- the state after the room was found or created
  obtain ⟨s1, hs1, hheap1, hConns1, hnd1, hrooms1⟩ : ∃ s1 : Pump,
      (match s.world.loadRoom name with
        | some _ => s
        | none => ⟨NewRoom s.world name, s.parked.filter (fun e => decide (e.1 ≠ name))⟩) = s1 ∧
      s1.world.heap = s.world.heap ∧ s1.world.Conns = s.world.Conns ∧
      ((s.world.Rooms.map Room.Name).Nodup → (s1.world.Rooms.map Room.Name).Nodup) ∧
      ∀ r ∈ s1.world.Rooms, r.Name ≠ name → r ∈ s.world.Rooms := by
    cases hr : s.world.loadRoom name with
    | some r => exact ⟨s, rfl, rfl, rfl, fun h => h, fun r hr _ => hr⟩
    | none =>
      refine ⟨_, rfl, rfl, rfl, nodup_newRoom s.world name, ?_⟩
      intro r hr hne
      simp only [NewRoom, List.mem_append, List.mem_singleton] at hr
      rcases hr with hr | hr
      · exact (List.mem_filter.mp hr).1
      · rw [hr] at hne; exact absurd rfl hne
  have hconn1 : ∀ q, s1.world.conn q = s.world.conn q := by
    intro q; unfold World.conn; rw [hheap1]
  unfold Pump.Join at h
  simp only [hs1] at h
  have hw' := (handOff_going _ _ _ _ h).2.1
  simp only [Room.submit] at hw'
  obtain ⟨hC, hH, hq, hR⟩ := join_intake_world
    ((s1.world.setConn c { s1.world.conn c with Rooms := mapStore name (s1.world.conn c).Rooms }).record
      (.intake name (.joinchan c))) name c
  rw [← hw'] at hC hH hq hR
  have hIDs : ∀ q, (s'.world.conn q).ID = (s.world.conn q).ID := by
    intro q
    rw [(hq q).1]
    exact (setConn_ID s1.world c
      { s1.world.conn c with Rooms := mapStore name (s1.world.conn c).Rooms } rfl q).trans
      (by rw [hconn1])
  have hR' : s'.world.Rooms = (s1.world.setMembers name (mapStore (s.world.conn c).ID)).Rooms := by
    rw [hR]
    have := setConn_ID s1.world c
      { s1.world.conn c with Rooms := mapStore name (s1.world.conn c).Rooms } rfl c
    show (s1.world.setMembers name (mapStore ((s1.world.setConn c _).conn c).ID)).Rooms = _
    rw [this, hconn1]
  have hNodup : (s.world.Rooms.map Room.Name).Nodup → (s'.world.Rooms.map Room.Name).Nodup := by
    intro hnd
    rw [hR', map_name_setMembers]
    exact hnd1 hnd
  refine ⟨hC.trans hConns1, hIDs, hNodup, ?_⟩
  rintro ⟨hnd, hv, hjoin⟩
  have hv1 : c < s1.world.heap.length := by rw [hheap1]; exact hv
  have hB : ((s1.world.setConn c
      { s1.world.conn c with Rooms := mapStore name (s1.world.conn c).Rooms }).record
      (.intake name (.joinchan c))).conn c
      = { s1.world.conn c with Rooms := mapStore name (s1.world.conn c).Rooms } :=
    conn_setConn_same _ _ _ hv1
  have hRooms : (s'.world.conn c).Rooms = mapStore name (s.world.conn c).Rooms := by
    rw [(hq c).2, hB, hconn1]
  refine ⟨hNodup hnd, ?_, ?_⟩
  · rw [hH]
    simpa [World.setConn, World.record] using hv1
  · intro r' hr' hmem
    rw [hIDs c] at hmem
    rw [hRooms]
    rw [hR'] at hr'
    simp only [World.setMembers, List.mem_map] at hr'
    obtain ⟨r1, hr1, e⟩ := hr'
    by_cases hn : r1.Name = name
    · rw [if_pos hn] at e
      rw [← e]
      simp only
      rw [hn, mem_mapStore]
      exact Or.inr rfl
    · rw [if_neg hn] at e
      subst e
      rw [mem_mapStore]
      exact Or.inl (hjoin r1 (hrooms1 r1 hr1 hn) hmem)

theorem kept_pump_leave (s s' : Pump) (c : Nat) (n : Bytes)
    (h : Pump.Leave s c n = .going s') : Kept c s.world s'.world := by
  unfold Pump.Leave at h
  split at h
  · cases h; exact kept_refl c _
  · rename_i r0 hr0
    split at h
    · rename_i hn
      have hw' := (handOff_going _ _ _ _ h).2.1
      simp only at hw'
      have hs := shrink_handOff _ _ _ _ (fun _ => by simp) h
      simp only at hs
      obtain ⟨hC, hH, hq, hR, hN⟩ := hs
      have hIDs : ∀ q, (s'.world.conn q).ID = (s.world.conn q).ID := by
        intro q
        exact ((hq q).1).trans (setConn_ID s.world c
          { s.world.conn c with Rooms := mapDelete n (s.world.conn c).Rooms } rfl q)
      refine ⟨hC, hIDs, hN, ?_⟩
      rintro ⟨hnd, hv, hjoin⟩
      have hnd' : (s'.world.Rooms.map Room.Name).Nodup := hN hnd
      have hRooms : (s'.world.conn c).Rooms = mapDelete n (s.world.conn c).Rooms := by
        rw [(hq c).2, conn_setConn_same _ _ _ hv]
      have hMem : s'.world.members n = mapDelete (s.world.conn c).ID (s.world.members n) := by
        rw [hw']
        simp only [Room.submit]
        rw [leave_intake_members, if_pos rfl]
        congr 1
        exact setConn_ID s.world c
          { s.world.conn c with Rooms := mapDelete n (s.world.conn c).Rooms } rfl c
      refine ⟨hnd', ?_, ?_⟩
      · rw [hH]; simpa [World.setConn] using hv
      · intro r' hr' hmem
        rw [hIDs c] at hmem
        rw [hRooms, mem_mapDelete]
        obtain ⟨r, hr, hname, hsub⟩ := hR r' hr'
        refine ⟨?_, ?_⟩
        · rw [← hname]
          exact hjoin r hr (hsub _ hmem)
        · intro e
          have hm := members_of_mem_nodup s'.world r' hnd' hr'
          rw [e, hMem] at hm
          have : (s.world.conn c).ID ∈ mapDelete (s.world.conn c).ID (s.world.members n) := by
            rw [hm]; exact hmem
          exact ((mem_mapDelete _ _ _).mp this).2 rfl
    · cases h; exact kept_refl c _

theorem kept_pump_handleData (s s' : Pump) (c : Nat) (msg : Message)
    (h : Pump.HandleData s c msg = .going s') : Kept c s.world s'.world := by
  unfold Pump.HandleData at h
  split at h
  · exact kept_pump_join s s' c _ h
  · split at h
    · exact kept_pump_leave s s' c _ h
    · split at h
      · exact kept_of_shrink c _ _ (shrink_pump_emit _ _ _ _ h)
      · split at h
        · obtain ⟨s1, h1, h2⟩ := andThen_going _ _ _ h
          apply kept_of_shrink c
          apply (shrink_pump_emit _ _ _ _ h1).trans
          split at h2
          · cases h2; exact Shrink.refl _
          · exact shrink_pump_dropAndStop _ _ _ _ h2
        · split at h
          · apply kept_of_shrink c
            split at h
            · cases h; exact Shrink.refl _
            · split at h
              · split at h
                · cases h; exact Shrink.refl _
                · rename_i dst hdst
                  have hs := shrink_sendBlocking s.world dst msg.Bytes
                  cases ho : sendBlocking s.world dst msg.Bytes with
                  | done w => rw [ho] at h hs; cases h; exact hs
                  | blocked w p frame => rw [ho] at h; cases h
                  | panicked w => rw [ho] at h; cases h
              · cases h; exact Shrink.refl _
          · split at h
            · cases h
              exact kept_of_shrink c _ _ (shrink_record _ _)
            · exact kept_of_shrink c _ _ (shrink_pump_emit _ _ _ _ h)

theorem kept_pump_readLoop (c : Nat) (e : ReadError) :
    ∀ (frames : List Bytes) (s s' : Pump), Pump.readLoop c frames e s = .going s' →
      Kept c s.world s'.world := by
  intro frames
  induction frames with
  | nil =>
    intro s s' h
    cases e with
    | closeError =>
      exact kept_of_shrink c _ _ (shrink_pump_rangeM _ (shrink_pump_closeVisit c) _ _ _ h)
    | other =>
      simp only [Pump.readLoop, Progress.going.injEq] at h
      subst h
      exact kept_refl c _
  | cons data rest ih =>
    intro s s' h
    obtain ⟨s1, h1, h2⟩ := andThen_going _ _ _ h
    exact kept_trans (kept_pump_handleData s s1 c _ h1) (ih s1 s' h2)

/-- The deferred function of `ReadPump`: after the sends to the rooms named in `ks`, no
room of the registry with a name in `ks` has the identifier of `c` as a member, whether
the confirmation was enqueued or the loop of the room is suspended in sending it. -/
theorem defer_range (c : Nat) :
    ∀ (ks : List Bytes) (s s' : Pump), (s.world.Rooms.map Room.Name).Nodup →
      Pump.rangeM (Pump.deferVisit c) ks s = .going s' →
      Shrink s.world s'.world ∧
        ∀ r' ∈ s'.world.Rooms, r'.Name ∈ ks → (s.world.conn c).ID ∉ r'.Members := by
  intro ks
  induction ks with
  | nil =>
    intro s s' _ h
    cases h
    exact ⟨Shrink.refl _, fun _ _ hk => by cases hk⟩
  | cons k ks ih =>
    intro s s' hnd h
    obtain ⟨s1, h1, h2⟩ := andThen_going _ _ _ h
    have hs1 := shrink_pump_deferVisit c s k s1 h1
    have hnd1 : (s1.world.Rooms.map Room.Name).Nodup := hs1.2.2.2.2 hnd
    obtain ⟨hs2, hrest⟩ := ih s1 s' hnd1 h2
    refine ⟨hs1.trans hs2, ?_⟩
    intro r' hr' hk hmem
    rcases List.mem_cons.mp hk with e | e
    · -- the room visited first
      obtain ⟨r1, hr1, hname1, hsub1⟩ := hs2.2.2.2.1 r' hr'
      have hmem1 : (s.world.conn c).ID ∈ r1.Members := hsub1 _ hmem
      unfold Pump.deferVisit at h1
      cases hl : s.world.loadRoom k with
      | none =>
        rw [hl] at h1
        simp only [Progress.going.injEq] at h1
        subst h1
        exact loadRoom_none_iff s.world k hl r1 hr1 (hname1.trans e)
      | some r0 =>
        rw [hl] at h1
        simp only at h1
        have hw1 := (handOff_going _ _ _ _ h1).2.1
        simp only [Room.submit] at hw1
        have hm := leave_intake_members (s.world.record (.intake k (.leavechan c))) k c k
        rw [← hw1, if_pos rfl] at hm
        have hm1 := members_of_mem_nodup s1.world r1 hnd1 hr1
        rw [hname1.trans e, hm] at hm1
        have : (s.world.conn c).ID ∈ mapDelete (s.world.conn c).ID (s.world.members k) := by
          rw [show ((s.world.record (.intake k (.leavechan c))).conn c).ID
              = (s.world.conn c).ID from rfl,
            show (s.world.record (.intake k (.leavechan c))).members k
              = s.world.members k from rfl] at hm1
          rw [hm1]; exact hmem1
        exact ((mem_mapDelete _ _ _).mp this).2 rfl
    · rw [← (hs1.2.2.1 c).1] at hmem
      exact hrest r' hr' e hmem

theorem outcome_done (o : Progress) (w' : World) (h : o.outcome = .done w') :
    ∃ s', o = .going s' ∧ s'.world = w' := by
  cases o with
  | going s => simp only [Progress.outcome, Outcome.done.injEq] at h; exact ⟨s, rfl, h⟩
  | suspended s c fr => simp [Progress.outcome] at h
  | panicked s => simp [Progress.outcome] at h

/-- `Conn.ReadPump` is the read pump started while no loop is suspended: it has run to its
end exactly when that run has returned, in the state it has reached. -/
theorem readPump_done_iff (w w' : World) (c : Nat) (frames : List Bytes) (e : ReadError) :
    Conn.ReadPump w c frames e = .done w' ↔
      ∃ s', Pump.ReadPump ⟨w, []⟩ c frames e = .going s' ∧ s'.world = w' := by
  unfold Conn.ReadPump
  constructor
  · exact outcome_done _ w'
  · rintro ⟨s', h, hw⟩
    rw [h, ← hw]
    rfl

/-! ## The read pump returns beside a full queue -/

theorem sendBlocking_cases (w : World) (p : Nat) (f : Bytes) (o : Outcome)
    (h : sendBlocking w p f = o) :
    (o = .done (w.enqueue p f) ∧ (w.conn p).Send.closed = false) ∨
    (o = .blocked w p f ∧ (w.conn p).Send.closed = false) ∨
    (o = .panicked w ∧ (w.conn p).Send.closed = true) := by
  unfold sendBlocking at h
  by_cases h1 : (w.conn p).Send.closed = true
  · rw [if_pos h1] at h
    exact Or.inr (Or.inr ⟨h.symm, h1⟩)
  · rw [if_neg h1] at h
    have h1' : (w.conn p).Send.closed = false := by simpa using h1
    by_cases h2 : (w.conn p).Send.buf.length < sendCap
    · rw [if_pos h2] at h
      exact Or.inl ⟨h.symm, h1'⟩
    · rw [if_neg h2] at h
      exact Or.inr (Or.inl ⟨h.symm, h1'⟩)

theorem enqueue_closed (w : World) (p q : Nat) (f : Bytes) :
    ((w.enqueue p f).conn q).Send.closed = (w.conn q).Send.closed := by
  rw [conn_enqueue]
  split
  · rename_i hq; rw [hq.1]
  · rfl

/-- The deferred function never suspends the pump while the rooms it visits are not
suspended and the queue of `c` is open: a confirmation that finds the queue full suspends
the loop of its room, and the pump goes on to the next room. -/
theorem defer_returns (c : Nat) :
    ∀ (ks : List Bytes) (s : Pump), ks.Nodup → (∀ k ∈ ks, s.parked.lookup k = none) →
      (s.world.conn c).Send.closed = false →
      ∃ s', Pump.rangeM (Pump.deferVisit c) ks s = .going s' := by
  intro ks
  induction ks with
  | nil => intro s _ _ _; exact ⟨s, rfl⟩
  | cons k ks ih =>
    intro s hnd hpark hopen
    rw [List.nodup_cons] at hnd
    have hstep : ∃ s1, Pump.deferVisit c s k = .going s1 ∧
        (∀ k' ∈ ks, s1.parked.lookup k' = none) ∧ (s1.world.conn c).Send.closed = false := by
      unfold Pump.deferVisit
      cases hl : s.world.loadRoom k with
      | none => exact ⟨s, rfl, fun k' hk' => hpark k' (List.mem_cons_of_mem _ hk'), hopen⟩
      | some r0 =>
        simp only [Pump.handOff, hpark k (List.mem_cons_self _ _), Room.submit, Room.Start]
        by_cases hmem : ((s.world.record (.intake k (.leavechan c))).conn c).ID
            ∈ (s.world.record (.intake k (.leavechan c))).members k
        · rw [if_pos hmem]
          split
          · rename_i w1 heq
            rcases sendBlocking_cases _ _ _ _ heq with ⟨h1, _⟩ | ⟨h1, _⟩ | ⟨h1, _⟩
            · cases h1
              refine ⟨_, rfl, fun k' hk' => hpark k' (List.mem_cons_of_mem _ hk'), ?_⟩
              exact (enqueue_closed _ c c _).trans hopen
            · cases h1
            · cases h1
          · rename_i w1 p1 f1 heq
            rcases sendBlocking_cases _ _ _ _ heq with ⟨h1, _⟩ | ⟨h1, _⟩ | ⟨h1, _⟩
            · cases h1
            · cases h1
              refine ⟨_, rfl, ?_, hopen⟩
              intro k' hk'
              have hne : k' ≠ k := fun e => hnd.1 (e ▸ hk')
              simp only
              rw [List.lookup_append, hpark k' (List.mem_cons_of_mem _ hk')]
              have hb : (k' == k) = false := by simpa using hne
              simp [List.lookup, hb]
            · cases h1
          · rename_i w1 heq
            rcases sendBlocking_cases _ _ _ _ heq with ⟨h1, _⟩ | ⟨h1, _⟩ | ⟨h1, h2⟩
            · cases h1
            · cases h1
            · have h3 : (s.world.conn c).Send.closed = true := h2
              rw [hopen] at h3
              cases h3
        · rw [if_neg hmem]
          exact ⟨_, rfl, fun k' hk' => hpark k' (List.mem_cons_of_mem _ hk'), hopen⟩
    obtain ⟨s1, h1, hp1, ho1⟩ := hstep
    obtain ⟨s', h'⟩ := ih s1 hnd.2 hp1 ho1
    exact ⟨s', by simp only [Pump.rangeM, h1, Progress.andThen]; exact h'⟩

/-- With no frame and a read error that is not a close, `ReadPump` returns whenever the
queue of `c` is open, be it full or not. -/
theorem readPump_returns (w : World) (c : Nat) (hopen : (w.conn c).Send.closed = false)
    (hn : (w.conn c).Rooms.Nodup) : (Conn.ReadPump w c [] .other).isDone = true := by
  obtain ⟨s', h'⟩ := defer_returns c (w.conn c).Rooms ⟨w, []⟩ hn (fun _ _ => rfl) hopen
  have : Pump.ReadPump ⟨w, []⟩ c [] .other = .going s' := h'
  unfold Conn.ReadPump
  rw [this]
  rfl

/-! ## One frame, from the read pump and on its own -/

theorem broadcastVisit_not_blocked (name : Bytes) (sender : Nat) (data : Bytes) (w : World)
    (k : Bytes) (w' : World) (c : Nat) (f : Bytes) :
    broadcastVisit name sender data w k ≠ .blocked w' c f := by
  unfold broadcastVisit closeSend
  intro h
  split at h
  · cases h
  · split at h
    · cases h
    · split at h
      · cases h
      · split at h
        · cases h
        · split at h <;> cases h

/-- The broadcast intake never suspends the loop of the room: its sends do not wait. -/
theorem broadcast_not_blocked (name : Bytes) (sender : Nat) (data : Bytes) :
    ∀ (ks : List Bytes) (w w' : World) (c : Nat) (f : Bytes),
      rangeM (broadcastVisit name sender data) ks w ≠ .blocked w' c f := by
  intro ks
  induction ks with
  | nil => intro w w' c f h; cases h
  | cons k ks ih =>
    intro w w' c f h
    simp only [rangeM] at h
    cases ho : broadcastVisit name sender data w k with
    | done w1 => rw [ho] at h; exact ih w1 w' c f h
    | blocked w1 c1 f1 => exact broadcastVisit_not_blocked _ _ _ _ _ _ _ _ ho
    | panicked w1 => rw [ho] at h; cases h

/-- A send to a room while no loop is suspended: the state reached is the one the loop
reaches in servicing the value, and the process panics exactly when the loop does. -/
theorem handOff_idle (w : World) (name : Bytes) (i : Intake) :
    (Pump.handOff ⟨w, []⟩ name i).state.world = (Room.submit w name i).world ∧
    (Pump.handOff ⟨w, []⟩ name i).outcome.isPanicked = (Room.submit w name i).isPanicked := by
  simp only [Pump.handOff, List.lookup]
  cases Room.submit w name i <;> exact ⟨rfl, rfl⟩

theorem handOff_idle_emit (w : World) (name : Bytes) (c : Nat) (data : Bytes) :
    (∃ w1, Room.submit w name (.Send c data) = .done w1 ∧
      Pump.handOff ⟨w, []⟩ name (.Send c data) = .going ⟨w1, []⟩) ∨
    (∃ w1, Room.submit w name (.Send c data) = .panicked w1 ∧
      Pump.handOff ⟨w, []⟩ name (.Send c data) = .panicked ⟨w1, []⟩) := by
  simp only [Pump.handOff, List.lookup]
  cases ho : Room.submit w name (.Send c data) with
  | done w1 => exact Or.inl ⟨w1, rfl, rfl⟩
  | blocked w1 c1 f1 =>
    exact absurd ho (broadcast_not_blocked name c data _ _ _ _ _)
  | panicked w1 => exact Or.inr ⟨w1, rfl, rfl⟩

theorem pump_dropAndStop_idle (w : World) (c : Nat) (name : Bytes) :
    (Pump.dropAndStop ⟨w, []⟩ c name).state.world = (dropAndStop w c name).world ∧
    (Pump.dropAndStop ⟨w, []⟩ c name).outcome.isPanicked = (dropAndStop w c name).isPanicked := by
  unfold Pump.dropAndStop dropAndStop
  simp only
  split
  · exact handOff_idle _ name .stopchan
  · exact ⟨rfl, rfl⟩

/-- One frame handled by the read pump while no loop is suspended, and `HandleData` on its
own, reach the same state, and the one panics exactly when the other does. -/
theorem pump_handleData_idle (w : World) (c : Nat) (msg : Message) :
    (Pump.HandleData ⟨w, []⟩ c msg).state.world = (HandleData w c msg).world ∧
    (Pump.HandleData ⟨w, []⟩ c msg).outcome.isPanicked = (HandleData w c msg).isPanicked := by
  unfold Pump.HandleData HandleData
  split
  · -- join
    unfold Pump.Join Conn.Join Room.Join
    cases hr : w.loadRoom msg.Room with
    | none => exact handOff_idle _ _ _
    | some r => exact handOff_idle _ _ _
  · split
    · -- leave
      unfold Pump.Leave Conn.Leave Room.Leave
      cases hr : w.loadRoom msg.Room with
      | none => exact ⟨rfl, rfl⟩
      | some r =>
        simp only
        split
        · exact handOff_idle _ _ _
        · exact ⟨rfl, rfl⟩
    · split
      · -- joined
        unfold Pump.Emit Conn.Emit Room.Emit
        cases hr : w.loadRoom msg.Room with
        | none => exact ⟨rfl, rfl⟩
        | some r => exact handOff_idle _ _ _
      · split
        · -- left
          unfold Pump.Emit Conn.Emit Room.Emit
          cases hr : w.loadRoom msg.Room with
          | none =>
            simp only [Progress.andThen, Outcome.andThen, hr]
            exact ⟨rfl, rfl⟩
          | some r =>
            simp only
            rcases handOff_idle_emit w msg.Room c msg.Bytes with ⟨w1, h1, h2⟩ | ⟨w1, h1, h2⟩
            · rw [h1, h2]
              simp only [Progress.andThen, Outcome.andThen]
              cases hr1 : w1.loadRoom msg.Room with
              | none => exact ⟨rfl, rfl⟩
              | some r1 => exact pump_dropAndStop_idle w1 c msg.Room
            · rw [h1, h2]
              exact ⟨rfl, rfl⟩
        · split
          · -- a destination
            cases hr : w.loadRoom msg.Room with
            | none => exact ⟨rfl, rfl⟩
            | some r =>
              simp only
              split
              · cases hc : w.loadConn msg.Dst with
                | none => exact ⟨rfl, rfl⟩
                | some dst =>
                  simp only
                  cases sendBlocking w dst msg.Bytes <;> exact ⟨rfl, rfl⟩
              · exact ⟨rfl, rfl⟩
          · split
            · exact ⟨rfl, rfl⟩
            · unfold Pump.Emit Conn.Emit Room.Emit
              cases hr : w.loadRoom msg.Room with
              | none => exact ⟨rfl, rfl⟩
              | some r => exact handOff_idle _ _ _

/-! ## The end of the read pump -/

/-- The read pump of a slow consumer.  `B` is a member of `root` and of `lobby` and its
queue holds 256 frames.  Its read pump ends on an error of the socket: both leave
confirmations find the queue full, the loops of `root` and `lobby` are suspended in
sending them, `ReadPump` returns, and `B` is a member of neither room. -/
theorem readPump_slowB :
    (Demo.slowB.conn 1).Send.buf.length = 256 ∧
    Demo.slowB.members roomRoot = [Demo.idA, Demo.idB] ∧
    Demo.slowB.members Demo.lobby = [Demo.idA, Demo.idB] ∧
    (Conn.ReadPump Demo.slowB 1 [] .other).isDone = true ∧
    (Conn.ReadPump Demo.slowB 1 [] .other).world.members roomRoot = [Demo.idA] ∧
    (Conn.ReadPump Demo.slowB 1 [] .other).world.members Demo.lobby = [Demo.idA] ∧
    (Pump.ReadPump ⟨Demo.slowB, []⟩ 1 [] .other).state.parked.map Prod.fst
      = [roomRoot, Demo.lobby] ∧
    ((Conn.ReadPump Demo.slowB 1 [] .other).world.conn 1).Send.buf.length = 256 := by
  decide

/-- C10, counterexample.  Connection `A` has connected and its read pump ends on an error
of the socket.  `ReadPump` runs to its end, and the identifier of `A` is still a key of
the Connection Registry. -/
theorem C10_connection_stays_registered :
    (Conn.ReadPump Demo.oneConn 0 [] .other).isDone = true ∧
    (Conn.ReadPump Demo.oneConn 0 [] .closeError).isDone = true ∧
    (Conn.ReadPump Demo.oneConn 0 [] .other).world.loadConn Demo.idA = some 0 ∧
    (Conn.ReadPump Demo.oneConn 0 [] .closeError).world.loadConn Demo.idA = some 0 := by
  decide

/-- C10, amended.  Whatever the state and whichever loops of rooms are suspended when it
starts: once `ReadPump` of connection `c` has returned, on whatever frames and by either
kind of read error, `c.ID` is in the membership of no room of the Room Registry that the
joined-set of `c` records; so it is in the membership of no room at all when the
joined-set recorded every room of which `c.ID` was a member (which the operations of `c`
keep so).  This holds whether a leave confirmation was enqueued or found the queue full.
The Connection Registry is what it was: `c.ID` is still a key of it. -/
theorem C10_readpump_leaves_rooms (s s' : Pump) (c : Nat) (frames : List Bytes)
    (e : ReadError) (hnd : (s.world.Rooms.map Room.Name).Nodup)
    (h : Pump.ReadPump s c frames e = .going s') :
    (∀ r ∈ s'.world.Rooms, r.Name ∈ (s'.world.conn c).Rooms →
      (s'.world.conn c).ID ∉ r.Members) ∧
    (Joined s.world c → ∀ r ∈ s'.world.Rooms, (s'.world.conn c).ID ∉ r.Members) ∧
    s'.world.Conns = s.world.Conns ∧ (∀ id, s'.world.loadConn id = s.world.loadConn id) ∧
    (s'.world.conn c).ID = (s.world.conn c).ID := by
  unfold Pump.ReadPump at h
  obtain ⟨s1, h1, h2⟩ := andThen_going _ _ _ h
  obtain ⟨hC1, hq1, hN1, hJ1⟩ := kept_pump_readLoop c e frames s s1 h1
  obtain ⟨hs, hnot⟩ := defer_range c _ s1 s' (hN1 hnd) h2
  have hID : (s'.world.conn c).ID = (s1.world.conn c).ID := (hs.2.2.1 c).1
  have hRooms : (s'.world.conn c).Rooms = (s1.world.conn c).Rooms := (hs.2.2.1 c).2
  have hConns : s'.world.Conns = s.world.Conns := hs.1.trans hC1
  refine ⟨?_, ?_, hConns, ?_, hID.trans (hq1 c)⟩
  · intro r' hr' hin hmem
    rw [hID] at hmem
    rw [hRooms] at hin
    exact hnot r' hr' hin hmem
  · intro hj r' hr' hmem
    have hj1 := hJ1 hj
    rw [hID] at hmem
    obtain ⟨r1, hr1, hname, hsub⟩ := hs.2.2.2.1 r' hr'
    have hin : r'.Name ∈ (s1.world.conn c).Rooms := by
      rw [← hname]
      exact hj1.2.2 r1 hr1 (hsub _ hmem)
    exact hnot r' hr' hin hmem
  · intro id
    unfold World.loadConn
    rw [hConns]

/-- C10, amended: an instance.  `B` is a member of `root` and of `lobby` and its queue is
full; its read pump ends on an error of the socket, and both leave confirmations find the
queue full. -/
theorem C10_readpump_leaves_rooms_witness :
    (∀ r ∈ (Pump.ReadPump ⟨Demo.slowB, []⟩ 1 [] .other).state.world.Rooms,
      r.Name ∈ ((Pump.ReadPump ⟨Demo.slowB, []⟩ 1 [] .other).state.world.conn 1).Rooms →
      ((Pump.ReadPump ⟨Demo.slowB, []⟩ 1 [] .other).state.world.conn 1).ID ∉ r.Members) ∧
    (Joined (Pump.mk Demo.slowB []).world 1 →
      ∀ r ∈ (Pump.ReadPump ⟨Demo.slowB, []⟩ 1 [] .other).state.world.Rooms,
        ((Pump.ReadPump ⟨Demo.slowB, []⟩ 1 [] .other).state.world.conn 1).ID ∉ r.Members) ∧
    (Pump.ReadPump ⟨Demo.slowB, []⟩ 1 [] .other).state.world.Conns
      = (Pump.mk Demo.slowB []).world.Conns ∧
    (∀ id, (Pump.ReadPump ⟨Demo.slowB, []⟩ 1 [] .other).state.world.loadConn id
      = (Pump.mk Demo.slowB []).world.loadConn id) ∧
    ((Pump.ReadPump ⟨Demo.slowB, []⟩ 1 [] .other).state.world.conn 1).ID
      = ((Pump.mk Demo.slowB []).world.conn 1).ID :=
  C10_readpump_leaves_rooms ⟨Demo.slowB, []⟩
    (Pump.ReadPump ⟨Demo.slowB, []⟩ 1 [] .other).state 1 [] .other (by decide) (by decide)

/-- The joined-set of `B` in `slowB` records its memberships, so the instance above covers
every room of the registry. -/
theorem joined_slowB : Joined Demo.slowB 1 := by
  unfold Joined
  decide

/-- The same with frames before the end: `B` is a member of `root`; its read pump receives
a frame that asks to join `lobby`, then the socket reports a close.  `ReadPump` returns
and `B` is a member of no room. -/
theorem readPump_twoConns :
    (Conn.ReadPump Demo.twoConns 1 [Demo.joinLobby] .closeError).isDone = true ∧
    (Conn.ReadPump Demo.twoConns 1 [Demo.joinLobby] .closeError).world.Rooms
      = [⟨roomRoot, [Demo.idA]⟩] := by
  decide

end Wsrooms
